import Mathlib

/-!
# Concurrency patterns: or-done, bridge, or-channel, steward

A shallow embedding of the goroutines of

* `pattern/ordone/ordone.go` (`OrDone`),
* `pattern/bridge/bridge.go` (`Bridge`),
* `pattern/or-channel/orchan.go` (`Or`),
* `scale/healing/steward.go` (`newSteward`).

Every goroutine is a step function on an explicit state: the state records
the statement the goroutine is blocked at together with the channels it
talks to, an action names the branch of the `select` (or the channel
operation) that is taken, and the step function answers `none` when that
branch is not ready.  A Go `select` picks any ready branch, so a behaviour of
the program is a list of actions (a schedule) on which the step function never
answers `none`.
-/

namespace GoConc

/-! ## Schedules -/

/-- Run a schedule: perform the actions in order, `none` as soon as one of them
is not enabled. -/
def runWith {σ A : Type} (step : A → σ → Option σ) (s : σ) : List A → Option σ
  | [] => some s
  | a :: as => (step a s).bind (fun s' => runWith step s' as)

/-- Receive side of an unbuffered channel whose sender is not under our
control: `pending` are the values the sender will still hand over, in order,
and `closes` tells whether the sender closes the channel after the last one
(otherwise it just stops sending). -/
structure Upstream (α : Type) where
  pending : List α
  closes : Bool
deriving DecidableEq, Repr

/-! ## `OrDone` (pattern/ordone/ordone.go) -/

namespace OrDone

/-- Where the goroutine of `OrDone` stands. -/
inductive PC (α : Type)
  /-- at the outer `select { case <-done: ... case v, ok := <-c: ... }` -/
  | outer
  /-- at the inner `select { case valStream <- v: case <-done: }` -/
  | inner (v : α)
  /-- returned; the deferred `close(valStream)` has run -/
  | returned
deriving DecidableEq, Repr

/-- The goroutine started by `OrDone(done, c)`: its program point and `c`. -/
structure Goroutine (α : Type) where
  pc : PC α
  c : Upstream α
deriving DecidableEq, Repr

/-- The branches of the two `select` statements. -/
inductive Branch
  /-- branch `case <-done:` (outer or inner select) -/
  | done
  /-- branch `case v, ok := <-c:` (outer select) -/
  | recv
  /-- branch `case valStream <- v:` (inner select) -/
  | send
deriving DecidableEq, Repr

/-- A fresh goroutine, as `go func() { ... }()` in `OrDone` starts it. -/
def spawn {α : Type} (c : Upstream α) : Goroutine α :=
  { pc := PC.outer, c := c }

/-- One branch of a `select` of the goroutine.  `doneClosed` tells whether
`done` is closed, `recvReady` whether a receiver waits on `valStream`.  The
answer is the new goroutine state and the value handed to the receiver, if
any; `none` when the branch is not ready (or the goroutine is elsewhere). -/
def step {α : Type} (doneClosed recvReady : Bool) (b : Branch) (g : Goroutine α) :
    Option (Goroutine α × Option α) :=
  match g.pc, b with
  | PC.outer, Branch.done =>
      -- case <-done: return
      if doneClosed then some ({ g with pc := PC.returned }, none) else none
  | PC.outer, Branch.recv =>
      -- case v, ok := <-c: if !ok { return }
      match g.c.pending with
      | v :: rest => some ({ pc := PC.inner v, c := { g.c with pending := rest } }, none)
      | [] => if g.c.closes then some ({ g with pc := PC.returned }, none) else none
  | PC.inner v, Branch.send =>
      -- case valStream <- v:
      if recvReady then some ({ g with pc := PC.outer }, some v) else none
  | PC.inner _, Branch.done =>
      -- case <-done: (no return; back to the outer select)
      if doneClosed then some ({ g with pc := PC.outer }, none) else none
  | _, _ => none

/-- The goroutine together with its surroundings: the `done` channel and the
reader of `valStream`, who has received `out` so far and will receive `demand`
more values before losing interest. -/
structure Sys (α : Type) where
  g : Goroutine α
  doneClosed : Bool
  out : List α
  demand : Nat
deriving DecidableEq, Repr

/-- Actions of the system: the owner of `done` closes it, or the goroutine
takes a branch of its current `select`. -/
inductive Act
  | closeDone
  | branch (b : Branch)
deriving DecidableEq, Repr

/-- One action of the system. -/
def Sys.step {α : Type} (a : Act) (s : Sys α) : Option (Sys α) :=
  match a with
  | Act.closeDone =>
      if s.doneClosed then none else some { s with doneClosed := true }
  | Act.branch b =>
      match OrDone.step s.doneClosed (decide (0 < s.demand)) b s.g with
      | none => none
      | some (g', none) => some { s with g := g' }
      | some (g', some v) => some { s with g := g', out := s.out ++ [v], demand := s.demand - 1 }

/-- Run a schedule of the system. -/
def Sys.run {α : Type} (s : Sys α) (sched : List Act) : Option (Sys α) :=
  runWith Sys.step s sched

/-- State of `OrDone(done, c)` right after the call: `done` open, nothing
delivered. -/
def init {α : Type} (vs : List α) (closes : Bool) (demand : Nat) : Sys α :=
  { g := spawn { pending := vs, closes := closes }, doneClosed := false, out := [], demand := demand }

/-- Whether the goroutine has returned (and so closed `valStream`). -/
def PC.isReturned {α : Type} : PC α → Bool
  | PC.returned => true
  | _ => false

/-- Whether the goroutine stands at the head of its loop. -/
def PC.isOuter {α : Type} : PC α → Bool
  | PC.outer => true
  | _ => false

/-- Number of loop iterations a schedule starts: the steps taken by the
goroutine at the outer `select`. -/
def iterations {α : Type} (s : Sys α) : List Act → Nat
  | [] => 0
  | a :: as =>
      match Sys.step a s with
      | none => 0
      | some s' =>
          (if s.g.pc.isOuter && decide (a ≠ Act.closeDone) then 1 else 0) + iterations s' as

/-- Value the goroutine holds between the receive from `c` and the send. -/
def PC.inflight {α : Type} : PC α → List α
  | PC.inner v => [v]
  | _ => []

/-- Values the goroutine has yet to deliver: the one in flight and the ones
still pending on `c`; none once it has returned. -/
def Goroutine.rest {α : Type} (g : Goroutine α) : List α :=
  match g.pc with
  | PC.outer => g.c.pending
  | PC.inner v => v :: g.c.pending
  | PC.returned => []

/-- The state of `OrDone` over `[1, 2, 3, 4]` after the reader took `1` and
lost interest, the goroutine took `2` off `c`, and `done` was closed. -/
def abandoned : Sys Nat :=
  { g := { pc := PC.inner 2, c := { pending := [3, 4], closes := false } },
    doneClosed := true, out := [1], demand := 0 }

/-- Number of loop iterations the goroutine can still start once `done` is
closed and nobody reads `valStream`. -/
def Goroutine.laps {α : Type} (g : Goroutine α) : Nat :=
  if g.pc.isReturned then 0 else g.c.pending.length + 1

/-- Number of steps the goroutine can still take when `done` stays open. -/
def Goroutine.fuel {α : Type} (g : Goroutine α) : Nat :=
  match g.pc with
  | PC.outer => 2 * g.c.pending.length + 1
  | PC.inner _ => 2 * g.c.pending.length + 2
  | PC.returned => 0

end OrDone

/-! ## `Bridge` (pattern/bridge/bridge.go) -/

namespace Bridge

/-- Where the goroutine of `Bridge` stands.  While it ranges over
`OrDone(done, stream)` the state carries the goroutine that `OrDone` started
for the current sub-stream. -/
inductive PC (α : Type)
  /-- at `for stream := range chanStream`, waiting for the next sub-stream -/
  | rangeChan
  /-- holding `stream`, at `select { case <-done: return; default: }` -/
  | checkDone (stream : Upstream α)
  /-- at `for v := range OrDone(done, stream)`, waiting for the next value -/
  | rangeOrDone (g : OrDone.Goroutine α)
  /-- holding `v`, at `select { case <-done: case valStream <- v: }` -/
  | sendVal (v : α) (g : OrDone.Goroutine α)
  /-- returned; the deferred `close(valStream)` has run -/
  | returned
deriving DecidableEq, Repr

/-- The goroutine of `Bridge` with its surroundings: `done`; the sender on
the unbuffered `chanStream`, who will still hand over the sub-streams
`chanStream`, in order, and then closes the channel when `chanCloses`;
`chanClosed`, set once the sender has closed it; and the reader of
`valStream`, as for `OrDone.Sys`. -/
structure Sys (α : Type) where
  pc : PC α
  doneClosed : Bool
  chanStream : List (Upstream α)
  chanCloses : Bool
  chanClosed : Bool
  out : List α
  demand : Nat
deriving DecidableEq, Repr

/-- Actions of the system. -/
inductive Act
  /-- the owner of `done` closes it -/
  | closeDone
  /-- the sender closes `chanStream`, after its last sub-stream was taken -/
  | closeChan
  /-- the loop `range chanStream` receives the next sub-stream -/
  | recvStream
  /-- the loop `range chanStream` finds the channel closed: it ends, `Bridge` returns -/
  | rangeEnd
  /-- the `select` with `default` that looks at `done` once -/
  | checkDone
  /-- the goroutine of `OrDone(done, stream)` takes a branch of its `select` -/
  | orDone (b : OrDone.Branch)
  /-- the loop `range OrDone(done, stream)` finds that channel closed and ends -/
  | orDoneClosed
  /-- branch `case <-done:` of the inner `select` -/
  | selDone
  /-- branch `case valStream <- v:` of the inner `select` -/
  | selSend
deriving DecidableEq, Repr

/-- One action of the system; `none` when it is not enabled. -/
def Sys.step {α : Type} (a : Act) (s : Sys α) : Option (Sys α) :=
  match a, s.pc with
  | Act.closeDone, _ =>
      if s.doneClosed then none else some { s with doneClosed := true }
  | Act.closeChan, _ =>
      if s.chanCloses && !s.chanClosed && s.chanStream.isEmpty
      then some { s with chanClosed := true } else none
  | Act.recvStream, PC.rangeChan =>
      match s.chanStream with
      | stream :: later => some { s with pc := PC.checkDone stream, chanStream := later }
      | [] => none
  | Act.rangeEnd, PC.rangeChan =>
      if s.chanClosed then some { s with pc := PC.returned } else none
  | Act.checkDone, PC.checkDone stream =>
      -- select { case <-done: return; default: }, then the call OrDone(done, stream)
      if s.doneClosed then some { s with pc := PC.returned }
      else some { s with pc := PC.rangeOrDone (OrDone.spawn stream) }
  | Act.orDone b, PC.rangeOrDone g =>
      -- Bridge waits on OrDone's channel: a send by OrDone succeeds
      match OrDone.step s.doneClosed true b g with
      | none => none
      | some (g', none) => some { s with pc := PC.rangeOrDone g' }
      | some (g', some v) => some { s with pc := PC.sendVal v g' }
  | Act.orDone b, PC.sendVal v g =>
      -- Bridge is busy with v: OrDone can do anything but send
      match OrDone.step s.doneClosed false b g with
      | some (g', none) => some { s with pc := PC.sendVal v g' }
      | _ => none
  | Act.orDoneClosed, PC.rangeOrDone g =>
      if g.pc.isReturned then some { s with pc := PC.rangeChan } else none
  | Act.selDone, PC.sendVal _ g =>
      if s.doneClosed then some { s with pc := PC.rangeOrDone g } else none
  | Act.selSend, PC.sendVal v g =>
      if 0 < s.demand
      then some { s with pc := PC.rangeOrDone g, out := s.out ++ [v], demand := s.demand - 1 }
      else none
  | _, _ => none

/-- Run a schedule of the system. -/
def Sys.run {α : Type} (s : Sys α) (sched : List Act) : Option (Sys α) :=
  runWith Sys.step s sched

/-- State of `Bridge(done, chanStream)` right after the call. -/
def init {α : Type} (streams : List (Upstream α)) (closes : Bool) (demand : Nat) : Sys α :=
  { pc := PC.rangeChan, doneClosed := false, chanStream := streams, chanCloses := closes,
    chanClosed := false, out := [], demand := demand }

/-- A sub-stream that hands over `vs` and is then closed. -/
def finite {α : Type} (vs : List α) : Upstream α :=
  { pending := vs, closes := true }

/-- The ten sub-streams of `TestBridge`: sub-stream `i` holds `i` and is closed. -/
def testStreams : List (List Nat) :=
  (List.range 10).map (fun i => [i])

/-- State of `Bridge` on a `chanStream` that is open and on which nothing is sent,
after `done` has been closed. -/
def waiting : Sys Nat :=
  { pc := PC.rangeChan, doneClosed := true, chanStream := [], chanCloses := false,
    chanClosed := false, out := [], demand := 1 }

/-- State of `Bridge` after its only sub-stream so far, `[1]`, was closed by its
sender, on a `chanStream` that is still open, with `done` open. -/
def betweenStreams : Sys Nat :=
  { pc := PC.rangeChan, doneClosed := false, chanStream := [], chanCloses := false,
    chanClosed := false, out := [1], demand := 0 }

/-- Values held by `Bridge` and by the goroutine of `OrDone` for the current
sub-stream, and those its sender will still hand over. -/
def PC.values {α : Type} : PC α → List α
  | PC.rangeChan => []
  | PC.checkDone stream => stream.pending
  | PC.rangeOrDone g => g.pc.inflight ++ g.c.pending
  | PC.sendVal v g => v :: (g.pc.inflight ++ g.c.pending)
  | PC.returned => []

/-- Every value in the system, delivered, held or to come, satisfies `P`. -/
def Sys.AllIn {α : Type} (P : α → Prop) (s : Sys α) : Prop :=
  (∀ v ∈ s.out, P v) ∧ (∀ v ∈ s.pc.values, P v) ∧
  (∀ st ∈ s.chanStream, ∀ v ∈ st.pending, P v)

/-- Values of the current sub-stream that `Bridge` has yet to deliver. -/
def PC.rest {α : Type} : PC α → List α
  | PC.rangeChan => []
  | PC.checkDone stream => stream.pending
  | PC.rangeOrDone g => g.rest
  | PC.sendVal v g => v :: g.rest
  | PC.returned => []

/-- Whether the current sub-stream gets closed by its sender. -/
def PC.closes {α : Type} : PC α → Bool
  | PC.rangeChan => true
  | PC.checkDone stream => stream.closes
  | PC.rangeOrDone g => g.c.closes
  | PC.sendVal _ g => g.c.closes
  | PC.returned => true

/-- Steps `Bridge` and `OrDone` can still take on the current sub-stream when
`done` stays open. -/
def PC.fuel {α : Type} : PC α → Nat
  | PC.rangeChan => 1
  | PC.checkDone stream => 3 * stream.pending.length + 4
  | PC.rangeOrDone g => g.fuel + g.rest.length + 2
  | PC.sendVal _ g => g.fuel + g.rest.length + 3
  | PC.returned => 0

/-- All values `Bridge` has yet to deliver. -/
def Sys.rest {α : Type} (s : Sys α) : List α :=
  s.pc.rest ++ (s.chanStream.map Upstream.pending).flatten

/-- Steps the system can still take when `done` stays open. -/
def Sys.fuel {α : Type} (s : Sys α) : Nat :=
  s.pc.fuel + (s.chanStream.map (fun st => 3 * st.pending.length + 4)).sum +
    (if s.chanClosed then 0 else 1)

/-- The invariant of the runs of `Bridge` over sub-streams that all get
closed, on a `chanStream` that gets closed, while `done` is open and the
reader keeps receiving: the values delivered and those to come make up
`total`. -/
def Sys.Flows {α : Type} (total : List α) (s : Sys α) : Prop :=
  s.doneClosed = false ∧ s.chanCloses = true ∧ s.pc.closes = true ∧
  (∀ st ∈ s.chanStream, st.closes = true) ∧
  (s.chanClosed = true → s.chanStream = []) ∧
  s.out ++ s.rest = total ∧ s.rest.length ≤ s.demand

end Bridge

/-! ## `Or` (pattern/or-channel/orchan.go) -/

namespace OrChan

/-- A channel value: `none` is the nil channel, `some i` the channel made by
the `i`-th `make`.  The channels handled by `Or` are cancel tokens: the only
operation performed on one is `close`, and a receive from it is ready exactly
when it is closed (a receive from nil is never ready). -/
abbrev Chan := Option Nat

/-- A goroutine started by `Or`: it waits in a single `select` for a receive
from one of `waits` and then returns, which runs the deferred
`close(orDone)`. -/
structure Node where
  orDone : Nat
  waits : List Chan
deriving DecidableEq, Repr

/-- What a call of `Or` leaves behind: the channel it returns, the goroutines
it started (its own first, then those of the recursive calls), and the number
of channels made so far. -/
structure Built where
  ret : Chan
  nodes : List Node
  next : Nat
deriving DecidableEq, Repr

/-- The call `Or(channels...)`, with `next` the number of channels made before the
call.  The recursive call `Or(append(channels[3:], orDone)...)` is evaluated by
the goroutine when it enters its `select`; it is unfolded here together with
the call that starts the goroutine. -/
def Or (next : Nat) (channels : List Chan) : Built :=
  match channels with
  | [] => { ret := none, nodes := [], next := next }
  | [c] => { ret := c, nodes := [], next := next }
  | [c0, c1] =>
      -- orDone := make(chan interface{}); select on channels[0], channels[1]
      { ret := some next, nodes := [{ orDone := next, waits := [c0, c1] }], next := next + 1 }
  | c0 :: c1 :: c2 :: more =>
      -- orDone := make(chan interface{}); select on channels[0], channels[1],
      -- channels[2] and Or(append(channels[3:], orDone)...)
      let sub := Or (next + 1) (more ++ [some next])
      { ret := some next,
        nodes := { orDone := next, waits := [c0, c1, c2, sub.ret] } :: sub.nodes,
        next := sub.next }
termination_by channels.length
decreasing_by
  simp only [List.length_append, List.length_cons, List.length_nil]
  omega

/-- The channels closed so far, in the order of the `close` calls, and the
goroutines (by position in the list of goroutines) that have returned. -/
structure State where
  closed : List Nat
  exited : List Nat
deriving DecidableEq, Repr

/-- Actions: the owner of input channel `i` closes it, or the `select` of
goroutine number `k` finds one of its channels closed. -/
inductive Act
  | closeInput (i : Nat)
  | fire (k : Nat)
deriving DecidableEq, Repr

/-- Whether a receive from `c` is ready. -/
def ready (closed : List Nat) (c : Chan) : Bool :=
  match c with
  | none => false
  | some i => decide (i ∈ closed)

/-- One action on the goroutines `nodes` started over the input channels
`inputs`; `none` when it is not enabled.  An input is closed by its owner at
most once (a second `close` panics). -/
def step (inputs : List Chan) (nodes : List Node) (a : Act) (s : State) : Option State :=
  match a with
  | Act.closeInput i =>
      if decide (some i ∈ inputs) && !decide (i ∈ s.closed)
      then some { s with closed := s.closed ++ [i] } else none
  | Act.fire k =>
      match nodes[k]? with
      | none => none
      | some n =>
          if !decide (k ∈ s.exited) && n.waits.any (ready s.closed)
          then some { closed := s.closed ++ [n.orDone], exited := s.exited ++ [k] }
          else none

/-- Run a schedule over the goroutines that `Or next channels` starts, from
the state in which every channel is open. -/
def run (next : Nat) (channels : List Chan) (sched : List Act) : Option State :=
  runWith (step channels (Or next channels).nodes) { closed := [], exited := [] } sched

/-- The goroutines `nodes` form a wait tree over `inputs`: they close
pairwise different channels, none of which is an input, and each waits on
inputs and on channels closed by goroutines of the tree only. -/
def WaitTree (inputs : List Chan) (nodes : List Node) : Prop :=
  (nodes.map Node.orDone).Nodup ∧
  (∀ n ∈ nodes, some n.orDone ∉ inputs) ∧
  (∀ n ∈ nodes, ∀ w ∈ n.waits, w ∈ inputs ∨ ∃ m ∈ nodes, w = some m.orDone)

/-- The invariant of the runs: a goroutine's channel is closed only when an
input is, and it has been closed once when the goroutine has returned and not
at all before. -/
def Inv (inputs : List Chan) (nodes : List Node) (s : State) : Prop :=
  (∀ n ∈ nodes, n.orDone ∈ s.closed → ∃ i, some i ∈ inputs ∧ i ∈ s.closed) ∧
  (∀ k n, nodes[k]? = some n → s.closed.count n.orDone = if k ∈ s.exited then 1 else 0)

/-- The five channels of `TestOrChannel`, made before the call of `Or`. -/
def testChannels : List Chan := [some 0, some 1, some 2, some 3, some 4]

end OrChan

/-! ## `newSteward` (scale/healing/steward.go) -/

namespace Steward

open OrChan (Chan Built Or ready)

/-- Where the goroutine of the steward stands. -/
inductive PC
  /-- before the first `startWard()` -/
  | starting
  /-- at the `select` of the inner loop of `monitorLoop` -/
  | monitoring
  /-- in the `timeoutSignal` branch, after `close(wardDone)`, before `startWard()` -/
  | restarting
  /-- returned; the deferred `close(heartbeat)` has run -/
  | stopped
deriving DecidableEq, Repr

/-- The heartbeat channel a ward handed back: nil (as the ward of
`TestSteward` does), open, or closed by the ward. -/
inductive Heartbeat
  | absent
  | live
  | shut
deriving DecidableEq, Repr

/-- The arguments of `newSteward` and of the function it returns, and the
steward's own `heartbeat` channel.  Durations are nanoseconds, as
`time.Duration`. -/
structure Config where
  timeout : Int
  pulseInterval : Int
  done : Chan
  heartbeat : Nat
deriving DecidableEq, Repr

/-- One call of `startGoroutine`: the `wardDone` made for it, what
`Or(wardDone, done)` built, and the pulse interval passed. -/
structure Gen where
  wardDone : Nat
  token : Built
  pulseInterval : Int
deriving DecidableEq, Repr

/-- State of the steward: the variables `wardDone` and `wardHeartbeat`, the
calls of `startGoroutine` so far (oldest first), the channels closed so far
(in the order of the `close` calls), the pulses taken off `heartbeat` by its
reader, the clock, and the instant at which `timeoutSignal` fires. -/
structure State where
  pc : PC
  next : Nat
  wardDone : Chan
  wardHeartbeat : Heartbeat
  gens : List Gen
  closed : List Nat
  pulses : Nat
  now : Int
  timeoutSignal : Int
deriving DecidableEq, Repr

/-- Actions: the statements and `select` branches of the steward, and what
its surroundings do. -/
inductive Act
  /-- the call `startWard()`; the ward hands back the heartbeat channel `hb` -/
  | startWard (hb : Heartbeat)
  /-- branch `case <-pulse:` with its non-blocking send, `received` by a reader or dropped -/
  | pulse (received : Bool)
  /-- branch `case <-wardHeartbeat:` -/
  | wardHeartbeat
  /-- branch `case <-timeoutSignal:` up to and including `close(wardDone)` -/
  | timeout
  /-- branch `case <-done:` -/
  | done
  /-- the owner of `done` closes it -/
  | closeDone
  /-- the ward closes its heartbeat channel -/
  | wardCloses
  /-- time passes: `d` nanoseconds -/
  | tick (d : Nat)
deriving DecidableEq, Repr

/-- The closure `startWard`: make `wardDone`, call
`startGoroutine(Or(wardDone, done), timeout/2)`, keep its heartbeat. -/
def startWard (cfg : Config) (hb : Heartbeat) (s : State) : State :=
  let token := Or (s.next + 1) [some s.next, cfg.done]
  { s with
    next := token.next
    wardDone := some s.next
    wardHeartbeat := hb
    gens := s.gens ++ [{ wardDone := s.next, token := token,
                         pulseInterval := cfg.timeout.tdiv 2 }] }

/-- The head of `monitorLoop`: `timeoutSignal := time.After(timeout)`. -/
def monitorLoop (cfg : Config) (s : State) : State :=
  { s with pc := PC.monitoring, timeoutSignal := s.now + cfg.timeout }

/-- One action; `none` when it is not enabled.  The ticker `pulse` is not
timed: a tick may be there at any moment, unless `pulseInterval` is not
positive (`time.Tick` then returns nil). -/
def step (cfg : Config) (a : Act) (s : State) : Option State :=
  match a, s.pc with
  | Act.startWard hb, PC.starting => some (monitorLoop cfg (startWard cfg hb s))
  | Act.startWard hb, PC.restarting => some (monitorLoop cfg (startWard cfg hb s))
  | Act.pulse received, PC.monitoring =>
      -- select { case heartbeat <- struct{}{}: default: }
      if 0 < cfg.pulseInterval
      then some { s with pulses := s.pulses + (if received then 1 else 0) } else none
  | Act.wardHeartbeat, PC.monitoring =>
      -- continue monitorLoop
      if s.wardHeartbeat = Heartbeat.absent then none else some (monitorLoop cfg s)
  | Act.timeout, PC.monitoring =>
      -- log.Println(...); close(wardDone)
      if s.timeoutSignal ≤ s.now then
        match s.wardDone with
        | some w => some { s with pc := PC.restarting, closed := s.closed ++ [w] }
        | none => none
      else none
  | Act.done, PC.monitoring =>
      -- return, then the deferred close(heartbeat)
      if ready s.closed cfg.done
      then some { s with pc := PC.stopped, closed := s.closed ++ [cfg.heartbeat] } else none
  | Act.closeDone, _ =>
      match cfg.done with
      | some d => if d ∈ s.closed then none else some { s with closed := s.closed ++ [d] }
      | none => none
  | Act.wardCloses, _ =>
      if s.wardHeartbeat = Heartbeat.live
      then some { s with wardHeartbeat := Heartbeat.shut } else none
  | Act.tick d, _ => some { s with now := s.now + d }
  | _, _ => none

/-- The arguments of a call `newSteward(timeout, startGoroutine)(done,
pulseInterval)` made when `next` channels exist: `heartbeat` is the next
channel made. -/
def config (timeout pulseInterval : Int) (done : Chan) (next : Nat) : Config :=
  { timeout := timeout, pulseInterval := pulseInterval, done := done, heartbeat := next }

/-- The steward's goroutine at its start, right after `heartbeat` was made. -/
def init (next : Nat) : State :=
  { pc := PC.starting, next := next + 1, wardDone := none, wardHeartbeat := Heartbeat.absent,
    gens := [], closed := [], pulses := 0, now := 0, timeoutSignal := 0 }

/-- Run a schedule of the steward called when `next` channels exist. -/
def run (timeout pulseInterval : Int) (done : Chan) (next : Nat) (sched : List Act) :
    Option State :=
  runWith (step (config timeout pulseInterval done next)) (init next) sched

/-- Whether the steward is past `startWard()` and before the next
`close(wardDone)`. -/
def PC.watching : PC → Bool
  | PC.monitoring => true
  | PC.stopped => true
  | _ => false

/-- The `wardDone` channels of the generations whose `wardDone` is open. -/
def State.openWards (s : State) : List Nat :=
  (s.gens.map Gen.wardDone).filter (fun w => !decide (w ∈ s.closed))

/-- The invariant of the steward's runs. -/
def State.Inv (cfg : Config) (s : State) : Prop :=
  cfg.heartbeat < s.next ∧ (∀ d, cfg.done = some d → d < cfg.heartbeat) ∧
  (∀ x ∈ s.closed, x < s.next) ∧
  (∀ g ∈ s.gens, cfg.heartbeat < g.wardDone ∧ g.wardDone < s.next) ∧
  s.openWards = (if s.pc.watching then s.wardDone.toList else []) ∧
  (∀ g ∈ s.gens, s.closed.count g.wardDone ≤ 1) ∧
  (∀ g ∈ s.gens, g.token = Or (g.wardDone + 1) [some g.wardDone, cfg.done] ∧
    g.pulseInterval = cfg.timeout.tdiv 2)

/-- Once a ward was started, the variable `wardDone` holds the `wardDone` of
the generation started last. -/
def State.Current (s : State) : Prop :=
  s.pc ≠ PC.starting → ∃ g, s.gens.getLast? = some g ∧ s.wardDone = some g.wardDone

/-- Arguments of `TestSteward`: timeout 4 s, pulse interval 4 s, `done` the first channel
made, a ward that hands back a nil heartbeat. -/
def testConfig : Config := config 4000000000 4000000000 (some 0) 1

/-- The schedule of `TestSteward` cut short: the ward is started, one
timeout window passes, the ward is restarted, `done` is closed and seen. -/
def testSchedule : List Act :=
  [Act.startWard Heartbeat.absent, Act.tick 4000000000, Act.timeout,
   Act.startWard Heartbeat.absent, Act.closeDone, Act.done]

/-- The state `testSchedule` ends in. -/
def testFinal : State :=
  { pc := PC.stopped, next := 6, wardDone := some 4, wardHeartbeat := Heartbeat.absent,
    gens := [{ wardDone := 2, token := Or 3 [some 2, some 0], pulseInterval := 2000000000 },
             { wardDone := 4, token := Or 5 [some 4, some 0], pulseInterval := 2000000000 }],
    closed := [2, 0, 1], pulses := 0, now := 4000000000, timeoutSignal := 8000000000 }

/-- The steward of `TestSteward` watching a ward whose heartbeat channel the
ward has closed. -/
def wardGone : State :=
  { pc := PC.monitoring, next := 4, wardDone := some 2, wardHeartbeat := Heartbeat.shut,
    gens := [{ wardDone := 2, token := Or 3 [some 2, some 0], pulseInterval := 2000000000 }],
    closed := [], pulses := 0, now := 0, timeoutSignal := 4000000000 }

/-- The steward of `TestSteward` watching its first ward after `done` was
closed. -/
def doneSeen : State :=
  { pc := PC.monitoring, next := 4, wardDone := some 2, wardHeartbeat := Heartbeat.absent,
    gens := [{ wardDone := 2, token := Or 3 [some 2, some 0], pulseInterval := 2000000000 }],
    closed := [0], pulses := 0, now := 0, timeoutSignal := 4000000000 }

/-- The steward of `TestSteward` one timeout window after the start, with
`done` closed at the very moment `timeoutSignal` fires: both branches of the
`select` are ready. -/
def doneAndTimeout : State :=
  { pc := PC.monitoring, next := 4, wardDone := some 2, wardHeartbeat := Heartbeat.absent,
    gens := [{ wardDone := 2, token := Or 3 [some 2, some 0], pulseInterval := 2000000000 }],
    closed := [0], pulses := 0, now := 4000000000, timeoutSignal := 4000000000 }

/-- The state `doneAndTimeout` after the `select` took `timeoutSignal` and
`startWard()` ran: a second generation, started after `done` was closed. -/
def lateGeneration : State :=
  { pc := PC.monitoring, next := 6, wardDone := some 4, wardHeartbeat := Heartbeat.absent,
    gens := [{ wardDone := 2, token := Or 3 [some 2, some 0], pulseInterval := 2000000000 },
             { wardDone := 4, token := Or 5 [some 4, some 0], pulseInterval := 2000000000 }],
    closed := [0, 2], pulses := 0, now := 4000000000, timeoutSignal := 8000000000 }

/-- Whether action `a` may happen in state `s` of a run kept on schedule: the
ward never pulses (its heartbeat is nil or stays silent and open), the
statements of the steward take no time and the steward acts as soon as a
branch is ready, so time passes only while it waits in its `select` with
`done` open, and never beyond the instant `timeoutSignal` fires; `done` is
closed `d` nanoseconds after the start. -/
def onSchedule (cfg : Config) (d : Nat) (s : State) (a : Act) : Bool :=
  match a with
  | Act.tick n =>
      decide (s.pc = PC.stopped) ||
      (decide (s.pc = PC.monitoring) && !ready s.closed cfg.done &&
        decide (s.now + n ≤ s.timeoutSignal) && decide (s.now + n ≤ d))
  | Act.closeDone => decide (s.now = d)
  | Act.wardHeartbeat => false
  | Act.wardCloses => false
  | Act.startWard hb => decide (hb ≠ Heartbeat.shut)
  | _ => true

/-- One action of a run kept on schedule. -/
def stepOnSchedule (cfg : Config) (d : Nat) (a : Act) (s : State) : Option State :=
  if onSchedule cfg d s a then step cfg a s else none

/-- Run a schedule kept on schedule, of the steward with timeout `t`
nanoseconds whose `done` is closed after `d` nanoseconds. -/
def runOnSchedule (t : Nat) (pulseInterval : Int) (done : Chan) (next d : Nat)
    (sched : List Act) : Option State :=
  runWith (stepOnSchedule (config t pulseInterval done next) d) (init next) sched

/-- The invariant of the runs kept on schedule, with timeout `t` and `done`
closed after `d`: generation `k + 1` is started at the instant `k * t`. -/
def State.OnSchedule (cfg : Config) (t d : Nat) (s : State) : Prop :=
  match s.pc with
  | PC.starting => s.gens = [] ∧ s.now = 0 ∧ ready s.closed cfg.done = false
  | PC.monitoring =>
      ∃ k, s.gens.length = k + 1 ∧ s.timeoutSignal = ((k * t + t : Nat) : Int) ∧
        ((k * t : Nat) : Int) ≤ s.now ∧ s.now ≤ s.timeoutSignal ∧
        (if ready s.closed cfg.done then s.now = d else s.now ≤ d)
  | PC.restarting =>
      ∃ k, s.gens.length = k + 1 ∧ s.now = ((k * t + t : Nat) : Int) ∧
        ready s.closed cfg.done = false ∧ s.now ≤ d
  | PC.stopped => s.gens.length = 1 + d / t

/-- One timeout window of a ward that never pulses: the window passes,
`timeoutSignal` is taken, the ward is restarted. -/
def window (t : Nat) : List Act :=
  [Act.tick t, Act.timeout, Act.startWard Heartbeat.absent]

/-- The schedule of a steward with timeout `t` over a ward that never pulses,
cancelled after `d` nanoseconds. -/
def silentSchedule (t d : Nat) : List Act :=
  Act.startWard Heartbeat.absent :: (List.replicate (d / t) (window t)).flatten ++
    [Act.tick (d % t), Act.closeDone, Act.done]

end Steward

/-! ## Heartbeats (scale/heartbeat/interval, scale/heartbeat/workbegin) -/

namespace Pulse

/-- What became of a pulse offered with `select { case heartbeat <-
struct{}{}: default: }`. -/
inductive Outcome
  /-- taken by a receiver that was waiting -/
  | handed
  /-- put into the buffer of the channel -/
  | buffered
  /-- the `default` branch: the pulse is dropped -/
  | dropped
deriving DecidableEq, Repr

/-- A heartbeat channel: the capacity it was made with (0 for `make(chan
any)`, 1 for `make(chan any, 1)`) and the number of pulses in its buffer. -/
structure Chan where
  cap : Nat
  pending : Nat
deriving DecidableEq, Repr

/-- The closure `sendPulse` of the interval worker, and the same statement
in the steward and in the other workers: `select { case heartbeat <-
struct{}{}: default: }`, with `receiver` telling whether a receiver waits on
`heartbeat`.  The send is taken when a receiver waits or the buffer has room;
otherwise `default` is. -/
def sendPulse (heartbeat : Chan) (receiver : Bool) : Chan × Outcome :=
  if receiver then (heartbeat, Outcome.handed)
  else if heartbeat.pending < heartbeat.cap then
    ({ heartbeat with pending := heartbeat.pending + 1 }, Outcome.buffered)
  else (heartbeat, Outcome.dropped)

/-- The heartbeat channel after `n` calls of `sendPulse` in a row with no
receiver, and what became of each pulse. -/
def sendPulses : Nat → Chan → Chan × List Outcome
  | 0, heartbeat => (heartbeat, [])
  | n + 1, heartbeat =>
      let first := sendPulse heartbeat false
      let later := sendPulses n first.1
      (later.1, first.2 :: later.2)

/-- The heartbeat channel of the interval worker `doWork` and of the steward:
`make(chan any)`. -/
def unbuffered : Chan := { cap := 0, pending := 0 }

/-- The heartbeat channel of `doWork2` and of the work-begin worker:
`make(chan any, 1)`. -/
def oneSlot : Chan := { cap := 1, pending := 0 }

end Pulse

/-! ### `doWork` of scale/heartbeat/workbegin -/

namespace WorkBegin

open Pulse (Outcome sendPulse)

/-- Where the goroutine of `doWork` stands. -/
inductive PC
  /-- at the head of `for _, n := range works`, with `rest` still to range over -/
  | range (rest : List Int)
  /-- past the pulse, at `select { case <-done: return; case results <- n: }` -/
  | send (n : Int) (rest : List Int)
  /-- returned; `results` and `heartbeat` are closed -/
  | returned
deriving DecidableEq, Repr

/-- The goroutine with its surroundings: the `heartbeat` channel and the
number of pulses its reader got (`beats`), `done`, and the reader of
`results`, who has received `out` and will receive `demand` more values. -/
structure Sys where
  pc : PC
  heartbeat : Pulse.Chan
  beats : Nat
  doneClosed : Bool
  out : List Int
  demand : Nat
deriving DecidableEq, Repr

/-- Actions of the system. -/
inductive Act
  /-- the owner of `done` closes it -/
  | closeDone
  /-- the pulse before a unit of work, with or without a waiting `receiver` -/
  | pulse (receiver : Bool)
  /-- the reader of `heartbeat` takes the pulse that is in the buffer -/
  | recvPulse
  /-- branch `case <-done:` -/
  | selDone
  /-- branch `case results <- n:` -/
  | selSend
  /-- the range over `works` is exhausted: the goroutine returns -/
  | finish
deriving DecidableEq, Repr

/-- One action; `none` when it is not enabled.  A receiver can only be
waiting on `heartbeat` while its buffer is empty. -/
def step (a : Act) (s : Sys) : Option Sys :=
  match a, s.pc with
  | Act.closeDone, _ =>
      if s.doneClosed then none else some { s with doneClosed := true }
  | Act.recvPulse, _ =>
      if 0 < s.heartbeat.pending
      then some { s with heartbeat := { s.heartbeat with pending := s.heartbeat.pending - 1 },
                         beats := s.beats + 1 }
      else none
  | Act.pulse receiver, PC.range (n :: rest) =>
      if receiver && decide (0 < s.heartbeat.pending) then none
      else
        let sent := sendPulse s.heartbeat receiver
        some { s with pc := PC.send n rest, heartbeat := sent.1,
                      beats := s.beats + (if sent.2 = Outcome.handed then 1 else 0) }
  | Act.finish, PC.range [] => some { s with pc := PC.returned }
  | Act.selDone, PC.send _ _ =>
      if s.doneClosed then some { s with pc := PC.returned } else none
  | Act.selSend, PC.send n rest =>
      if 0 < s.demand
      then some { s with pc := PC.range rest, out := s.out ++ [n], demand := s.demand - 1 }
      else none
  | _, _ => none

/-- The state of `doWork(done, works...)` when its goroutine starts working
(after the `time.Sleep` that simulates a delay). -/
def init (works : List Int) (demand : Nat) : Sys :=
  { pc := PC.range works, heartbeat := Pulse.oneSlot, beats := 0, doneClosed := false,
    out := [], demand := demand }

/-- Run a schedule of the system. -/
def run (works : List Int) (demand : Nat) (sched : List Act) : Option Sys :=
  runWith step (init works demand) sched

/-- Units of work the goroutine has yet to deliver. -/
def PC.rest : PC → List Int
  | PC.range rest => rest
  | PC.send n rest => n :: rest
  | PC.returned => []

/-- Steps the system can still take while `done` stays open. -/
def Sys.fuel (s : Sys) : Nat :=
  (match s.pc with
    | PC.range rest => 3 * rest.length + 1
    | PC.send _ rest => 3 * rest.length + 2
    | PC.returned => 0) + s.heartbeat.pending

end WorkBegin

/-! ### `doWork2` of scale/heartbeat/interval -/

namespace Interval

open Pulse (Outcome sendPulse)

/-- Where the goroutine of `doWork2` stands. -/
inductive PC
  /-- in `for _, n := range works` with `rest` still to range over: at the
  `select` of the inner loop for the head of `rest`, or at the end of the range -/
  | range (rest : List Int)
  /-- returned; `results` and `heartbeat` are closed -/
  | returned
deriving DecidableEq, Repr

/-- The goroutine with its surroundings, as for `WorkBegin.Sys`, and the
`pulseInterval` its ticker was made with. -/
structure Sys where
  pc : PC
  pulseInterval : Int
  heartbeat : Pulse.Chan
  beats : Nat
  doneClosed : Bool
  out : List Int
  demand : Nat
deriving DecidableEq, Repr

/-- Actions of the system. -/
inductive Act
  /-- the owner of `done` closes it -/
  | closeDone
  /-- branch `case <-pulse:` with its non-blocking send -/
  | selPulse (receiver : Bool)
  /-- the reader of `heartbeat` takes the pulse that is in the buffer -/
  | recvPulse
  /-- branch `case <-done:` -/
  | selDone
  /-- branch `case results <- n:` -/
  | selSend
  /-- the range over `works` is exhausted: the goroutine returns -/
  | finish
deriving DecidableEq, Repr

/-- One action; `none` when it is not enabled.  The ticker is not timed: a
tick may be there at any moment, unless `pulseInterval` is not positive
(`time.Tick` then returns nil). -/
def step (a : Act) (s : Sys) : Option Sys :=
  match a, s.pc with
  | Act.closeDone, _ =>
      if s.doneClosed then none else some { s with doneClosed := true }
  | Act.recvPulse, _ =>
      if 0 < s.heartbeat.pending
      then some { s with heartbeat := { s.heartbeat with pending := s.heartbeat.pending - 1 },
                         beats := s.beats + 1 }
      else none
  | Act.selPulse receiver, PC.range (_ :: _) =>
      if decide (0 < s.pulseInterval) && !(receiver && decide (0 < s.heartbeat.pending)) then
        let sent := sendPulse s.heartbeat receiver
        some { s with heartbeat := sent.1,
                      beats := s.beats + (if sent.2 = Outcome.handed then 1 else 0) }
      else none
  | Act.selDone, PC.range (_ :: _) =>
      if s.doneClosed then some { s with pc := PC.returned } else none
  | Act.selSend, PC.range (n :: rest) =>
      -- continue loop
      if 0 < s.demand
      then some { s with pc := PC.range rest, out := s.out ++ [n], demand := s.demand - 1 }
      else none
  | Act.finish, PC.range [] => some { s with pc := PC.returned }
  | _, _ => none

/-- The state of `doWork2(done, pulseInterval, works...)` when its goroutine
starts working (after the `time.Sleep` that simulates a delay). -/
def init (pulseInterval : Int) (works : List Int) (demand : Nat) : Sys :=
  { pc := PC.range works, pulseInterval := pulseInterval, heartbeat := Pulse.oneSlot,
    beats := 0, doneClosed := false, out := [], demand := demand }

/-- Run a schedule of the system. -/
def run (pulseInterval : Int) (works : List Int) (demand : Nat) (sched : List Act) :
    Option Sys :=
  runWith step (init pulseInterval works demand) sched

/-- Units of work the goroutine has yet to deliver. -/
def PC.rest : PC → List Int
  | PC.range rest => rest
  | PC.returned => []

/-- Whether an action is a step of the work itself, not of the heartbeat. -/
def Act.isWork : Act → Bool
  | Act.selSend => true
  | Act.finish => true
  | _ => false

end Interval

/-! ## `doWorkFn` (scale/healing/wardclosure.go) -/

namespace WardClosure

open Pulse (Outcome sendPulse)

/-- Where the goroutine of one generation of the ward `doWork`, the closure
that `doWorkFn` returns, stands. -/
inductive PC
  /-- at `select { case intChanStream <- intStream: case <-done: return }` -/
  | offer
  /-- at the head of `for _, intVal := range intList`, with `rest` still to range over -/
  | range (rest : List Int)
  /-- holding a value that is not negative, at the `select` of the innermost loop -/
  | send (intVal : Int) (rest : List Int)
  /-- returned; the deferred `close(intStream)` has run -/
  | returned
deriving DecidableEq, Repr

/-- One generation: the list `intList` it closes over, the values it has
sent on its own `intStream` (`emitted`), its unbuffered `heartbeat` and the
pulses taken off it, the interval of its ticker, and its `done`. -/
structure Gen where
  pc : PC
  intList : List Int
  emitted : List Int
  pulseInterval : Int
  heartbeat : Pulse.Chan
  beats : Nat
  doneClosed : Bool
deriving DecidableEq, Repr

/-- Actions of one generation. -/
inductive Act
  /-- the generation's `done` is closed -/
  | closeDone
  /-- branch `case intChanStream <- intStream:`, the bridge taking the stream -/
  | offer
  /-- branch `case <-done: return` of the first `select` -/
  | offerDone
  /-- the head of the range: the next `intVal` is looked at, or, the range
  being exhausted, the outer `for` starts it again -/
  | next
  /-- branch `case <-pulse:` with its non-blocking send -/
  | selPulse (receiver : Bool)
  /-- branch `case intStream <- intVal:`, then `continue valueLoop` -/
  | selSend
  /-- branch `case <-done: return` of the innermost `select` -/
  | selDone
deriving DecidableEq, Repr

/-- One action; `none` when it is not enabled. -/
def step (a : Act) (g : Gen) : Option Gen :=
  match a, g.pc with
  | Act.closeDone, _ =>
      if g.doneClosed then none else some { g with doneClosed := true }
  | Act.offer, PC.offer => some { g with pc := PC.range g.intList }
  | Act.offerDone, PC.offer =>
      if g.doneClosed then some { g with pc := PC.returned } else none
  | Act.next, PC.range [] => some { g with pc := PC.range g.intList }
  | Act.next, PC.range (intVal :: rest) =>
      -- if intVal < 0 { return }
      if intVal < 0 then some { g with pc := PC.returned }
      else some { g with pc := PC.send intVal rest }
  | Act.selPulse receiver, PC.send _ _ =>
      if 0 < g.pulseInterval then
        let sent := sendPulse g.heartbeat receiver
        some { g with heartbeat := sent.1,
                      beats := g.beats + (if sent.2 = Outcome.handed then 1 else 0) }
      else none
  | Act.selSend, PC.send intVal rest =>
      some { g with pc := PC.range rest, emitted := g.emitted ++ [intVal] }
  | Act.selDone, PC.send _ _ =>
      if g.doneClosed then some { g with pc := PC.returned } else none
  | _, _ => none

/-- A generation right after `doWork(done, pulseInterval)` started its
goroutine. -/
def init (pulseInterval : Int) (intList : List Int) : Gen :=
  { pc := PC.offer, intList := intList, emitted := [], pulseInterval := pulseInterval,
    heartbeat := Pulse.unbuffered, beats := 0, doneClosed := false }

/-- Run a schedule of one generation. -/
def run (pulseInterval : Int) (intList : List Int) (sched : List Act) : Option Gen :=
  runWith step (init pulseInterval intList) sched

/-- What the generation has yet to range over in the current pass, the value
it holds included. -/
def PC.ahead (intList : List Int) : PC → List Int
  | PC.offer => intList
  | PC.range rest => rest
  | PC.send intVal rest => intVal :: rest
  | PC.returned => []

/-- The numbers of `TestWardClosure`. -/
def testList : List Int := [1, 2, -1, 3, 4, 5]

end WardClosure

/-! ## `Repeat` and `Take` (pattern/pipeline/stage/stage.go) -/

namespace Stage

/-- Where the goroutine of `Repeat` stands. -/
inductive RepeatPC (α : Type)
  /-- at the head of `for _, v := range values`, with `rest` still to range over -/
  | range (rest : List α)
  /-- holding `v`, at `select { case <-done: return; case valueStream <- v: }` -/
  | send (v : α) (rest : List α)
  /-- returned; the deferred `close(valueStream)` has run -/
  | returned
deriving DecidableEq, Repr

/-- The steps of the goroutine of `Repeat`. -/
inductive RepeatBranch
  /-- the head of the range: the next value is taken up, or, the range being
  exhausted, the outer `for` starts it again -/
  | next
  /-- branch `case <-done:` -/
  | done
  /-- branch `case valueStream <- v:` -/
  | send
deriving DecidableEq, Repr

/-- One step of the goroutine of `Repeat(done, values...)`: the new program
point and the value handed to the receiver, if any; `none` when the step is not
enabled.  `receiver` tells whether a receiver waits on `valueStream`. -/
def Repeat {α : Type} (values : List α) (doneClosed receiver : Bool) (b : RepeatBranch)
    (pc : RepeatPC α) : Option (RepeatPC α × Option α) :=
  match b, pc with
  | RepeatBranch.next, RepeatPC.range [] => some (RepeatPC.range values, none)
  | RepeatBranch.next, RepeatPC.range (v :: rest) => some (RepeatPC.send v rest, none)
  | RepeatBranch.done, RepeatPC.send _ _ =>
      if doneClosed then some (RepeatPC.returned, none) else none
  | RepeatBranch.send, RepeatPC.send v rest =>
      if receiver then some (RepeatPC.range rest, some v) else none
  | _, _ => none

/-- Where the goroutine of `Take` stands.  A value is `none` for the nil that
a receive from a closed channel yields. -/
inductive TakePC (α : Type)
  /-- at the head of `for i := 0; i < num; i++`, before the condition is looked at -/
  | head (i : Int)
  /-- holding what `<-valueStream` yielded, at the `select` -/
  | sel (i : Int) (v : Option α)
  /-- returned; the deferred `close(takeStream)` has run -/
  | returned
deriving DecidableEq, Repr

/-- The steps of the goroutine of `Take`. -/
inductive TakeBranch
  /-- the condition `i < num` fails: the loop ends, the goroutine returns -/
  | exit
  /-- the operand `<-valueStream` of the send is evaluated on entering the `select` -/
  | recv
  /-- branch `case <-done:` -/
  | done
  /-- branch `case takeStream <- ...:` -/
  | send
deriving DecidableEq, Repr

/-- One step of the goroutine of `Take(done, valueStream, num)`: the new
program point and the value handed to the reader of `takeStream`, if any.
`incoming` is what a receive from `valueStream` yields now: nothing (`none`, it
would block), a value, or nil from a closed channel (`some none`); `reader`
tells whether a reader waits on `takeStream`. -/
def Take {α : Type} (num : Int) (doneClosed : Bool) (incoming : Option (Option α))
    (reader : Bool) (b : TakeBranch) (pc : TakePC α) :
    Option (TakePC α × Option (Option α)) :=
  match b, pc with
  | TakeBranch.exit, TakePC.head i =>
      if i < num then none else some (TakePC.returned, none)
  | TakeBranch.recv, TakePC.head i =>
      if i < num then
        match incoming with
        | none => none
        | some v => some (TakePC.sel i v, none)
      else none
  | TakeBranch.done, TakePC.sel _ _ =>
      if doneClosed then some (TakePC.returned, none) else none
  | TakeBranch.send, TakePC.sel i v =>
      if reader then some (TakePC.head (i + 1), some v) else none
  | _, _ => none

/-- The system `Take(done, Repeat(done, values...), num)`: both goroutines,
`done`, and the reader of `takeStream`, who has received `out` and will
receive `demand` more values. -/
structure TakeRepeat (α : Type) where
  rep : RepeatPC α
  take : TakePC α
  doneClosed : Bool
  out : List (Option α)
  demand : Nat
deriving DecidableEq, Repr

/-- Actions of the system. -/
inductive Act
  /-- the owner of `done` closes it -/
  | closeDone
  /-- `Repeat` takes up its next value, or takes `case <-done:` -/
  | rep (b : RepeatBranch)
  /-- `Repeat` sends and `Take` receives: the unbuffered `valueStream` passes a value -/
  | handoff
  /-- `Take` leaves its loop, receives from a closed `valueStream`, takes
  `case <-done:` or sends to its reader -/
  | take (b : TakeBranch)
deriving DecidableEq, Repr

/-- One action of `Take(done, Repeat(done, values...), num)`; `none` when it
is not enabled. -/
def TakeRepeat.step {α : Type} (values : List α) (num : Int) (a : Act) (s : TakeRepeat α) :
    Option (TakeRepeat α) :=
  match a with
  | Act.closeDone =>
      if s.doneClosed then none else some { s with doneClosed := true }
  | Act.rep RepeatBranch.send => none
  | Act.rep b =>
      match Repeat values s.doneClosed false b s.rep with
      | some (rep', _) => some { s with rep := rep' }
      | none => none
  | Act.handoff =>
      match Repeat values s.doneClosed true RepeatBranch.send s.rep with
      | some (rep', some v) =>
          match Take num s.doneClosed (some (some v)) false TakeBranch.recv s.take with
          | some (take', _) => some { s with rep := rep', take := take' }
          | none => none
      | _ => none
  | Act.take TakeBranch.recv =>
      -- only a closed valueStream yields something without a sender
      match s.rep with
      | RepeatPC.returned =>
          match Take num s.doneClosed (some none) false TakeBranch.recv s.take with
          | some (take', _) => some { s with take := take' }
          | none => none
      | _ => none
  | Act.take b =>
      match Take num s.doneClosed none (decide (0 < s.demand)) b s.take with
      | some (take', none) => some { s with take := take' }
      | some (take', some v) =>
          some { s with take := take', out := s.out ++ [v], demand := s.demand - 1 }
      | none => none

/-- The system right after both calls. -/
def TakeRepeat.init {α : Type} (values : List α) (demand : Nat) : TakeRepeat α :=
  { rep := RepeatPC.range values, take := TakePC.head 0, doneClosed := false, out := [],
    demand := demand }

/-- Run a schedule of `Take(done, Repeat(done, values...), num)`. -/
def TakeRepeat.run {α : Type} (values : List α) (num : Int) (demand : Nat)
    (sched : List Act) : Option (TakeRepeat α) :=
  runWith (TakeRepeat.step values num) (TakeRepeat.init values demand) sched

/-- The first `n` values of the endless repetition of `values`: the `i`-th is
`values[i mod len(values)]`. -/
def cycle {α : Type} (values : List α) (n : Nat) : List (Option α) :=
  (List.range n).map (fun i => values[i % values.length]?)

/-- What `Repeat` has yet to range over in the current pass, the value it
holds included. -/
def RepeatPC.ahead {α : Type} : RepeatPC α → List α
  | RepeatPC.range rest => rest
  | RepeatPC.send v rest => v :: rest
  | RepeatPC.returned => []

/-- Number of values `Take` has received from `valueStream`. -/
def TakeRepeat.taken {α : Type} (s : TakeRepeat α) : Nat :=
  match s.take with
  | TakePC.sel _ _ => s.out.length + 1
  | _ => s.out.length

/-- Steps the system can still take while `done` stays open, for `Take` of
`n` values. -/
def TakeRepeat.fuel {α : Type} (n : Nat) (s : TakeRepeat α) : Nat :=
  5 * (n - s.taken) +
    (match s.rep with
      | RepeatPC.range [] => 2
      | RepeatPC.range (_ :: _) => 1
      | _ => 0) +
    (match s.take with
      | TakePC.head _ => 1
      | TakePC.sel _ _ => 2
      | TakePC.returned => 0)

/-- The invariant of the runs of `Take(done, Repeat(done, values...), n)`
with `done` open: `Repeat` stands in its list where the number of values passed
so far says, and `Take` has delivered the first of them. -/
def TakeRepeat.Cycling {α : Type} (values : List α) (n : Nat) (s : TakeRepeat α) : Prop :=
  s.doneClosed = false ∧ s.rep ≠ RepeatPC.returned ∧
  (∃ p, p ≤ values.length ∧ s.rep.ahead = values.drop p ∧
    p % values.length = s.taken % values.length) ∧
  s.out = cycle values s.out.length ∧
  (match s.take with
    | TakePC.head i => i = s.out.length ∧ s.out.length ≤ n
    | TakePC.sel i v => i = s.out.length ∧ s.out.length < n ∧
        v = values[s.out.length % values.length]?
    | TakePC.returned => s.out.length = n) ∧
  n ≤ s.out.length + s.demand

/-- The values of `TestToString`. -/
def testTokens : List String := ["I", "am."]

end Stage

/-! ## `tee` (pattern/tee/main_test.go) -/

namespace Tee

/-- Where the goroutine of `tee` stands.  The state carries the goroutine
that `OrDone(done, in)` started. -/
inductive PC (α : Type)
  /-- at `for v := range OrDone(done, in)`, waiting for the next value -/
  | rangeOrDone (g : OrDone.Goroutine α)
  /-- holding `v` in the loop `for i := 0; i < 2; i++`, at its `select`;
  `out1` and `out2` tell whether the shadowing variable is still the channel
  (not yet set to nil) -/
  | sel (v : α) (out1 out2 : Bool) (g : OrDone.Goroutine α)
  /-- returned; the deferred `close(out2)` and `close(out1)` have run -/
  | returned
deriving DecidableEq, Repr

/-- The goroutine of `tee` with its surroundings: `done`, and the readers of
`out1` and `out2` with what each has received and will still receive. -/
structure Sys (α : Type) where
  pc : PC α
  doneClosed : Bool
  out1 : List α
  out2 : List α
  demand1 : Nat
  demand2 : Nat
deriving DecidableEq, Repr

/-- Actions of the system. -/
inductive Act
  /-- the owner of `done` closes it -/
  | closeDone
  /-- the goroutine of `OrDone(done, in)` takes a branch of its `select` -/
  | orDone (b : OrDone.Branch)
  /-- the loop `range OrDone(done, in)` finds that channel closed: `tee` returns -/
  | orDoneClosed
  /-- branch `case <-done: return` -/
  | selDone
  /-- branch `case out1 <- v:`, then `out1 = nil` -/
  | send1
  /-- branch `case out2 <- v:`, then `out2 = nil` -/
  | send2
deriving DecidableEq, Repr

/-- One action; `none` when it is not enabled.  A send on a variable set to
nil is never ready; after the second send the loop over `i` ends. -/
def Sys.step {α : Type} (a : Act) (s : Sys α) : Option (Sys α) :=
  match a, s.pc with
  | Act.closeDone, _ =>
      if s.doneClosed then none else some { s with doneClosed := true }
  | Act.orDone b, PC.rangeOrDone g =>
      match OrDone.step s.doneClosed true b g with
      | none => none
      | some (g', none) => some { s with pc := PC.rangeOrDone g' }
      | some (g', some v) => some { s with pc := PC.sel v true true g' }
  | Act.orDone b, PC.sel v out1 out2 g =>
      match OrDone.step s.doneClosed false b g with
      | some (g', none) => some { s with pc := PC.sel v out1 out2 g' }
      | _ => none
  | Act.orDoneClosed, PC.rangeOrDone g =>
      if g.pc.isReturned then some { s with pc := PC.returned } else none
  | Act.selDone, PC.sel _ _ _ _ =>
      if s.doneClosed then some { s with pc := PC.returned } else none
  | Act.send1, PC.sel v true out2 g =>
      if 0 < s.demand1 then
        some { s with pc := (if out2 then PC.sel v false true g else PC.rangeOrDone g),
                      out1 := s.out1 ++ [v], demand1 := s.demand1 - 1 }
      else none
  | Act.send2, PC.sel v out1 true g =>
      if 0 < s.demand2 then
        some { s with pc := (if out1 then PC.sel v true false g else PC.rangeOrDone g),
                      out2 := s.out2 ++ [v], demand2 := s.demand2 - 1 }
      else none
  | _, _ => none

/-- The state of `tee(done, in)` right after the call, for an input that hands over `vs`. -/
def init {α : Type} (vs : List α) (closes : Bool) (demand1 demand2 : Nat) : Sys α :=
  { pc := PC.rangeOrDone (OrDone.spawn { pending := vs, closes := closes }),
    doneClosed := false, out1 := [], out2 := [], demand1 := demand1, demand2 := demand2 }

/-- Run a schedule of the system. -/
def Sys.run {α : Type} (s : Sys α) (sched : List Act) : Option (Sys α) :=
  runWith Sys.step s sched

/-- Values that `out1` (for `first`) or `out2` has yet to receive. -/
def PC.rest {α : Type} (first : Bool) : PC α → List α
  | PC.rangeOrDone g => g.rest
  | PC.sel v out1 out2 g => (if (if first then out1 else out2) then [v] else []) ++ g.rest
  | PC.returned => []

/-- Values the input channel `in` has yet to hand over. -/
def PC.pending {α : Type} : PC α → List α
  | PC.rangeOrDone g => g.c.pending
  | PC.sel _ _ _ g => g.c.pending
  | PC.returned => []

/-- Steps the system can still take while `done` stays open. -/
def PC.fuel {α : Type} : PC α → Nat
  | PC.rangeOrDone g => g.fuel + 2 * g.rest.length + 1
  | PC.sel _ out1 out2 g =>
      g.fuel + 2 * g.rest.length + 1 + (if out1 then 1 else 0) + (if out2 then 1 else 0)
  | PC.returned => 0

/-- The invariant of the runs of `tee` over an input that hands over `vs` and
is closed, with `done` open and readers that keep receiving. -/
def Sys.Split {α : Type} (vs : List α) (s : Sys α) : Prop :=
  s.doneClosed = false ∧
  (match s.pc with
    | PC.rangeOrDone g => g.c.closes = true
    | PC.sel _ out1 out2 g => g.c.closes = true ∧ (out1 = true ∨ out2 = true)
    | PC.returned => True) ∧
  s.out1 ++ s.pc.rest true = vs ∧ s.out2 ++ s.pc.rest false = vs ∧
  (s.pc.rest true).length ≤ s.demand1 ∧ (s.pc.rest false).length ≤ s.demand2

/-- The state of `tee` over the input `1, 2` in which `tee` holds `1`, has
sent it to neither output yet, and the goroutine of `OrDone` has already taken
`2` off the input. -/
def ahead : Sys Nat :=
  { pc := PC.sel 1 true true { pc := OrDone.PC.inner 2, c := { pending := [], closes := true } },
    doneClosed := false, out1 := [], out2 := [], demand1 := 2, demand2 := 2 }

end Tee

/-- The works of `TestFixBadTimeoutTest` and `TestDoWork2HeartbeatInTests`. -/
def testWorks : List Int := [0, 1, 2, 3, 5]

namespace RateLimiting

/-- A `rate.Limit`, a `float64`: NaN, an infinity, or a finite number, given
by the rational it stands for. -/
inductive Limit
  | nan
  | negInf
  | num (x : ℚ)
  | posInf
deriving DecidableEq

/-- The comparison `<` of `float64`: false as soon as an operand is NaN. -/
def Limit.lt : Limit → Limit → Bool
  | Limit.nan, _ => false
  | _, Limit.nan => false
  | Limit.negInf, Limit.negInf => false
  | Limit.negInf, _ => true
  | Limit.num _, Limit.negInf => false
  | Limit.num x, Limit.num y => decide (x < y)
  | Limit.num _, Limit.posInf => true
  | Limit.posInf, _ => false

/-- A value of the interface `RateLimiter`, as far as `MultiLimiter` and
`Limit` look at it: which limiter it is (`name`), and the value its method
`Limit()` returns. -/
structure RateLimiter where
  name : Nat
  Limit : Limit
deriving DecidableEq

/-- The struct `multiLimiter`. -/
structure multiLimiter where
  limiters : List RateLimiter

/-- The method `(*multiLimiter).Limit`: `l.limiters[0].Limit()`.  Indexing an
empty slice panics: `none`. -/
def multiLimiter.Limit (l : multiLimiter) : Option Limit :=
  match l.limiters[0]? with
  | some r => some r.Limit
  | none => none

/-- The closure `byLimit` of `MultiLimiter`, on the elements found at its two
indices: `limiters[i].Limit() < limiters[j].Limit()`. -/
def byLimit (a b : RateLimiter) : Bool := a.Limit.lt b.Limit

/-- The inner loop of the insertion sort of package `sort`, `for j := i; j > a
&& less(j, j-1); j-- { swap(j, j-1) }`: the element `x` found at index `i`
moves down past the elements it is less than.  `below` lists the elements
under index `i`, the nearest first. -/
def insertDown {α : Type} (less : α → α → Bool) (x : α) : List α → List α
  | [] => [x]
  | y :: below => if less x y then y :: insertDown less x below else x :: y :: below

/-- The call `sort.Slice(x, less)` on a slice of at most twelve elements, which
the standard library sorts by insertion sort: the loop `for i := a + 1; i < b;
i++` around `insertDown`. -/
def sortSlice {α : Type} (less : α → α → Bool) (xs : List α) : List α :=
  (xs.foldl (fun below x => insertDown less x below) []).reverse

/-- The function `MultiLimiter`: sorts its arguments with `sort.Slice` by
`byLimit` and stores them. -/
def MultiLimiter (limiters : List RateLimiter) : multiLimiter :=
  { limiters := sortSlice byLimit limiters }

/-- The `secondLimiter` of `Open` in `multi-tier`: `Per(2, time.Second)`, that
is `rate.Every` of half a second, the `float64` 2. -/
def secondLimiter : RateLimiter := { name := 0, Limit := Limit.num 2 }

/-- The `minuteLimiter` of `Open` in `multi-tier`: `Per(10, time.Minute)`,
that is `rate.Every` of six seconds, the `float64` nearest to a sixth,
`6004799503160661 / 2^55`. -/
def minuteLimiter : RateLimiter :=
  { name := 1, Limit := Limit.num (6004799503160661 / 36028797018963968) }

/-- Three limiters with the limits 2, NaN and 1. -/
def withNaN : List RateLimiter :=
  [{ name := 0, Limit := Limit.num 2 }, { name := 1, Limit := Limit.nan },
   { name := 2, Limit := Limit.num 1 }]

end RateLimiting

namespace OrChan

/-- The arguments of the recursive call of `Or`, `append(channels[3:],
orDone)`, where `orDone` is the channel number `next` that the calling `Or`
has made. -/
def recursiveArgs (next : Nat) (channels : List Chan) : List Chan :=
  channels.drop 3 ++ [some next]

/-- The argument lists of the successive calls of `Or` when `Or(channels...)`
is unfolded in full: the call itself and, for three channels or more, those of
the recursive call. -/
def calls (next : Nat) (channels : List Chan) : List (List Chan) :=
  match channels with
  | c0 :: c1 :: c2 :: more =>
      (c0 :: c1 :: c2 :: more) :: calls (next + 1) (more ++ [some next])
  | [] => [[]]
  | [c] => [[c]]
  | [c0, c1] => [[c0, c1]]
termination_by channels.length
decreasing_by
  simp only [List.length_append, List.length_cons, List.length_nil]
  omega

/-- Three channels made before the call of `Or`. -/
def threeChannels : List Chan := [some 0, some 1, some 2]

end OrChan

namespace OrChan

/-- Whether an action is a wake-up of a goroutine of `Or`. -/
def Act.isFire : Act → Bool
  | Act.fire _ => true
  | Act.closeInput _ => false

/-- The goroutines `nodes` over `inputs` form a chain below the channel
`root`: the first goroutine closes `root`, each goroutine waits on the channel
of the next one, and every input is waited on by some goroutine. -/
def Chain (inputs : List Chan) (root : Nat) (nodes : List Node) : Prop :=
  (∃ n0, nodes[0]? = some n0 ∧ n0.orDone = root ∧ ∀ c ∈ inputs.take 3, c ∈ n0.waits) ∧
  (∀ (k : Nat) (n m : Node), nodes[k]? = some n → nodes[k + 1]? = some m →
    some m.orDone ∈ n.waits) ∧
  (∀ c ∈ inputs, ∃ (k : Nat) (n : Node), nodes[k]? = some n ∧ c ∈ n.waits)

/-- The invariant of the runs after an input has been closed: the invariant
`Inv`, a closed input, and no goroutine recorded twice as returned. -/
def Fired (inputs : List Chan) (nodes : List Node) (s : State) : Prop :=
  Inv inputs nodes s ∧ (∃ i, some i ∈ inputs ∧ i ∈ s.closed) ∧
  s.exited.Nodup ∧ ∀ k ∈ s.exited, k < nodes.length

end OrChan

namespace Stage

/-- The system `Take(done, valueStream, num)` over a `valueStream` whose
sender is not under our control: the goroutine of `Take`, `done`, and the
reader of `takeStream`, who has received `out` and will receive `demand` more
values. -/
structure TakeSys (α : Type) where
  up : Upstream α
  take : TakePC α
  doneClosed : Bool
  out : List (Option α)
  demand : Nat
deriving DecidableEq, Repr

/-- Actions of the system: the owner of `done` closes it, or the goroutine of
`Take` takes a step. -/
inductive TakeAct
  | closeDone
  | take (b : TakeBranch)
deriving DecidableEq, Repr

/-- What a receive from `valueStream` yields now: the next value of the
sender, nil once the sender has closed the channel, nothing while the sender
neither sends nor closes. -/
def incoming {α : Type} (up : Upstream α) : Option (Option α) :=
  match up.pending with
  | v :: _ => some (some v)
  | [] => if up.closes then some none else none

/-- One action of `Take(done, valueStream, num)`; `none` when it is not
enabled. -/
def TakeSys.step {α : Type} (num : Int) (a : TakeAct) (s : TakeSys α) : Option (TakeSys α) :=
  match a with
  | TakeAct.closeDone =>
      if s.doneClosed then none else some { s with doneClosed := true }
  | TakeAct.take TakeBranch.recv =>
      match Take num s.doneClosed (incoming s.up) false TakeBranch.recv s.take with
      | some (take', _) =>
          some { s with up := { s.up with pending := s.up.pending.tail }, take := take' }
      | none => none
  | TakeAct.take b =>
      match Take num s.doneClosed none (decide (0 < s.demand)) b s.take with
      | some (take', none) => some { s with take := take' }
      | some (take', some v) =>
          some { s with take := take', out := s.out ++ [v], demand := s.demand - 1 }
      | none => none

/-- The system right after the call of `Take`, over a `valueStream` that
hands over `vs` and, if `closes`, is then closed. -/
def TakeSys.init {α : Type} (vs : List α) (closes : Bool) (demand : Nat) : TakeSys α :=
  { up := { pending := vs, closes := closes }, take := TakePC.head 0, doneClosed := false,
    out := [], demand := demand }

/-- Run a schedule of `Take(done, valueStream, num)`. -/
def TakeSys.run {α : Type} (vs : List α) (closes : Bool) (num : Int) (demand : Nat)
    (sched : List TakeAct) : Option (TakeSys α) :=
  runWith (TakeSys.step num) (TakeSys.init vs closes demand) sched

/-- Steps `Take` of `n` values can still take while `done` stays open. -/
def TakeSys.fuel {α : Type} (n : Nat) (s : TakeSys α) : Nat :=
  match s.take with
  | TakePC.head _ => 2 * (n - s.out.length) + 1
  | TakePC.sel _ _ => 2 * (n - s.out.length)
  | TakePC.returned => 0

/-- Number of receives from `valueStream` that `Take` has made. -/
def TakeSys.taken {α : Type} (s : TakeSys α) : Nat :=
  match s.take with
  | TakePC.sel _ _ => s.out.length + 1
  | _ => s.out.length

/-- The invariant of the runs of `Take(done, valueStream, n)` with `done`
open over a `valueStream` that hands over `vs` and is closed: the reader has
received the first of the values that `all` lists, and the goroutine stands
where their number says. -/
def TakeSys.Padding {α : Type} (vs : List α) (all : List (Option α)) (n : Nat)
    (s : TakeSys α) : Prop :=
  s.doneClosed = false ∧ s.up.closes = true ∧ s.up.pending = vs.drop s.taken ∧
  s.out = all.take s.out.length ∧
  (match s.take with
    | TakePC.head i => i = s.out.length ∧ s.out.length ≤ n
    | TakePC.sel i v => i = s.out.length ∧ s.out.length < n ∧ all[s.out.length]? = some v
    | TakePC.returned => s.out.length = n) ∧
  n ≤ s.out.length + s.demand

end Stage

namespace Fan

/-- The loop `for i := 2; i < v; i++ { if v%i == 0 { return false } }` of
`isPrime`, entered with `i` and followed by `return true`; `fuel` bounds the
number of iterations. -/
def isPrimeLoop (v : Int) : Nat → Int → Bool
  | 0, _ => true
  | fuel + 1, i =>
      if i < v then
        if v.tmod i = 0 then false else isPrimeLoop v fuel (i + 1)
      else true

/-- The closure `isPrime` of `primeFinder`.  The loop runs for the values of
`i` from 2 up to `v - 1`, `v - 2` iterations at most. -/
def isPrime (v : Int) : Bool := isPrimeLoop v (v - 2).toNat 2

/-- Where the goroutine of `primeFinder` stands. -/
inductive PC
  /-- at the head of `for v := range intStream` -/
  | range
  /-- holding `v`, at `select { case <-done: return; default: }` -/
  | check (v : Int)
  /-- at the send `primeStream <- v` -/
  | send (v : Int)
  /-- returned; the deferred `close(primeStream)` has run -/
  | returned
deriving DecidableEq, Repr

/-- The goroutine of `primeFinder(done, intStream)` with its surroundings:
`intStream`, `done`, and the reader of `primeStream`, who has received `out`
and will receive `demand` more values. -/
structure Sys where
  pc : PC
  intStream : Upstream Int
  doneClosed : Bool
  out : List Int
  demand : Nat
deriving DecidableEq, Repr

/-- Actions: the owner of `done` closes it; the goroutine receives from
`intStream` (or finds it closed), passes the `select` with its `default`, or
sends on `primeStream`. -/
inductive Act
  | closeDone
  | recv
  | check
  | send
deriving DecidableEq, Repr

/-- One action of the system; `none` when it is not enabled. -/
def step (a : Act) (s : Sys) : Option Sys :=
  match a, s.pc with
  | Act.closeDone, _ =>
      if s.doneClosed then none else some { s with doneClosed := true }
  | Act.recv, PC.range =>
      match s.intStream.pending with
      | v :: rest => some { s with pc := PC.check v, intStream := { s.intStream with pending := rest } }
      | [] => if s.intStream.closes then some { s with pc := PC.returned } else none
  | Act.check, PC.check v =>
      if s.doneClosed then some { s with pc := PC.returned }
      else if isPrime v then some { s with pc := PC.send v }
      else some { s with pc := PC.range }
  | Act.send, PC.send v =>
      if 0 < s.demand then
        some { s with pc := PC.range, out := s.out ++ [v], demand := s.demand - 1 }
      else none
  | _, _ => none

/-- The system right after the call of `primeFinder`, over an `intStream`
that hands over `vs` and, if `closes`, is then closed. -/
def init (vs : List Int) (closes : Bool) (demand : Nat) : Sys :=
  { pc := PC.range, intStream := { pending := vs, closes := closes }, doneClosed := false,
    out := [], demand := demand }

/-- Run a schedule of `primeFinder`. -/
def run (vs : List Int) (closes : Bool) (demand : Nat) (sched : List Act) : Option Sys :=
  runWith step (init vs closes demand) sched

end Fan

namespace Pipeline

/-- A Go `int` of 64 bits: the result of an arithmetic operation wraps
around. -/
def wrap (x : Int) : Int :=
  (x + 9223372036854775808) % 18446744073709551616 - 9223372036854775808

/-- The function `multiply` of `TestStreamProcessing`, and the expression `i *
multiplier` of the stage `multiply` of `TestChannelPipeline`. -/
def multiply (value multiplier : Int) : Int := wrap (value * multiplier)

/-- The function `add` of `TestStreamProcessing`, and the expression `i +
additive` of the stage `add` of `TestChannelPipeline`. -/
def add (value additive : Int) : Int := wrap (value + additive)

/-- The loop of `TestStreamProcessing`: what it prints for `ints`. -/
def streamPipeline (ints : List Int) : List Int :=
  ints.map (fun v => multiply (add (multiply v 2) 1) 2)

/-- Where the goroutine of `generator` stands. -/
inductive GenPC
  /-- at the head of `for i := range integers`, with `i` the next index -/
  | range (i : Nat)
  /-- returned; the deferred `close(intStream)` has run -/
  | returned
deriving DecidableEq, Repr

/-- Where the goroutine of a stage (`multiply` or `add`) stands. -/
inductive StagePC
  /-- at the head of `for i := range intStream` -/
  | range
  /-- at the `select`, holding the value to send -/
  | send (v : Int)
  /-- returned; the deferred `close` of its output has run -/
  | returned
deriving DecidableEq, Repr

/-- The pipeline `multiply(done, add(done, multiply(done, generator(done,
integers...), 2), 1), 2)` of `TestChannelPipeline`: the four goroutines,
`done`, and the reader of the last stream, who has received `out` and will
receive `demand` more values. -/
structure Sys where
  gen : GenPC
  m1 : StagePC
  ad : StagePC
  m2 : StagePC
  doneClosed : Bool
  out : List Int
  demand : Nat
deriving DecidableEq, Repr

/-- Actions of the pipeline. -/
inductive Act
  /-- the owner of `done` closes it -/
  | closeDone
  /-- `generator` takes `case <-done:` -/
  | genDone
  /-- the range of `generator` is exhausted: it returns -/
  | genExit
  /-- `generator` sends and the first `multiply` receives -/
  | pass0
  /-- the first `multiply` sends and `add` receives -/
  | pass1
  /-- `add` sends and the second `multiply` receives -/
  | pass2
  /-- the second `multiply` sends and the reader receives -/
  | pass3
  /-- stage number `k` (1, 2 or 3) takes `case <-done:` -/
  | stageDone (k : Nat)
  /-- stage number `k` (1, 2 or 3) finds its input closed and returns -/
  | stageClosed (k : Nat)
deriving DecidableEq, Repr

/-- One action of the pipeline over `integers`; `none` when it is not
enabled.  `generator` ranges with `for i := range integers`: `i` is the index,
and it is the index that `intStream <- i` sends. -/
def step (integers : List Int) (a : Act) (s : Sys) : Option Sys :=
  match a with
  | Act.closeDone => if s.doneClosed then none else some { s with doneClosed := true }
  | Act.genDone =>
      match s.gen with
      | GenPC.range i =>
          if i < integers.length ∧ s.doneClosed then some { s with gen := GenPC.returned }
          else none
      | GenPC.returned => none
  | Act.genExit =>
      match s.gen with
      | GenPC.range i =>
          if i < integers.length then none else some { s with gen := GenPC.returned }
      | GenPC.returned => none
  | Act.pass0 =>
      match s.gen, s.m1 with
      | GenPC.range i, StagePC.range =>
          if i < integers.length then
            some { s with gen := GenPC.range (i + 1), m1 := StagePC.send (multiply (i : Int) 2) }
          else none
      | _, _ => none
  | Act.pass1 =>
      match s.m1, s.ad with
      | StagePC.send v, StagePC.range =>
          some { s with m1 := StagePC.range, ad := StagePC.send (add v 1) }
      | _, _ => none
  | Act.pass2 =>
      match s.ad, s.m2 with
      | StagePC.send v, StagePC.range =>
          some { s with ad := StagePC.range, m2 := StagePC.send (multiply v 2) }
      | _, _ => none
  | Act.pass3 =>
      match s.m2 with
      | StagePC.send v =>
          if 0 < s.demand then
            some { s with m2 := StagePC.range, out := s.out ++ [v], demand := s.demand - 1 }
          else none
      | _ => none
  | Act.stageDone k =>
      if s.doneClosed then
        match k, s.m1, s.ad, s.m2 with
        | 1, StagePC.send _, _, _ => some { s with m1 := StagePC.returned }
        | 2, _, StagePC.send _, _ => some { s with ad := StagePC.returned }
        | 3, _, _, StagePC.send _ => some { s with m2 := StagePC.returned }
        | _, _, _, _ => none
      else none
  | Act.stageClosed k =>
      match k, s.gen, s.m1, s.ad, s.m2 with
      | 1, GenPC.returned, StagePC.range, _, _ => some { s with m1 := StagePC.returned }
      | 2, _, StagePC.returned, StagePC.range, _ => some { s with ad := StagePC.returned }
      | 3, _, _, StagePC.returned, StagePC.range => some { s with m2 := StagePC.returned }
      | _, _, _, _, _ => none

/-- The pipeline right after it is set up. -/
def init (demand : Nat) : Sys :=
  { gen := GenPC.range 0, m1 := StagePC.range, ad := StagePC.range, m2 := StagePC.range,
    doneClosed := false, out := [], demand := demand }

/-- Run a schedule of the pipeline over `integers`. -/
def run (integers : List Int) (demand : Nat) (sched : List Act) : Option Sys :=
  runWith (step integers) (init demand) sched

/-- The rounds of a run in which each value goes through the whole pipeline
before the next one is generated. -/
def rounds : Nat → List Act
  | 0 => [Act.genExit, Act.stageClosed 1, Act.stageClosed 2, Act.stageClosed 3]
  | n + 1 => [Act.pass0, Act.pass1, Act.pass2, Act.pass3] ++ rounds n

end Pipeline

namespace Pipeline

/-- Number of values a stage holds. -/
def StagePC.held : StagePC → Nat
  | StagePC.send _ => 1
  | _ => 0

/-- What the three stages make of the index `j` that `generator` sends. -/
def ofIndex (j : Nat) : Int := multiply (add (multiply (j : Int) 2) 1) 2

/-- The invariant of the runs of the pipeline with `done` open: the reader
has received what the stages make of the first indices, each stage that holds
a value holds what the stages before it make of the next index, `generator`
stands at the index after those, and a stage has returned only after the one
before it. -/
def Flowing (integers : List Int) (s : Sys) : Prop :=
  s.doneClosed = false ∧
  s.out = (List.range s.out.length).map ofIndex ∧
  (∀ v, s.m2 = StagePC.send v → v = ofIndex s.out.length) ∧
  (∀ v, s.ad = StagePC.send v →
    v = add (multiply ((s.out.length + s.m2.held : Nat) : Int) 2) 1) ∧
  (∀ v, s.m1 = StagePC.send v →
    v = multiply ((s.out.length + s.m2.held + s.ad.held : Nat) : Int) 2) ∧
  (match s.gen with
    | GenPC.range i =>
        i = s.out.length + s.m2.held + s.ad.held + s.m1.held ∧ i ≤ integers.length
    | GenPC.returned =>
        s.out.length + s.m2.held + s.ad.held + s.m1.held = integers.length) ∧
  (s.m1 = StagePC.returned → s.gen = GenPC.returned) ∧
  (s.ad = StagePC.returned → s.m1 = StagePC.returned) ∧
  (s.m2 = StagePC.returned → s.ad = StagePC.returned)

end Pipeline

namespace Stage

/-- What can be observed of a sleeping stage: a value handed to the reader of
`out`, a call `time.Sleep(d)`, and the closing of `out`. -/
inductive Event (α : Type)
  | emit (v : α)
  | sleep (d : Nat)
  | close
deriving DecidableEq, Repr

/-- Where the goroutine of `Sleep` stands. -/
inductive SleepPC (α : Type)
  /-- at the outer `select { case <-done: ... case v, ok := <-in: ... }` -/
  | outer
  /-- holding `v`, at the inner `select { case <-done: case out <- v: ... }` -/
  | inner (v : α)
  /-- after the send, at `time.Sleep(d)` -/
  | sleeping
  /-- returned; the deferred `close(out)` has run -/
  | returned
deriving DecidableEq, Repr

/-- The goroutine of `Sleep(done, in, d)` with its surroundings: the channel
`in`, `done`, the events so far, and the reader of `out`, who will receive
`demand` more values. -/
structure SleepSys (α : Type) where
  pc : SleepPC α
  input : Upstream α
  doneClosed : Bool
  tr : List (Event α)
  demand : Nat
deriving DecidableEq, Repr

/-- Actions of `Sleep`: the owner of `done` closes it, or the goroutine takes
a branch of its current `select`, or sleeps. -/
inductive SleepAct
  | closeDone
  | done
  | recv
  | send
  | sleep
deriving DecidableEq, Repr

/-- One action of `Sleep(done, in, d)`; `none` when it is not enabled. -/
def Sleep {α : Type} (d : Nat) (a : SleepAct) (s : SleepSys α) : Option (SleepSys α) :=
  match a, s.pc with
  | SleepAct.closeDone, _ =>
      if s.doneClosed then none else some { s with doneClosed := true }
  | SleepAct.done, SleepPC.outer =>
      -- case <-done: return
      if s.doneClosed then some { s with pc := SleepPC.returned, tr := s.tr ++ [Event.close] }
      else none
  | SleepAct.recv, SleepPC.outer =>
      -- case v, ok := <-in: if !ok { return }
      match s.input.pending with
      | v :: rest =>
          some { s with pc := SleepPC.inner v, input := { s.input with pending := rest } }
      | [] =>
          if s.input.closes then
            some { s with pc := SleepPC.returned, tr := s.tr ++ [Event.close] }
          else none
  | SleepAct.done, SleepPC.inner _ =>
      -- case <-done: (no return; back to the outer select)
      if s.doneClosed then some { s with pc := SleepPC.outer } else none
  | SleepAct.send, SleepPC.inner v =>
      -- case out <- v:
      if 0 < s.demand then
        some { s with pc := SleepPC.sleeping, tr := s.tr ++ [Event.emit v],
                      demand := s.demand - 1 }
      else none
  | SleepAct.sleep, SleepPC.sleeping =>
      -- time.Sleep(d)
      some { s with pc := SleepPC.outer, tr := s.tr ++ [Event.sleep d] }
  | _, _ => none

/-- The state of `Sleep(done, in, d)` right after the call, for an `in` that
hands over `vs` and, if `closes`, is then closed. -/
def SleepSys.init {α : Type} (vs : List α) (closes : Bool) (demand : Nat) : SleepSys α :=
  { pc := SleepPC.outer, input := { pending := vs, closes := closes }, doneClosed := false,
    tr := [], demand := demand }

/-- Where the goroutine of `SleepOrDone` stands.  The state carries the
goroutine that `OrDone(done, in)` started. -/
inductive SleepOrDonePC (α : Type)
  /-- at `for v := range OrDone(done, in)`, waiting for the next value -/
  | range (g : OrDone.Goroutine α)
  /-- holding `v`, at `select { case <-done: return; case out <- v: ... }` -/
  | sel (v : α) (g : OrDone.Goroutine α)
  /-- after the send, at `time.Sleep(d)` -/
  | sleeping (g : OrDone.Goroutine α)
  /-- returned; the deferred `close(out)` has run -/
  | returned
deriving DecidableEq, Repr

/-- The goroutine of `SleepOrDone(done, in, d)` with its surroundings. -/
structure SleepOrDoneSys (α : Type) where
  pc : SleepOrDonePC α
  doneClosed : Bool
  tr : List (Event α)
  demand : Nat
deriving DecidableEq, Repr

/-- Actions of `SleepOrDone`. -/
inductive SleepOrDoneAct
  /-- the owner of `done` closes it -/
  | closeDone
  /-- the goroutine of `OrDone(done, in)` takes a branch of its `select` -/
  | orDone (b : OrDone.Branch)
  /-- the loop `range OrDone(done, in)` finds that channel closed and ends -/
  | orDoneClosed
  /-- branch `case <-done: return` -/
  | done
  /-- branch `case out <- v:` -/
  | send
  /-- the call `time.Sleep(d)` -/
  | sleep
deriving DecidableEq, Repr

/-- One action of `SleepOrDone(done, in, d)`; `none` when it is not
enabled. -/
def SleepOrDone {α : Type} (d : Nat) (a : SleepOrDoneAct) (s : SleepOrDoneSys α) :
    Option (SleepOrDoneSys α) :=
  match a, s.pc with
  | SleepOrDoneAct.closeDone, _ =>
      if s.doneClosed then none else some { s with doneClosed := true }
  | SleepOrDoneAct.orDone b, SleepOrDonePC.range g =>
      match OrDone.step s.doneClosed true b g with
      | none => none
      | some (g', none) => some { s with pc := SleepOrDonePC.range g' }
      | some (g', some v) => some { s with pc := SleepOrDonePC.sel v g' }
  | SleepOrDoneAct.orDone b, SleepOrDonePC.sel v g =>
      match OrDone.step s.doneClosed false b g with
      | some (g', none) => some { s with pc := SleepOrDonePC.sel v g' }
      | _ => none
  | SleepOrDoneAct.orDone b, SleepOrDonePC.sleeping g =>
      match OrDone.step s.doneClosed false b g with
      | some (g', none) => some { s with pc := SleepOrDonePC.sleeping g' }
      | _ => none
  | SleepOrDoneAct.orDoneClosed, SleepOrDonePC.range g =>
      if g.pc.isReturned then
        some { s with pc := SleepOrDonePC.returned, tr := s.tr ++ [Event.close] }
      else none
  | SleepOrDoneAct.done, SleepOrDonePC.sel _ _ =>
      if s.doneClosed then
        some { s with pc := SleepOrDonePC.returned, tr := s.tr ++ [Event.close] }
      else none
  | SleepOrDoneAct.send, SleepOrDonePC.sel v g =>
      if 0 < s.demand then
        some { s with pc := SleepOrDonePC.sleeping g, tr := s.tr ++ [Event.emit v],
                      demand := s.demand - 1 }
      else none
  | SleepOrDoneAct.sleep, SleepOrDonePC.sleeping g =>
      some { s with pc := SleepOrDonePC.range g, tr := s.tr ++ [Event.sleep d] }
  | _, _ => none

/-- The state of `SleepOrDone(done, in, d)` right after the call. -/
def SleepOrDoneSys.init {α : Type} (vs : List α) (closes : Bool) (demand : Nat) :
    SleepOrDoneSys α :=
  { pc := SleepOrDonePC.range (OrDone.spawn { pending := vs, closes := closes }),
    doneClosed := false, tr := [], demand := demand }

end Stage

namespace Stage

/-- The events of delivering `vs` in order, each value followed by one sleep
of `d`. -/
def paced {α : Type} (d : Nat) : List α → List (Event α)
  | [] => []
  | v :: vs => Event.emit v :: Event.sleep d :: paced d vs

/-- The events `Sleep` has yet to produce while `done` stays open and `in` is
closed after its last value. -/
def SleepSys.ahead {α : Type} (d : Nat) (s : SleepSys α) : List (Event α) :=
  match s.pc with
  | SleepPC.outer => paced d s.input.pending ++ [Event.close]
  | SleepPC.inner v => paced d (v :: s.input.pending) ++ [Event.close]
  | SleepPC.sleeping => Event.sleep d :: (paced d s.input.pending ++ [Event.close])
  | SleepPC.returned => []

/-- Number of values `Sleep` has yet to send. -/
def SleepSys.toSend {α : Type} (s : SleepSys α) : Nat :=
  match s.pc with
  | SleepPC.inner _ => s.input.pending.length + 1
  | SleepPC.returned => 0
  | _ => s.input.pending.length

/-- Steps `Sleep` can still take while `done` stays open. -/
def SleepSys.fuel {α : Type} (s : SleepSys α) : Nat :=
  match s.pc with
  | SleepPC.outer => 3 * s.input.pending.length + 1
  | SleepPC.inner _ => 3 * s.input.pending.length + 3
  | SleepPC.sleeping => 3 * s.input.pending.length + 2
  | SleepPC.returned => 0

/-- The invariant of the runs of `Sleep` with `done` open over an `in` that
is closed after its last value: the events so far and the events yet to come
make up `all`, and the reader will take the values yet to send. -/
def SleepSys.Pacing {α : Type} (d : Nat) (all : List (Event α)) (s : SleepSys α) : Prop :=
  s.doneClosed = false ∧ s.input.closes = true ∧ s.tr ++ s.ahead d = all ∧
  s.toSend ≤ s.demand

/-- The state of `SleepOrDone` that stands where a state of `Sleep` stands:
the value received from `in` and not yet sent is held by the goroutine of
`OrDone`. -/
def SleepSys.toOrDone {α : Type} (s : SleepSys α) : SleepOrDoneSys α :=
  { pc := (match s.pc with
      | SleepPC.outer => SleepOrDonePC.range { pc := OrDone.PC.outer, c := s.input }
      | SleepPC.inner v => SleepOrDonePC.range { pc := OrDone.PC.inner v, c := s.input }
      | SleepPC.sleeping => SleepOrDonePC.sleeping { pc := OrDone.PC.outer, c := s.input }
      | SleepPC.returned => SleepOrDonePC.returned),
    doneClosed := s.doneClosed, tr := s.tr, demand := s.demand }

/-- The actions of `SleepOrDone` that do what an action of `Sleep` does in the
state `s`. -/
def SleepSys.follow {α : Type} (s : SleepSys α) (a : SleepAct) : List SleepOrDoneAct :=
  match a, s.pc with
  | SleepAct.closeDone, _ => [SleepOrDoneAct.closeDone]
  | SleepAct.done, SleepPC.outer =>
      [SleepOrDoneAct.orDone OrDone.Branch.done, SleepOrDoneAct.orDoneClosed]
  | SleepAct.recv, SleepPC.outer =>
      match s.input.pending with
      | _ :: _ => [SleepOrDoneAct.orDone OrDone.Branch.recv]
      | [] => [SleepOrDoneAct.orDone OrDone.Branch.recv, SleepOrDoneAct.orDoneClosed]
  | SleepAct.done, SleepPC.inner _ => [SleepOrDoneAct.orDone OrDone.Branch.done]
  | SleepAct.send, SleepPC.inner _ =>
      [SleepOrDoneAct.orDone OrDone.Branch.send, SleepOrDoneAct.send]
  | SleepAct.sleep, SleepPC.sleeping => [SleepOrDoneAct.sleep]
  | _, _ => []

/-- The goroutine `g` of `OrDone` is no further than the `in` of a state of
`Sleep`: what it has yet to deliver is among what `in` has yet to hand over,
all of it while `done` is open, and it has returned only for a closed `done`
or a closed, exhausted `in`. -/
def Behind {α : Type} (g : OrDone.Goroutine α) (t : SleepSys α) : Prop :=
  g.c.closes = t.input.closes ∧ g.rest.Sublist t.input.pending ∧
  (t.doneClosed = false → g.rest = t.input.pending) ∧
  (g.pc = OrDone.PC.returned →
    t.doneClosed = true ∨ (t.input.pending = [] ∧ t.input.closes = true))

/-- A state of `SleepOrDone` and a state of `Sleep` that show the same events
and stand at the same place, the goroutine of `OrDone` being `Behind`. -/
def Lags {α : Type} (s : SleepOrDoneSys α) (t : SleepSys α) : Prop :=
  t.tr = s.tr ∧ t.doneClosed = s.doneClosed ∧ t.demand = s.demand ∧
  (match s.pc with
    | SleepOrDonePC.range g => t.pc = SleepPC.outer ∧ Behind g t
    | SleepOrDonePC.sel v g => t.pc = SleepPC.inner v ∧ Behind g t
    | SleepOrDonePC.sleeping g => t.pc = SleepPC.sleeping ∧ Behind g t
    | SleepOrDonePC.returned => t.pc = SleepPC.returned)

/-- `Sleep` can produce the events `final`, returning, when `done` is closed
at a moment at which the events so far are `before`. -/
def SleepSys.Produces {α : Type} (d : Nat) (vs : List α) (closes : Bool) (demand : Nat)
    (before final : List (Event α)) : Prop :=
  ∃ sched1 sched2 s1 s1' s2, SleepAct.closeDone ∉ sched1 ∧
    runWith (Sleep d) (SleepSys.init vs closes demand) sched1 = some s1 ∧ s1.tr = before ∧
    Sleep d SleepAct.closeDone s1 = some s1' ∧
    runWith (Sleep d) s1' sched2 = some s2 ∧ s2.pc = SleepPC.returned ∧ s2.tr = final

/-- `SleepOrDone` can produce the events `final`, returning, when `done` is
closed at a moment at which the events so far are `before`. -/
def SleepOrDoneSys.Produces {α : Type} (d : Nat) (vs : List α) (closes : Bool) (demand : Nat)
    (before final : List (Event α)) : Prop :=
  ∃ sched1 sched2 s1 s1' s2, SleepOrDoneAct.closeDone ∉ sched1 ∧
    runWith (SleepOrDone d) (SleepOrDoneSys.init vs closes demand) sched1 = some s1 ∧
    s1.tr = before ∧ SleepOrDone d SleepOrDoneAct.closeDone s1 = some s1' ∧
    runWith (SleepOrDone d) s1' sched2 = some s2 ∧ s2.pc = SleepOrDonePC.returned ∧
    s2.tr = final

end Stage

namespace Steward

/-- The invariant of all runs of the steward, whatever the ward does and
however long the steward takes: generation `k + 1` is started no earlier than
`k` timeouts after the start, and while it is monitored `timeoutSignal` fires
no earlier than one timeout later. -/
def State.Paced (cfg : Config) (s : State) : Prop :=
  0 ≤ s.now ∧
  match s.pc with
  | PC.starting => s.gens = []
  | PC.monitoring =>
      ∃ k : Nat, s.gens.length = k + 1 ∧ (k : Int) * cfg.timeout ≤ s.now ∧
        (k : Int) * cfg.timeout + cfg.timeout ≤ s.timeoutSignal
  | PC.restarting =>
      ∃ k : Nat, s.gens.length = k + 1 ∧ (k : Int) * cfg.timeout + cfg.timeout ≤ s.now
  | PC.stopped => ∃ k : Nat, s.gens.length = k + 1 ∧ (k : Int) * cfg.timeout ≤ s.now

/-- A run of `TestSteward` with timeout 4 s in which the restart takes two
nanoseconds: the second generation is started at 4 s + 2 ns, so its timeout
window ends at 8 s + 2 ns. -/
def driftSchedule : List Act :=
  [Act.startWard Heartbeat.absent, Act.tick 4000000000, Act.timeout, Act.tick 2,
   Act.startWard Heartbeat.absent, Act.tick 3999999999]

/-- The state `driftSchedule` ends in, 8 s + 1 ns after the start. -/
def drifted : State :=
  { pc := PC.monitoring, next := 6, wardDone := some 4, wardHeartbeat := Heartbeat.absent,
    gens := [{ wardDone := 2, token := OrChan.Or 3 [some 2, some 0],
               pulseInterval := 2000000000 },
             { wardDone := 4, token := OrChan.Or 5 [some 4, some 0],
               pulseInterval := 2000000000 }],
    closed := [2], pulses := 0, now := 8000000001, timeoutSignal := 8000000002 }

end Steward

end GoConc

/-! # Theorems -/

namespace GoConc

section Schedules

variable {σ A : Type} (step : A → σ → Option σ)

theorem runWith_nil (s : σ) : runWith step s [] = some s := rfl

theorem runWith_cons (s : σ) (a : A) (as : List A) :
    runWith step s (a :: as) = (step a s).bind (fun s' => runWith step s' as) := rfl

theorem runWith_append (s : σ) (xs ys : List A) :
    runWith step s (xs ++ ys) = (runWith step s xs).bind (fun s' => runWith step s' ys) := by
  induction xs generalizing s with
  | nil => simp [runWith]
  | cons a as ih =>
    simp only [List.cons_append, runWith]
    cases h : step a s with
    | none => simp
    | some s1 => simp [ih]

/-- An invariant kept by every allowed step holds after every allowed schedule,
and a measure that every allowed step decreases bounds the schedule. -/
theorem runWith_invariant (allowed : A → Prop) (Inv : σ → Prop) (μ : σ → Nat)
    (pres : ∀ a s s', allowed a → Inv s → step a s = some s' → Inv s' ∧ μ s' < μ s) :
    ∀ (sched : List A) (s s' : σ), (∀ a ∈ sched, allowed a) → Inv s →
      runWith step s sched = some s' → Inv s' ∧ sched.length + μ s' ≤ μ s := by
  intro sched
  induction sched with
  | nil =>
    intro s s' _ hs hrun
    simp only [runWith, Option.some.injEq] at hrun
    subst hrun
    exact ⟨hs, by simp⟩
  | cons a as ih =>
    intro s s' hall hs hrun
    simp only [runWith] at hrun
    cases h : step a s with
    | none => simp [h] at hrun
    | some s1 =>
      simp only [h, Option.some_bind] at hrun
      have h1 := pres a s s1 (hall a (List.mem_cons_self _ _)) hs h
      have h2 := ih s1 s' (fun b hb => hall b (List.mem_cons_of_mem _ hb)) h1.1 hrun
      refine ⟨h2.1, ?_⟩
      have := h1.2
      simp only [List.length_cons]
      omega

/-- An invariant kept by every allowed step holds after every allowed
schedule. -/
theorem runWith_preserves (allowed : A → Prop) (Inv : σ → Prop)
    (pres : ∀ a s s', allowed a → Inv s → step a s = some s' → Inv s') :
    ∀ (sched : List A) (s s' : σ), (∀ a ∈ sched, allowed a) → Inv s →
      runWith step s sched = some s' → Inv s' := by
  intro sched
  induction sched with
  | nil =>
    intro s s' _ hs hrun
    simp only [runWith, Option.some.injEq] at hrun
    subst hrun
    exact hs
  | cons a as ih =>
    intro s s' hall hs hrun
    simp only [runWith] at hrun
    cases h : step a s with
    | none => simp [h] at hrun
    | some s1 =>
      simp only [h, Option.some_bind] at hrun
      exact ih s1 s' (fun b hb => hall b (List.mem_cons_of_mem _ hb))
        (pres a s s1 (hall a (List.mem_cons_self _ _)) hs h) hrun

/-- When every allowed step keeps the invariant and decreases the measure, and
a state that is not final always has an allowed step, some allowed schedule
reaches a final state. -/
theorem runWith_reaches (allowed : A → Prop) (Inv final : σ → Prop) (μ : σ → Nat)
    (pres : ∀ a s s', allowed a → Inv s → step a s = some s' → Inv s' ∧ μ s' < μ s)
    (prog : ∀ s, Inv s → ¬ final s → ∃ a s', allowed a ∧ step a s = some s') :
    ∀ (n : Nat) (s : σ), μ s ≤ n → Inv s →
      ∃ sched s', (∀ a ∈ sched, allowed a) ∧ runWith step s sched = some s' ∧
        final s' ∧ Inv s' := by
  intro n
  induction n with
  | zero =>
    intro s hμ hs
    by_cases hf : final s
    · exact ⟨[], s, by simp, rfl, hf, hs⟩
    · obtain ⟨a, s1, ha, hstep⟩ := prog s hs hf
      have := (pres a s s1 ha hs hstep).2
      omega
  | succ n ih =>
    intro s hμ hs
    by_cases hf : final s
    · exact ⟨[], s, by simp, rfl, hf, hs⟩
    · obtain ⟨a, s1, ha, hstep⟩ := prog s hs hf
      have h1 := pres a s s1 ha hs hstep
      obtain ⟨sched, s2, hall, hrun, hfin, hinv⟩ := ih s1 (by omega) h1.1
      refine ⟨a :: sched, s2, ?_, ?_, hfin, hinv⟩
      · intro b hb
        rcases List.mem_cons.mp hb with rfl | hb
        · exact ha
        · exact hall b hb
      · simp [runWith, hstep, hrun]

end Schedules

end GoConc

namespace GoConc.OrDone

variable {α : Type}

/-- What a step of the system does while `done` is open: it either takes the
next value off `c`, or sees `c` closed and returns, or hands the value in
flight to the reader. -/
theorem Sys.step_open (a : Act) (s s' : Sys α) (ha : a ≠ Act.closeDone)
    (hd : s.doneClosed = false) (h : Sys.step a s = some s') :
    s'.doneClosed = false ∧ s'.g.c.closes = s.g.c.closes ∧
    s'.out ++ s'.g.rest = s.out ++ s.g.rest ∧
    s'.g.rest.length + s.demand = s.g.rest.length + s'.demand ∧
    s'.g.fuel < s.g.fuel := by
  obtain ⟨⟨pc, ⟨pending, closes⟩⟩, dc, out, demand⟩ := s
  simp only at hd
  subst hd
  cases a with
  | closeDone => exact absurd rfl ha
  | branch b =>
    cases pc with
    | outer =>
      cases b with
      | done => simp [Sys.step, OrDone.step] at h
      | recv =>
        cases pending with
        | nil =>
          cases closes with
          | false => simp [Sys.step, OrDone.step] at h
          | true =>
            simp [Sys.step, OrDone.step] at h
            subst h
            simp [Goroutine.rest, Goroutine.fuel]
        | cons v rest =>
          simp [Sys.step, OrDone.step] at h
          subst h
          simp [Goroutine.rest, Goroutine.fuel]
          omega
      | send => simp [Sys.step, OrDone.step] at h
    | inner v =>
      cases b with
      | done => simp [Sys.step, OrDone.step] at h
      | recv => simp [Sys.step, OrDone.step] at h
      | send =>
        by_cases hdem : 0 < demand
        · simp [Sys.step, OrDone.step, hdem] at h
          subst h
          simp [Goroutine.rest, Goroutine.fuel]
          omega
        · simp [Sys.step, OrDone.step, hdem] at h
    | returned =>
      cases b <;> simp [Sys.step, OrDone.step] at h

end GoConc.OrDone

namespace GoConc.OrDone

variable {α : Type}

/-- While `done` is open, `c` gets closed and the reader still wants every
value that is left, a goroutine that has not returned has a ready branch. -/
theorem Sys.progress_open (s : Sys α) (hd : s.doneClosed = false)
    (hc : s.g.c.closes = true) (hdem : s.g.rest.length ≤ s.demand)
    (hpc : s.g.pc ≠ PC.returned) :
    ∃ b s', Sys.step (Act.branch b) s = some s' := by
  obtain ⟨⟨pc, ⟨pending, closes⟩⟩, dc, out, demand⟩ := s
  simp only at hd hc hpc
  subst hd hc
  cases pc with
  | outer =>
    cases pending with
    | nil => exact ⟨Branch.recv, _, by simp [Sys.step, OrDone.step]; rfl⟩
    | cons v rest => exact ⟨Branch.recv, _, by simp [Sys.step, OrDone.step]; rfl⟩
  | inner v =>
    have : 0 < demand := by
      simp [Goroutine.rest] at hdem
      omega
    exact ⟨Branch.send, _, by simp [Sys.step, OrDone.step, this]; rfl⟩
  | returned => exact absurd rfl hpc

/-- The invariant of the runs in which `done` stays open. -/
theorem Sys.run_open (vs : List α) (sched : List Act) (s s' : Sys α)
    (hsched : ∀ a ∈ sched, a ≠ Act.closeDone)
    (hinv : s.doneClosed = false ∧ s.g.c.closes = true ∧ s.out ++ s.g.rest = vs ∧
      s.g.rest.length ≤ s.demand)
    (hrun : Sys.run s sched = some s') :
    (s'.doneClosed = false ∧ s'.g.c.closes = true ∧ s'.out ++ s'.g.rest = vs ∧
      s'.g.rest.length ≤ s'.demand) ∧ sched.length + s'.g.fuel ≤ s.g.fuel := by
  refine runWith_invariant Sys.step (fun a => a ≠ Act.closeDone)
    (fun s => s.doneClosed = false ∧ s.g.c.closes = true ∧ s.out ++ s.g.rest = vs ∧
      s.g.rest.length ≤ s.demand) (fun s => s.g.fuel) ?_ sched s s' hsched hinv hrun
  intro a t t' ha ht hstep
  obtain ⟨h1, h2, h3, h4, h5⟩ := Sys.step_open a t t' ha ht.1 hstep
  refine ⟨⟨h1, by rw [h2]; exact ht.2.1, by rw [h3]; exact ht.2.2.1, ?_⟩, h5⟩
  have := ht.2.2.2
  omega

/-- A goroutine that has returned holds nothing back. -/
theorem Goroutine.rest_returned (g : Goroutine α) (h : g.pc = PC.returned) : g.rest = [] := by
  simp [Goroutine.rest, h]

/-- C3. With `done` never closed, an upstream that hands over `vs` and is then
closed, and a reader that keeps receiving (it takes at least `vs.length`
values): in every run the values delivered so far are an initial segment of
`vs`, a goroutine that has returned (closing `valStream`) has delivered exactly
`vs`, a goroutine that has not returned is never stuck, no run is longer than
`2 * vs.length + 1` steps, and some run does return. -/
theorem ordone_forwards_all (vs : List α) (demand : Nat) (h : vs.length ≤ demand) :
    (∀ sched s, Act.closeDone ∉ sched → Sys.run (init vs true demand) sched = some s →
      s.out <+: vs ∧ (s.g.pc = PC.returned → s.out = vs) ∧
      (s.g.pc ≠ PC.returned → ∃ b s', Sys.step (Act.branch b) s = some s') ∧
      sched.length ≤ 2 * vs.length + 1) ∧
    (∃ sched s, Act.closeDone ∉ sched ∧ Sys.run (init vs true demand) sched = some s ∧
      s.g.pc = PC.returned ∧ s.out = vs) := by
  have hinit : (init vs true demand).doneClosed = false ∧
      (init vs true demand).g.c.closes = true ∧
      (init vs true demand).out ++ (init vs true demand).g.rest = vs ∧
      (init vs true demand).g.rest.length ≤ (init vs true demand).demand := by
    simp [init, spawn, Goroutine.rest, h]
  constructor
  · intro sched s hsched hrun
    have hall : ∀ a ∈ sched, a ≠ Act.closeDone := fun a ha he => hsched (he ▸ ha)
    obtain ⟨⟨h1, h2, h3, h4⟩, h5⟩ := Sys.run_open vs sched _ s hall hinit hrun
    refine ⟨⟨s.g.rest, h3⟩, ?_, ?_, ?_⟩
    · intro hpc
      rw [Goroutine.rest_returned s.g hpc] at h3
      simpa using h3
    · intro hpc
      exact Sys.progress_open s h1 h2 h4 hpc
    · have : (init vs true demand).g.fuel = 2 * vs.length + 1 := by
        simp [init, spawn, Goroutine.fuel]
      omega
  · obtain ⟨sched, s, hall, hrun, hfin, hinv⟩ :=
      runWith_reaches Sys.step (fun a => a ≠ Act.closeDone)
        (fun s => s.doneClosed = false ∧ s.g.c.closes = true ∧ s.out ++ s.g.rest = vs ∧
          s.g.rest.length ≤ s.demand) (fun s => s.g.pc = PC.returned) (fun s => s.g.fuel)
        (by
          intro a t t' ha ht hstep
          obtain ⟨h1, h2, h3, h4, h5⟩ := Sys.step_open a t t' ha ht.1 hstep
          refine ⟨⟨h1, by rw [h2]; exact ht.2.1, by rw [h3]; exact ht.2.2.1, ?_⟩, h5⟩
          have := ht.2.2.2
          omega)
        (by
          intro t ht hpc
          obtain ⟨b, t', hstep⟩ := Sys.progress_open t ht.1 ht.2.1 ht.2.2.2 hpc
          exact ⟨Act.branch b, t', by simp, hstep⟩)
        _ (init vs true demand) (le_refl _) hinit
    refine ⟨sched, s, fun hmem => hall _ hmem rfl, hrun, hfin, ?_⟩
    have h3 := hinv.2.2.1
    rw [Goroutine.rest_returned s.g hfin] at h3
    simpa using h3

/-- C3 at `vs = [1, 2, 3]` with a reader taking three values. -/
theorem ordone_forwards_all_witness :
    [1, 2, 3].length ≤ 3 ∧
    (∀ sched s, Act.closeDone ∉ sched → Sys.run (init [1, 2, 3] true 3) sched = some s →
      s.out <+: [1, 2, 3] ∧ (s.g.pc = PC.returned → s.out = [1, 2, 3]) ∧
      (s.g.pc ≠ PC.returned → ∃ b s', Sys.step (Act.branch b) s = some s') ∧
      sched.length ≤ 2 * [1, 2, 3].length + 1) ∧
    (∃ sched s, Act.closeDone ∉ sched ∧ Sys.run (init [1, 2, 3] true 3) sched = some s ∧
      s.g.pc = PC.returned ∧ s.out = [1, 2, 3]) :=
  ⟨by decide, ordone_forwards_all [1, 2, 3] 3 (by decide)⟩

end GoConc.OrDone

namespace GoConc.OrDone

variable {α : Type}

/-- What a step does once `done` is closed and the reader has lost interest:
nothing is delivered, and the goroutine either returns, or drops the value in
flight, or takes one more value off `c`. -/
theorem Sys.step_cancelled (a : Act) (s s' : Sys α) (hd : s.doneClosed = true)
    (h0 : s.demand = 0) (h : Sys.step a s = some s') :
    s'.doneClosed = true ∧ s'.demand = 0 ∧ s'.out = s.out ∧ s'.g.fuel < s.g.fuel ∧
    (if s.g.pc.isOuter && decide (a ≠ Act.closeDone) then 1 else 0) + s'.g.laps ≤ s.g.laps := by
  obtain ⟨⟨pc, ⟨pending, closes⟩⟩, dc, out, demand⟩ := s
  simp only at hd h0
  subst hd h0
  cases a with
  | closeDone => simp [Sys.step] at h
  | branch b =>
    cases pc with
    | outer =>
      cases b with
      | done =>
        simp [Sys.step, OrDone.step] at h
        subst h
        simp [Goroutine.fuel, Goroutine.laps, PC.isOuter, PC.isReturned]
      | recv =>
        cases pending with
        | nil =>
          cases closes with
          | false => simp [Sys.step, OrDone.step] at h
          | true =>
            simp [Sys.step, OrDone.step] at h
            subst h
            simp [Goroutine.fuel, Goroutine.laps, PC.isOuter, PC.isReturned]
        | cons v rest =>
          simp [Sys.step, OrDone.step] at h
          subst h
          simp [Goroutine.fuel, Goroutine.laps, PC.isOuter, PC.isReturned]
          omega
      | send => simp [Sys.step, OrDone.step] at h
    | inner v =>
      cases b with
      | done =>
        simp [Sys.step, OrDone.step] at h
        subst h
        simp [Goroutine.fuel, Goroutine.laps, PC.isOuter, PC.isReturned]
      | recv => simp [Sys.step, OrDone.step] at h
      | send => simp [Sys.step, OrDone.step] at h
    | returned =>
      cases b <;> simp [Sys.step, OrDone.step] at h

/-- Once `done` is closed, the `done` branch of the current `select` is ready
as long as the goroutine has not returned. -/
theorem Sys.done_ready (s : Sys α) (hd : s.doneClosed = true) (hpc : s.g.pc ≠ PC.returned) :
    ∃ s', Sys.step (Act.branch Branch.done) s = some s' := by
  obtain ⟨⟨pc, c⟩, dc, out, demand⟩ := s
  simp only at hd hpc
  subst hd
  cases pc with
  | outer => exact ⟨_, by simp [Sys.step, OrDone.step]; rfl⟩
  | inner v => exact ⟨_, by simp [Sys.step, OrDone.step]; rfl⟩
  | returned => exact absurd rfl hpc

/-- The loop iterations of a run after cancellation are bounded by the number
of values pending on `c`, plus one. -/
theorem iterations_cancelled (sched : List Act) :
    ∀ (s : Sys α), s.doneClosed = true → s.demand = 0 → iterations s sched ≤ s.g.laps := by
  induction sched with
  | nil => intro s _ _; simp [iterations]
  | cons a as ih =>
    intro s hd h0
    simp only [iterations]
    cases h : Sys.step a s with
    | none => simp
    | some s1 =>
      obtain ⟨h1, h2, _, _, h5⟩ := Sys.step_cancelled a s s1 hd h0 h
      have := ih s1 h1 h2
      simp only
      omega

/-- C4. Once `done` is closed and the reader of `valStream` has stopped
receiving, whatever number of values is still pending on `c`: in every run
nothing more is delivered, the goroutine is never blocked (the `done` branch
of its current `select` is ready until it returns), it starts at most
`pending + 1` loop iterations and takes at most `2 * pending + 2` steps, and
some run returns. -/
theorem ordone_returns_after_done (s : Sys α) (hd : s.doneClosed = true) (h0 : s.demand = 0) :
    (∀ sched s', Sys.run s sched = some s' →
      s'.out = s.out ∧
      (s'.g.pc ≠ PC.returned → ∃ s'', Sys.step (Act.branch Branch.done) s' = some s'') ∧
      iterations s sched ≤ s.g.c.pending.length + 1 ∧
      sched.length ≤ 2 * s.g.c.pending.length + 2) ∧
    (∃ sched s', Sys.run s sched = some s' ∧ s'.g.pc = PC.returned ∧ s'.out = s.out) := by
  have hpres : ∀ (a : Act) (t t' : Sys α), True →
      (t.doneClosed = true ∧ t.demand = 0 ∧ t.out = s.out) → Sys.step a t = some t' →
      (t'.doneClosed = true ∧ t'.demand = 0 ∧ t'.out = s.out) ∧ t'.g.fuel < t.g.fuel := by
    intro a t t' _ ht hstep
    obtain ⟨h1, h2, h3, h4, _⟩ := Sys.step_cancelled a t t' ht.1 ht.2.1 hstep
    exact ⟨⟨h1, h2, by rw [h3]; exact ht.2.2⟩, h4⟩
  constructor
  · intro sched s' hrun
    obtain ⟨⟨h1, _, h3⟩, h4⟩ := runWith_invariant Sys.step (fun _ => True)
      (fun t => t.doneClosed = true ∧ t.demand = 0 ∧ t.out = s.out) (fun t => t.g.fuel)
      hpres sched s s' (fun _ _ => trivial) ⟨hd, h0, rfl⟩ hrun
    refine ⟨h3, fun hpc => Sys.done_ready s' h1 hpc, ?_, ?_⟩
    · have := iterations_cancelled sched s hd h0
      have h6 : s.g.laps ≤ s.g.c.pending.length + 1 := by
        unfold Goroutine.laps
        split <;> omega
      omega
    · have h6 : s.g.fuel ≤ 2 * s.g.c.pending.length + 2 := by
        unfold Goroutine.fuel
        split <;> omega
      omega
  · obtain ⟨sched, s', _, hrun, hfin, hinv⟩ :=
      runWith_reaches Sys.step (fun _ => True)
        (fun t => t.doneClosed = true ∧ t.demand = 0 ∧ t.out = s.out)
        (fun t => t.g.pc = PC.returned) (fun t => t.g.fuel) hpres
        (by
          intro t ht hpc
          obtain ⟨t', hstep⟩ := Sys.done_ready t ht.1 hpc
          exact ⟨_, t', trivial, hstep⟩)
        _ s (le_refl _) ⟨hd, h0, rfl⟩
    exact ⟨sched, s', hrun, hfin, hinv.2.2⟩

/-- C4 where the reader took one value of `[1, 2, 3, 4]`, the goroutine is
blocked on the send of `2`, and `done` has just been closed. -/
theorem ordone_returns_after_done_witness :
    Sys.run (init [1, 2, 3, 4] false 1)
      [Act.branch Branch.recv, Act.branch Branch.send, Act.branch Branch.recv, Act.closeDone] =
      some abandoned ∧
    ((∀ sched s', Sys.run abandoned sched = some s' →
      s'.out = abandoned.out ∧
      (s'.g.pc ≠ PC.returned → ∃ s'', Sys.step (Act.branch Branch.done) s' = some s'') ∧
      iterations abandoned sched ≤ abandoned.g.c.pending.length + 1 ∧
      sched.length ≤ 2 * abandoned.g.c.pending.length + 2) ∧
    (∃ sched s', Sys.run abandoned sched = some s' ∧
      s'.g.pc = PC.returned ∧ s'.out = abandoned.out)) :=
  ⟨by decide, ordone_returns_after_done abandoned rfl rfl⟩

/-- Every step keeps the values delivered, followed by the one in flight, a
subsequence of the values received from `c`. -/
theorem Sys.step_sublist (vs : List α) (a : Act) (s s' : Sys α)
    (hinv : ∃ recvd, recvd ++ s.g.c.pending = vs ∧ (s.out ++ s.g.pc.inflight).Sublist recvd)
    (h : Sys.step a s = some s') :
    ∃ recvd, recvd ++ s'.g.c.pending = vs ∧ (s'.out ++ s'.g.pc.inflight).Sublist recvd := by
  obtain ⟨recvd, hr, hsub⟩ := hinv
  obtain ⟨⟨pc, ⟨pending, closes⟩⟩, dc, out, demand⟩ := s
  simp only at hr hsub
  cases a with
  | closeDone =>
    cases dc with
    | true => simp [Sys.step] at h
    | false =>
      simp [Sys.step] at h
      subst h
      exact ⟨recvd, hr, hsub⟩
  | branch b =>
    cases pc with
    | outer =>
      cases b with
      | done =>
        cases dc with
        | false => simp [Sys.step, OrDone.step] at h
        | true =>
          simp [Sys.step, OrDone.step] at h
          subst h
          exact ⟨recvd, hr, by simpa [PC.inflight] using hsub⟩
      | recv =>
        cases pending with
        | nil =>
          cases closes with
          | false => simp [Sys.step, OrDone.step] at h
          | true =>
            simp [Sys.step, OrDone.step] at h
            subst h
            exact ⟨recvd, hr, by simpa [PC.inflight] using hsub⟩
        | cons v rest =>
          simp [Sys.step, OrDone.step] at h
          subst h
          refine ⟨recvd ++ [v], by simpa using hr, ?_⟩
          simp only [PC.inflight, List.append_nil] at hsub ⊢
          exact List.Sublist.append hsub (List.Sublist.refl _)
      | send => simp [Sys.step, OrDone.step] at h
    | inner v =>
      cases b with
      | done =>
        cases dc with
        | false => simp [Sys.step, OrDone.step] at h
        | true =>
          simp [Sys.step, OrDone.step] at h
          subst h
          refine ⟨recvd, hr, ?_⟩
          simp only [PC.inflight, List.append_nil] at hsub ⊢
          exact (List.sublist_append_left out [v]).trans hsub
      | recv => simp [Sys.step, OrDone.step] at h
      | send =>
        by_cases hdem : 0 < demand
        · simp [Sys.step, OrDone.step, hdem] at h
          subst h
          exact ⟨recvd, hr, by simpa [PC.inflight] using hsub⟩
        · simp [Sys.step, OrDone.step, hdem] at h
    | returned =>
      cases b <;> simp [Sys.step, OrDone.step] at h

/-- C5. Whatever the upstream `vs`, whether or not it is closed, however
long the reader keeps receiving and whenever `done` is closed (any schedule):
the values delivered on `valStream` are a subsequence, in the same order, of
the values received from `c` so far, which are an initial segment of `vs`. -/
theorem ordone_delivers_subsequence (vs : List α) (closes : Bool) (demand : Nat)
    (sched : List Act) (s : Sys α) (h : Sys.run (init vs closes demand) sched = some s) :
    ∃ recvd, recvd ++ s.g.c.pending = vs ∧ s.out.Sublist recvd := by
  have := runWith_preserves Sys.step (fun _ => True)
    (fun t => ∃ recvd, recvd ++ t.g.c.pending = vs ∧ (t.out ++ t.g.pc.inflight).Sublist recvd)
    (fun a t t' _ ht hstep => Sys.step_sublist vs a t t' ht hstep)
    sched (init vs closes demand) s (fun _ _ => trivial)
    ⟨[], by simp [init, spawn], by simp [init, spawn, PC.inflight]⟩ h
  obtain ⟨recvd, hr, hsub⟩ := this
  exact ⟨recvd, hr, (List.sublist_append_left _ _).trans hsub⟩

/-- C5 on a run over `[1, 2, 3]` in which `done` is closed while `2` is in
flight: `2` is dropped, `3` is never received. -/
theorem ordone_delivers_subsequence_witness :
    Sys.run (init [1, 2, 3] true 5)
      [Act.branch Branch.recv, Act.branch Branch.send, Act.branch Branch.recv, Act.closeDone,
       Act.branch Branch.done, Act.branch Branch.done] =
      some { g := { pc := PC.returned, c := { pending := [3], closes := true } },
             doneClosed := true, out := [1], demand := 4 } ∧
    ∃ recvd, recvd ++ [3] = [1, 2, 3] ∧ [1].Sublist recvd :=
  ⟨by decide,
   ordone_delivers_subsequence [1, 2, 3] true 5
     [Act.branch Branch.recv, Act.branch Branch.send, Act.branch Branch.recv, Act.closeDone,
       Act.branch Branch.done, Act.branch Branch.done]
     { g := { pc := PC.returned, c := { pending := [3], closes := true } },
       doneClosed := true, out := [1], demand := 4 } (by decide)⟩

end GoConc.OrDone

namespace GoConc.OrDone

variable {α : Type}

/-- A branch taken by the goroutine while `done` is open: the value it hands
over, if any, is the head of what it had yet to deliver, and it only hands a
value over to a waiting receiver. -/
theorem goroutine_step_open (r : Bool) (b : Branch) (g g' : Goroutine α) (o : Option α)
    (h : OrDone.step false r b g = some (g', o)) :
    g'.c.closes = g.c.closes ∧ o.toList ++ g'.rest = g.rest ∧ g'.fuel < g.fuel ∧
    (o.isSome = true → r = true) := by
  obtain ⟨pc, ⟨pending, closes⟩⟩ := g
  cases pc with
  | outer =>
    cases b with
    | done => simp [OrDone.step] at h
    | recv =>
      cases pending with
      | nil =>
        cases closes with
        | false => simp [OrDone.step] at h
        | true =>
          simp [OrDone.step] at h
          obtain ⟨h1, h2⟩ := h
          subst h1 h2
          simp [Goroutine.rest, Goroutine.fuel]
      | cons v rest =>
        simp [OrDone.step] at h
        obtain ⟨h1, h2⟩ := h
        subst h1 h2
        simp [Goroutine.rest, Goroutine.fuel]
        omega
    | send => simp [OrDone.step] at h
  | inner v =>
    cases b with
    | done => simp [OrDone.step] at h
    | recv => simp [OrDone.step] at h
    | send =>
      cases r with
      | false => simp [OrDone.step] at h
      | true =>
        simp [OrDone.step] at h
        obtain ⟨h1, h2⟩ := h
        subst h1 h2
        simp [Goroutine.rest, Goroutine.fuel]
  | returned =>
    cases b <;> simp [OrDone.step] at h

/-- While `done` is open and `c` gets closed, a goroutine that has not
returned and whose receiver waits has a ready branch. -/
theorem goroutine_progress_open (g : Goroutine α) (hc : g.c.closes = true) (hpc : g.pc.isReturned = false) :
    ∃ b r, OrDone.step false true b g = some r := by
  obtain ⟨pc, ⟨pending, closes⟩⟩ := g
  simp only at hc
  subst hc
  cases pc with
  | outer =>
    cases pending with
    | nil => exact ⟨Branch.recv, _, by simp [OrDone.step]; rfl⟩
    | cons v rest => exact ⟨Branch.recv, _, by simp [OrDone.step]; rfl⟩
  | inner v => exact ⟨Branch.send, _, by simp [OrDone.step]; rfl⟩
  | returned => simp [PC.isReturned] at hpc

end GoConc.OrDone

namespace GoConc.Bridge

variable {α : Type}

/-- While `done` is open every step keeps the invariant `Flows` and uses up
fuel. -/
theorem Sys.step_flows (total : List α) (a : Act) (s s' : Sys α) (ha : a ≠ Act.closeDone)
    (hinv : s.Flows total) (h : Sys.step a s = some s') :
    s'.Flows total ∧ s'.fuel < s.fuel := by
  obtain ⟨pc, dc, chanStream, chanCloses, chanClosed, out, demand⟩ := s
  obtain ⟨h1, h2, h3, h4, h5, h6, h7⟩ := hinv
  simp only at h1 h2 h3 h4 h5 h6 h7
  subst h1 h2
  cases a with
  | closeDone => exact absurd rfl ha
  | closeChan =>
    cases chanClosed with
    | true => simp [Sys.step] at h
    | false =>
      cases chanStream with
      | cons st later => simp [Sys.step] at h
      | nil =>
        simp [Sys.step] at h
        subst h
        refine ⟨⟨rfl, rfl, h3, h4, fun _ => rfl, h6, h7⟩, ?_⟩
        simp [Sys.fuel]
  | recvStream =>
    cases pc with
    | rangeChan =>
      cases chanStream with
      | nil => simp [Sys.step] at h
      | cons st later =>
        simp [Sys.step] at h
        subst h
        refine ⟨⟨rfl, rfl, ?_, ?_, ?_, ?_, ?_⟩, ?_⟩
        · exact h4 st (List.mem_cons_self _ _)
        · exact fun st' hst => h4 st' (List.mem_cons_of_mem _ hst)
        · intro hc
          have := h5 hc
          simp at this
        · simpa [Sys.rest, PC.rest] using h6
        · simpa [Sys.rest, PC.rest] using h7
        · simp [Sys.fuel, PC.fuel]
    | checkDone st => simp [Sys.step] at h
    | rangeOrDone g => simp [Sys.step] at h
    | sendVal v g => simp [Sys.step] at h
    | returned => simp [Sys.step] at h
  | rangeEnd =>
    cases pc with
    | rangeChan =>
      cases chanClosed with
      | false => simp [Sys.step] at h
      | true =>
        simp [Sys.step] at h
        subst h
        refine ⟨⟨rfl, rfl, rfl, h4, h5, ?_, ?_⟩, ?_⟩
        · simpa [Sys.rest, PC.rest] using h6
        · simpa [Sys.rest, PC.rest] using h7
        · simp [Sys.fuel, PC.fuel]
    | checkDone st => simp [Sys.step] at h
    | rangeOrDone g => simp [Sys.step] at h
    | sendVal v g => simp [Sys.step] at h
    | returned => simp [Sys.step] at h
  | checkDone =>
    cases pc with
    | checkDone st =>
      simp [Sys.step] at h
      subst h
      refine ⟨⟨rfl, rfl, ?_, h4, h5, ?_, ?_⟩, ?_⟩
      · simpa [PC.closes, OrDone.spawn] using h3
      · simpa [Sys.rest, PC.rest, OrDone.spawn, OrDone.Goroutine.rest] using h6
      · simpa [Sys.rest, PC.rest, OrDone.spawn, OrDone.Goroutine.rest] using h7
      · simp [Sys.fuel, PC.fuel, OrDone.spawn, OrDone.Goroutine.rest, OrDone.Goroutine.fuel]
        all_goals omega
    | rangeChan => simp [Sys.step] at h
    | rangeOrDone g => simp [Sys.step] at h
    | sendVal v g => simp [Sys.step] at h
    | returned => simp [Sys.step] at h
  | orDone b =>
    cases pc with
    | rangeOrDone g =>
      simp only [Sys.step] at h
      cases hg : OrDone.step false true b g with
      | none => simp [hg] at h
      | some r =>
        obtain ⟨g', o⟩ := r
        obtain ⟨e1, e2, e3, _⟩ := OrDone.goroutine_step_open true b g g' o hg
        cases o with
        | none =>
          simp [hg] at h
          subst h
          simp only [Option.toList, List.nil_append] at e2
          refine ⟨⟨rfl, rfl, ?_, h4, h5, ?_, ?_⟩, ?_⟩
          · simpa [PC.closes, e1] using h3
          · simpa [Sys.rest, PC.rest, e2] using h6
          · simpa [Sys.rest, PC.rest, e2] using h7
          · simp [Sys.fuel, PC.fuel, e2]
            all_goals omega
        | some v =>
          simp [hg] at h
          subst h
          simp only [Option.toList, List.singleton_append] at e2
          refine ⟨⟨rfl, rfl, ?_, h4, h5, ?_, ?_⟩, ?_⟩
          · simpa [PC.closes, e1] using h3
          · simpa [Sys.rest, PC.rest, e2] using h6
          · simpa [Sys.rest, PC.rest, e2] using h7
          · simp only [Sys.fuel, PC.fuel, ← e2, List.length_cons]
            all_goals omega
    | sendVal v g =>
      simp only [Sys.step] at h
      cases hg : OrDone.step false false b g with
      | none => simp [hg] at h
      | some r =>
        obtain ⟨g', o⟩ := r
        obtain ⟨e1, e2, e3, e4⟩ := OrDone.goroutine_step_open false b g g' o hg
        cases o with
        | some w => simp at e4
        | none =>
          simp [hg] at h
          subst h
          simp only [Option.toList, List.nil_append] at e2
          refine ⟨⟨rfl, rfl, ?_, h4, h5, ?_, ?_⟩, ?_⟩
          · simpa [PC.closes, e1] using h3
          · simpa [Sys.rest, PC.rest, e2] using h6
          · simpa [Sys.rest, PC.rest, e2] using h7
          · simp [Sys.fuel, PC.fuel, e2]
            all_goals omega
    | rangeChan => simp [Sys.step] at h
    | checkDone st => simp [Sys.step] at h
    | returned => simp [Sys.step] at h
  | orDoneClosed =>
    cases pc with
    | rangeOrDone g =>
      obtain ⟨gpc, gc⟩ := g
      cases gpc with
      | returned =>
        simp [Sys.step, OrDone.PC.isReturned] at h
        subst h
        refine ⟨⟨rfl, rfl, rfl, h4, h5, ?_, ?_⟩, ?_⟩
        · simpa [Sys.rest, PC.rest, OrDone.Goroutine.rest] using h6
        · simpa [Sys.rest, PC.rest, OrDone.Goroutine.rest] using h7
        · simp [Sys.fuel, PC.fuel, OrDone.Goroutine.rest, OrDone.Goroutine.fuel]
      | outer => simp [Sys.step, OrDone.PC.isReturned] at h
      | inner v => simp [Sys.step, OrDone.PC.isReturned] at h
    | rangeChan => simp [Sys.step] at h
    | checkDone st => simp [Sys.step] at h
    | sendVal v g => simp [Sys.step] at h
    | returned => simp [Sys.step] at h
  | selDone =>
    cases pc <;> simp [Sys.step] at h
  | selSend =>
    cases pc with
    | sendVal v g =>
      by_cases hdem : 0 < demand
      · simp [Sys.step, hdem] at h
        subst h
        refine ⟨⟨rfl, rfl, ?_, h4, h5, ?_, ?_⟩, ?_⟩
        · simpa [PC.closes] using h3
        · simpa [Sys.rest, PC.rest] using h6
        · simp [Sys.rest, PC.rest] at h7 ⊢
          all_goals omega
        · simp [Sys.fuel, PC.fuel]
      · simp [Sys.step, hdem] at h
    | rangeChan => simp [Sys.step] at h
    | checkDone st => simp [Sys.step] at h
    | rangeOrDone g => simp [Sys.step] at h
    | returned => simp [Sys.step] at h

end GoConc.Bridge

namespace GoConc.Bridge

variable {α : Type}

/-- Under the invariant `Flows`, a `Bridge` that has not returned is never
stuck: some action other than closing `done` is enabled. -/
theorem Sys.progress_flows (total : List α) (s : Sys α) (hinv : s.Flows total)
    (hpc : s.pc ≠ PC.returned) :
    ∃ a s', a ≠ Act.closeDone ∧ Sys.step a s = some s' := by
  obtain ⟨pc, dc, chanStream, chanCloses, chanClosed, out, demand⟩ := s
  obtain ⟨h1, h2, h3, h4, h5, h6, h7⟩ := hinv
  simp only at h1 h2 h3 h4 h5 h6 h7 hpc
  subst h1 h2
  cases pc with
  | rangeChan =>
    cases chanStream with
    | cons st later => exact ⟨Act.recvStream, _, by simp, by simp [Sys.step]; rfl⟩
    | nil =>
      cases chanClosed with
      | true => exact ⟨Act.rangeEnd, _, by simp, by simp [Sys.step]; rfl⟩
      | false => exact ⟨Act.closeChan, _, by simp, by simp [Sys.step]; rfl⟩
  | checkDone st => exact ⟨Act.checkDone, _, by simp, by simp [Sys.step]; rfl⟩
  | rangeOrDone g =>
    cases hret : g.pc.isReturned with
    | true => exact ⟨Act.orDoneClosed, _, by simp, by simp [Sys.step, hret]; rfl⟩
    | false =>
      obtain ⟨b, r, hr⟩ := OrDone.goroutine_progress_open g (by simpa [PC.closes] using h3) hret
      obtain ⟨g', o⟩ := r
      cases o with
      | none => exact ⟨Act.orDone b, _, by simp, by simp [Sys.step, hr]; rfl⟩
      | some v => exact ⟨Act.orDone b, _, by simp, by simp [Sys.step, hr]; rfl⟩
  | sendVal v g =>
    have hdem : 0 < demand := by
      simp [Sys.rest, PC.rest] at h7
      omega
    exact ⟨Act.selSend, _, by simp, by simp [Sys.step, hdem]; rfl⟩
  | returned => exact absurd rfl hpc

/-- The only steps by which `Bridge` returns: the end of `range chanStream`
on a closed `chanStream`, and the `done` branch of the first `select` on a
closed `done`. -/
theorem Sys.step_returned (a : Act) (s s' : Sys α) (h : Sys.step a s = some s')
    (hret : s'.pc = PC.returned) :
    s.pc = PC.returned ∨ (a = Act.rangeEnd ∧ s.chanClosed = true) ∨
      (a = Act.checkDone ∧ s.doneClosed = true) := by
  obtain ⟨pc, dc, chanStream, chanCloses, chanClosed, out, demand⟩ := s
  cases a <;> cases pc <;> simp only [Sys.step] at h <;>
    (try split at h) <;> simp_all <;> (subst h; simp_all)

/-- No step reopens `done` or `chanStream`. -/
theorem Sys.step_mono (a : Act) (s s' : Sys α) (h : Sys.step a s = some s') :
    (s.chanClosed = true → s'.chanClosed = true) ∧
    (s.doneClosed = true → s'.doneClosed = true) := by
  obtain ⟨pc, dc, chanStream, chanCloses, chanClosed, out, demand⟩ := s
  cases a <;> cases pc <;> simp only [Sys.step] at h <;>
    (try split at h) <;> simp_all <;> (subst h; simp_all)

/-- Every step keeps: a `Bridge` that has returned has seen `chanStream` or
`done` closed. -/
theorem Sys.step_closed_only_after (a : Act) (s s' : Sys α)
    (hinv : s.pc = PC.returned → s.chanClosed = true ∨ s.doneClosed = true)
    (h : Sys.step a s = some s') :
    s'.pc = PC.returned → s'.chanClosed = true ∨ s'.doneClosed = true := by
  intro hret
  obtain ⟨m1, m2⟩ := Sys.step_mono a s s' h
  rcases Sys.step_returned a s s' h hret with h1 | ⟨_, h2⟩ | ⟨_, h3⟩
  · rcases hinv h1 with h4 | h4
    · exact Or.inl (m1 h4)
    · exact Or.inr (m2 h4)
  · exact Or.inl (m1 h2)
  · exact Or.inr (m2 h3)

end GoConc.Bridge

namespace GoConc.Bridge

variable {α : Type}

/-- The values to come at the start are the concatenation of the
sub-streams. -/
theorem init_rest (streams : List (List α)) (demand : Nat) :
    (init (streams.map finite) true demand).rest = streams.flatten := by
  simp only [Sys.rest, init, PC.rest, List.nil_append, List.map_map]
  congr 1
  induction streams with
  | nil => rfl
  | cons vs later ih => simp [finite, ih]

/-- The fuel at the start: three steps a value, four a sub-stream, and two
for the end of `chanStream`. -/
theorem init_fuel (streams : List (List α)) (demand : Nat) :
    (init (streams.map finite) true demand).fuel =
      3 * streams.flatten.length + 4 * streams.length + 2 := by
  simp only [Sys.fuel, init, PC.fuel, List.map_map]
  have : ∀ (l : List (List α)),
      (l.map ((fun st : Upstream α => 3 * st.pending.length + 4) ∘ finite)).sum =
        3 * l.flatten.length + 4 * l.length := by
    intro l
    induction l with
    | nil => rfl
    | cons vs later ih =>
      simp only [List.map_cons, List.sum_cons, ih, List.flatten_cons, List.length_append,
        List.length_cons, Function.comp, finite]
      omega
  rw [this]
  simp
  omega

/-- The invariant `Flows` holds at the start when the reader takes every
value. -/
theorem init_flows (streams : List (List α)) (demand : Nat)
    (h : streams.flatten.length ≤ demand) :
    (init (streams.map finite) true demand).Flows streams.flatten := by
  refine ⟨rfl, rfl, rfl, ?_, ?_, ?_, ?_⟩
  · intro st hst
    simp only [init, List.mem_map] at hst
    obtain ⟨vs, _, rfl⟩ := hst
    rfl
  · intro hc
    simp [init] at hc
  · rw [init_rest]
    simp [init]
  · rw [init_rest]
    simpa [init] using h

/-- The invariant of the runs of `Bridge` in which `done` stays open. -/
theorem Sys.flows_step (total : List α) (a : Act) (s s' : Sys α) (ha : a ≠ Act.closeDone)
    (hinv : s.Flows total ∧ (s.pc = PC.returned → s.chanClosed = true ∨ s.doneClosed = true))
    (h : Sys.step a s = some s') :
    (s'.Flows total ∧ (s'.pc = PC.returned → s'.chanClosed = true ∨ s'.doneClosed = true)) ∧
      s'.fuel < s.fuel := by
  obtain ⟨h1, h2⟩ := Sys.step_flows total a s s' ha hinv.1 h
  exact ⟨⟨h1, Sys.step_closed_only_after a s s' hinv.2 h⟩, h2⟩

/-- A `Bridge` that has returned with `done` open, under `Flows`, has
delivered everything. -/
theorem Sys.flows_returned (total : List α) (s : Sys α)
    (hinv : s.Flows total ∧ (s.pc = PC.returned → s.chanClosed = true ∨ s.doneClosed = true))
    (hpc : s.pc = PC.returned) : s.out = total := by
  obtain ⟨⟨h1, _, _, _, h5, h6, _⟩, h8⟩ := hinv
  have hc : s.chanClosed = true := by
    rcases h8 hpc with h | h
    · exact h
    · rw [h1] at h
      cases h
  have := h5 hc
  simpa [Sys.rest, hpc, PC.rest, this] using h6

/-- C2. With `done` never closed, a `chanStream` that hands over finitely
many sub-streams and is then closed, each sub-stream handing over finitely
many values and being closed, and a reader that keeps receiving: in every run
the values delivered so far are an initial segment of the concatenation of the
sub-streams, a `Bridge` that has returned (closing its output) has delivered
exactly the concatenation, a `Bridge` that has not returned is never stuck, no
run is longer than three steps a value plus four a sub-stream plus two, and
some run does return. -/
theorem bridge_concatenates (streams : List (List α)) (demand : Nat)
    (h : streams.flatten.length ≤ demand) :
    (∀ sched s, Act.closeDone ∉ sched →
      Sys.run (init (streams.map finite) true demand) sched = some s →
      s.out <+: streams.flatten ∧ (s.pc = PC.returned → s.out = streams.flatten) ∧
      (s.pc ≠ PC.returned → ∃ a s', a ≠ Act.closeDone ∧ Sys.step a s = some s') ∧
      sched.length ≤ 3 * streams.flatten.length + 4 * streams.length + 2) ∧
    (∃ sched s, Act.closeDone ∉ sched ∧
      Sys.run (init (streams.map finite) true demand) sched = some s ∧
      s.pc = PC.returned ∧ s.out = streams.flatten) := by
  have hinit : (init (streams.map finite) true demand).Flows streams.flatten ∧
      ((init (streams.map finite) true demand).pc = PC.returned →
        (init (streams.map finite) true demand).chanClosed = true ∨
        (init (streams.map finite) true demand).doneClosed = true) :=
    ⟨init_flows streams demand h, by simp [init]⟩
  constructor
  · intro sched s hsched hrun
    have hall : ∀ a ∈ sched, a ≠ Act.closeDone := fun a ha he => hsched (he ▸ ha)
    obtain ⟨hinv, hlen⟩ := runWith_invariant Sys.step (fun a => a ≠ Act.closeDone)
      (fun t => t.Flows streams.flatten ∧
        (t.pc = PC.returned → t.chanClosed = true ∨ t.doneClosed = true))
      (fun t => t.fuel) (Sys.flows_step streams.flatten) sched _ s hall hinit hrun
    refine ⟨⟨s.rest, hinv.1.2.2.2.2.2.1⟩, Sys.flows_returned _ s hinv, ?_, ?_⟩
    · exact Sys.progress_flows _ s hinv.1
    · rw [init_fuel] at hlen
      omega
  · obtain ⟨sched, s, hall, hrun, hfin, hinv⟩ :=
      runWith_reaches Sys.step (fun a => a ≠ Act.closeDone)
        (fun t => t.Flows streams.flatten ∧
          (t.pc = PC.returned → t.chanClosed = true ∨ t.doneClosed = true))
        (fun t => t.pc = PC.returned) (fun t => t.fuel) (Sys.flows_step streams.flatten)
        (fun t ht hpc => by
          obtain ⟨a, t', ha, hstep⟩ := Sys.progress_flows _ t ht.1 hpc
          exact ⟨a, t', ha, hstep⟩)
        _ _ (le_refl _) hinit
    exact ⟨sched, s, fun hmem => hall _ hmem rfl, hrun, hfin, Sys.flows_returned _ s hinv hfin⟩

/-- C2 on `TestBridge`: ten sub-streams, the `i`-th holding `i`, yield
`0, 1, ..., 9`. -/
theorem bridge_concatenates_witness :
    testStreams.flatten = [0, 1, 2, 3, 4, 5, 6, 7, 8, 9] ∧
    testStreams.flatten.length ≤ 10 ∧
    ((∀ sched s, Act.closeDone ∉ sched →
      Sys.run (init (testStreams.map finite) true 10) sched = some s →
      s.out <+: testStreams.flatten ∧ (s.pc = PC.returned → s.out = testStreams.flatten) ∧
      (s.pc ≠ PC.returned → ∃ a s', a ≠ Act.closeDone ∧ Sys.step a s = some s') ∧
      sched.length ≤ 3 * testStreams.flatten.length + 4 * testStreams.length + 2) ∧
    (∃ sched s, Act.closeDone ∉ sched ∧
      Sys.run (init (testStreams.map finite) true 10) sched = some s ∧
      s.pc = PC.returned ∧ s.out = testStreams.flatten)) :=
  ⟨by decide, by decide, bridge_concatenates testStreams 10 (by decide)⟩

end GoConc.Bridge

namespace GoConc.Bridge

variable {α : Type}

/-- On a `chanStream` that stays open and on which nothing is sent, every
step leaves `Bridge` at `range chanStream`. -/
theorem Sys.step_waiting (a : Act) (s s' : Sys α)
    (hinv : s.pc = PC.rangeChan ∧ s.chanStream = [] ∧ s.chanCloses = false ∧
      s.chanClosed = false)
    (h : Sys.step a s = some s') :
    s'.pc = PC.rangeChan ∧ s'.chanStream = [] ∧ s'.chanCloses = false ∧
      s'.chanClosed = false := by
  obtain ⟨pc, dc, chanStream, chanCloses, chanClosed, out, demand⟩ := s
  obtain ⟨h1, h2, h3, h4⟩ := hinv
  simp only at h1 h2 h3 h4
  subst h1 h2 h3 h4
  cases a <;> simp only [Sys.step] at h <;> (try split at h) <;> simp_all
  all_goals (subst h; simp_all)

/-- C6, the failing input.  `Bridge` waits at `for stream := range chanStream`
on a `chanStream` that is open and delivers nothing; `done` is closed.  No
action is enabled in that state: `Bridge` has not returned, its output is not
closed, and no schedule makes it return. -/
theorem bridge_blocked_on_chanStream :
    Sys.run (init ([] : List (Upstream Nat)) false 1) [Act.closeDone] = some waiting ∧
    waiting.doneClosed = true ∧ waiting.pc = PC.rangeChan ∧
    (∀ a, Sys.step a waiting = none) ∧
    (∀ sched s, Sys.run waiting sched = some s → s.pc ≠ PC.returned) := by
  refine ⟨by decide, rfl, rfl, ?_, ?_⟩
  · intro a
    cases a with
    | orDone b => cases b <;> rfl
    | _ => rfl
  · intro sched s hrun
    have := runWith_preserves Sys.step (fun _ => True)
      (fun t => t.pc = PC.rangeChan ∧ t.chanStream = [] ∧ t.chanCloses = false ∧
        t.chanClosed = false)
      (fun a t t' _ ht hstep => Sys.step_waiting a t t' ht hstep)
      sched waiting s (fun _ _ => trivial) ⟨rfl, rfl, rfl, rfl⟩ hrun
    rw [this.1]
    simp

/-- C7. In every run of `Bridge`, over any sub-streams, whether or not they
and `chanStream` get closed and whenever `done` is closed: a `Bridge` that has
returned (and so closed its output) has seen `chanStream` closed or `done`
closed; no step of the goroutine of `OrDone`, the one that finds the
sub-stream closed included, makes `Bridge` return; and when the range over
`OrDone` finds it closed, `Bridge` goes back to wait on `chanStream`. -/
theorem bridge_closes_only_after (streams : List (Upstream α)) (closes : Bool) (demand : Nat)
    (sched : List Act) (s : Sys α)
    (h : Sys.run (init streams closes demand) sched = some s) :
    (s.pc = PC.returned → s.chanClosed = true ∨ s.doneClosed = true) ∧
    (∀ b s', Sys.step (Act.orDone b) s = some s' → s'.pc ≠ PC.returned) ∧
    (∀ s', Sys.step Act.orDoneClosed s = some s' → s'.pc = PC.rangeChan) := by
  refine ⟨?_, ?_, ?_⟩
  · exact runWith_preserves Sys.step (fun _ => True)
      (fun t => t.pc = PC.returned → t.chanClosed = true ∨ t.doneClosed = true)
      (fun a t t' _ ht hstep => Sys.step_closed_only_after a t t' ht hstep)
      sched _ s (fun _ _ => trivial) (by simp [init]) h
  · intro b s' hstep hret
    rcases Sys.step_returned _ s s' hstep hret with h1 | ⟨h2, _⟩ | ⟨h3, _⟩
    · simp [Sys.step, h1] at hstep
    · cases h2
    · cases h3
  · intro s' hstep
    obtain ⟨pc, dc, chanStream, chanCloses, chanClosed, out, demand⟩ := s
    cases pc <;> simp only [Sys.step] at hstep <;> (try split at hstep) <;> simp_all
    all_goals (subst hstep; rfl)

/-- C7 on a run in which the sub-stream `[1]` is delivered and closed while
`chanStream` and `done` stay open: `Bridge` is back at `range chanStream`. -/
theorem bridge_closes_only_after_witness :
    Sys.run (init [finite [1]] false 1)
      [Act.recvStream, Act.checkDone, Act.orDone OrDone.Branch.recv,
       Act.orDone OrDone.Branch.send, Act.selSend, Act.orDone OrDone.Branch.recv,
       Act.orDoneClosed] = some betweenStreams ∧
    betweenStreams.pc = PC.rangeChan ∧
    ((betweenStreams.pc = PC.returned →
        betweenStreams.chanClosed = true ∨ betweenStreams.doneClosed = true) ∧
    (∀ b s', Sys.step (Act.orDone b) betweenStreams = some s' → s'.pc ≠ PC.returned) ∧
    (∀ s', Sys.step Act.orDoneClosed betweenStreams = some s' → s'.pc = PC.rangeChan)) :=
  ⟨by decide, rfl,
   bridge_closes_only_after [finite [1]] false 1
     [Act.recvStream, Act.checkDone, Act.orDone OrDone.Branch.recv,
      Act.orDone OrDone.Branch.send, Act.selSend, Act.orDone OrDone.Branch.recv,
      Act.orDoneClosed] betweenStreams (by decide)⟩

end GoConc.Bridge

namespace GoConc.OrChan

theorem Or_nil (next : Nat) : Or next [] = { ret := none, nodes := [], next := next } := by
  simp [Or]

theorem Or_one (next : Nat) (c : Chan) : Or next [c] = { ret := c, nodes := [], next := next } := by
  simp [Or]

theorem Or_two (next : Nat) (c0 c1 : Chan) :
    Or next [c0, c1] =
      { ret := some next, nodes := [{ orDone := next, waits := [c0, c1] }], next := next + 1 } := by
  simp [Or]

theorem Or_more (next : Nat) (c0 c1 c2 : Chan) (more : List Chan) :
    Or next (c0 :: c1 :: c2 :: more) =
      { ret := some next,
        nodes := { orDone := next, waits := [c0, c1, c2, (Or (next + 1) (more ++ [some next])).ret] } ::
          (Or (next + 1) (more ++ [some next])).nodes,
        next := (Or (next + 1) (more ++ [some next])).next } := by
  rw [Or]

/-- The shape of what `Or` builds: the channels it makes are numbered from
`next` on, each goroutine closes its own, each goroutine waits on inputs and on
channels of the tree, and the channel returned is an input or a channel of the
tree (or nil, for no input at all). -/
theorem Or_shape (next : Nat) (channels : List Chan) :
    next ≤ (Or next channels).next ∧
    (∀ n ∈ (Or next channels).nodes, next ≤ n.orDone ∧ n.orDone < (Or next channels).next) ∧
    ((Or next channels).nodes.map Node.orDone).Nodup ∧
    (∀ n ∈ (Or next channels).nodes, ∀ w ∈ n.waits,
      w ∈ channels ∨ ∃ m ∈ (Or next channels).nodes, w = some m.orDone) ∧
    ((Or next channels).ret ∈ channels ∨
      (∃ m ∈ (Or next channels).nodes, (Or next channels).ret = some m.orDone) ∨
      ((Or next channels).ret = none ∧ channels = [])) := by
  induction next, channels using Or.induct with
  | case1 next => simp [Or_nil]
  | case2 next c => simp [Or_one]
  | case3 next c0 c1 => simp [Or_two]
  | case4 next c0 c1 c2 more ih =>
    obtain ⟨ih1, ih2, ih3, ih4, ih5⟩ := ih
    rw [Or_more]
    generalize Or (next + 1) (more ++ [some next]) = sub at ih1 ih2 ih3 ih4 ih5
    refine ⟨by simp only; omega, ?_, ?_, ?_, ?_⟩
    · intro n hn
      simp only [List.mem_cons] at hn
      rcases hn with rfl | hn
      · simp only
        omega
      · have := ih2 n hn
        simp only
        omega
    · simp only [List.map_cons, List.nodup_cons, List.mem_map, not_exists, not_and]
      refine ⟨?_, ih3⟩
      intro m hm he
      have := ih2 m hm
      omega
    · intro n hn w hw
      simp only [List.mem_cons] at hn
      have hsub : ∀ w, w ∈ more ++ [some next] →
          w ∈ c0 :: c1 :: c2 :: more ∨
            ∃ m ∈ ({ orDone := next, waits := [c0, c1, c2, sub.ret] } :: sub.nodes : List Node),
              w = some m.orDone := by
        intro w hw
        simp only [List.mem_append, List.mem_singleton] at hw
        rcases hw with hw | rfl
        · exact Or.inl (by simp [hw])
        · exact Or.inr ⟨_, List.mem_cons_self _ _, rfl⟩
      have hnode : ∀ w, (∃ m ∈ sub.nodes, w = some m.orDone) →
          w ∈ c0 :: c1 :: c2 :: more ∨
            ∃ m ∈ ({ orDone := next, waits := [c0, c1, c2, sub.ret] } :: sub.nodes : List Node),
              w = some m.orDone := by
        rintro w ⟨m, hm, rfl⟩
        exact Or.inr ⟨m, List.mem_cons_of_mem _ hm, rfl⟩
      rcases hn with rfl | hn
      · simp only [List.mem_cons, List.mem_singleton, List.not_mem_nil, or_false] at hw
        rcases hw with rfl | rfl | rfl | rfl
        · exact Or.inl (by simp)
        · exact Or.inl (by simp)
        · exact Or.inl (by simp)
        · rcases ih5 with h | h | ⟨_, h⟩
          · exact hsub _ h
          · exact hnode _ h
          · simp at h
      · rcases ih4 n hn w hw with h | h
        · exact hsub _ h
        · exact hnode _ h
    · exact Or.inr (Or.inl ⟨_, List.mem_cons_self _ _, rfl⟩)

/-- The goroutines of `Or` over channels made before the call form a wait
tree. -/
theorem Or_waitTree (next : Nat) (channels : List Chan)
    (hfresh : ∀ i, some i ∈ channels → i < next) :
    WaitTree channels (Or next channels).nodes := by
  obtain ⟨_, h2, h3, h4, _⟩ := Or_shape next channels
  refine ⟨h3, ?_, h4⟩
  intro n hn hmem
  have := hfresh _ hmem
  have := h2 n hn
  omega

end GoConc.OrChan

namespace GoConc.OrChan

/-- In a list without repetition a value stands at one position only. -/
theorem index_unique {l : List Nat} (hl : l.Nodup) {i j a : Nat}
    (hi : l[i]? = some a) (hj : l[j]? = some a) : i = j := by
  obtain ⟨hi1, hi2⟩ := List.getElem?_eq_some.mp hi
  obtain ⟨hj1, hj2⟩ := List.getElem?_eq_some.mp hj
  exact (hl.getElem_inj_iff).mp (hi2.trans hj2.symm)

/-- A ready receive is a receive from a closed channel. -/
theorem ready_iff (closed : List Nat) (c : Chan) :
    ready closed c = true ↔ ∃ i, c = some i ∧ i ∈ closed := by
  cases c with
  | none => simp [ready]
  | some i => simp [ready]

/-- Every step on a wait tree keeps the invariant. -/
theorem or_step_inv (inputs : List Chan) (nodes : List Node) (hw : WaitTree inputs nodes)
    (a : Act) (s s' : State) (hinv : Inv inputs nodes s)
    (h : step inputs nodes a s = some s') : Inv inputs nodes s' := by
  obtain ⟨hnd, hfresh, hwaits⟩ := hw
  obtain ⟨hi, hc⟩ := hinv
  cases a with
  | closeInput i =>
    simp only [step] at h
    split at h
    · rename_i hcond
      simp only [Bool.and_eq_true, decide_eq_true_eq, Bool.not_eq_true', decide_eq_false_iff_not]
        at hcond
      simp only [Option.some.injEq] at h
      subst h
      refine ⟨?_, ?_⟩
      · intro n hn hmem
        simp only [List.mem_append, List.mem_singleton] at hmem
        rcases hmem with hmem | hmem
        · obtain ⟨j, hj1, hj2⟩ := hi n hn hmem
          exact ⟨j, hj1, by simp [hj2]⟩
        · exact ⟨i, hcond.1, by simp⟩
      · intro k n hk
        have hn : n ∈ nodes := List.getElem?_mem hk
        have hne : i ≠ n.orDone := by
          intro he
          exact hfresh n hn (he ▸ hcond.1)
        simp only [List.count_append, List.count_singleton, beq_iff_eq, hne, if_false,
          Nat.add_zero]
        exact hc k n hk
    · simp at h
  | fire k =>
    simp only [step] at h
    cases hk : nodes[k]? with
    | none => simp [hk] at h
    | some nk =>
      simp only [hk] at h
      split at h
      · rename_i hcond
        simp only [Bool.and_eq_true, Bool.not_eq_true', decide_eq_false_iff_not,
          List.any_eq_true] at hcond
        obtain ⟨hnot, w, hw1, hw2⟩ := hcond
        obtain ⟨j, rfl, hj⟩ := (ready_iff _ _).mp hw2
        simp only [Option.some.injEq] at h
        subst h
        have hnk : nk ∈ nodes := List.getElem?_mem hk
        have hsome : ∃ i, some i ∈ inputs ∧ i ∈ s.closed := by
          rcases hwaits nk hnk _ hw1 with hin | ⟨m, hm, he⟩
          · exact ⟨j, hin, hj⟩
          · simp only [Option.some.injEq] at he
            subst he
            exact hi m hm hj
        refine ⟨?_, ?_⟩
        · intro n hn hmem
          obtain ⟨i, hi1, hi2⟩ := hsome
          exact ⟨i, hi1, by simp [hi2]⟩
        · intro k' n' hk'
          simp only [List.count_append, List.count_singleton, beq_iff_eq, List.mem_append,
            List.mem_singleton]
          by_cases hkk : k' = k
          · subst hkk
            rw [hk] at hk'
            simp only [Option.some.injEq] at hk'
            subst hk'
            have := hc k' nk hk
            simp only [hnot, if_false] at this
            simp [this]
          · have hne : nk.orDone ≠ n'.orDone := by
              intro he
              apply hkk
              have h1 : (nodes.map Node.orDone)[k']? = some n'.orDone := by simp [hk']
              have h2 : (nodes.map Node.orDone)[k]? = some n'.orDone := by simp [hk, he]
              exact index_unique hnd h1 h2
            have := hc k' n' hk'
            simp only [hne, if_false, Nat.add_zero, hkk, or_false]
            exact this
      · simp at h

end GoConc.OrChan

namespace GoConc.OrChan

/-- The invariant holds after every schedule over a wait tree. -/
theorem or_run_inv (inputs : List Chan) (nodes : List Node) (hw : WaitTree inputs nodes)
    (sched : List Act) (s : State)
    (h : runWith (step inputs nodes) { closed := [], exited := [] } sched = some s) :
    Inv inputs nodes s := by
  refine runWith_preserves (step inputs nodes) (fun _ => True) (Inv inputs nodes)
    (fun a t t' _ ht hstep => or_step_inv inputs nodes hw a t t' ht hstep)
    sched _ s (fun _ _ => trivial) ?_ h
  exact ⟨fun n _ hmem => by simp at hmem, fun k n _ => by simp⟩

/-- C1. For any number of input channels (none included), made before the
call of `Or`, and any schedule of closings of inputs and wake-ups of the
goroutines of `Or`: the channel returned by `Or` is closed only when an input
channel is closed; every channel made by `Or` has been closed at most once;
and it is closed exactly when the goroutine that made it has returned. -/
theorem or_closed_only_after_input (next : Nat) (channels : List Chan)
    (hfresh : ∀ i, some i ∈ channels → i < next) (sched : List Act) (s : State)
    (h : run next channels sched = some s) :
    (∀ r, (Or next channels).ret = some r → r ∈ s.closed →
      ∃ i, some i ∈ channels ∧ i ∈ s.closed) ∧
    (∀ n ∈ (Or next channels).nodes, s.closed.count n.orDone ≤ 1) ∧
    (∀ k n, (Or next channels).nodes[k]? = some n → (n.orDone ∈ s.closed ↔ k ∈ s.exited)) := by
  obtain ⟨hi, hc⟩ := or_run_inv channels _ (Or_waitTree next channels hfresh) sched s h
  refine ⟨?_, ?_, ?_⟩
  · intro r hr hmem
    obtain ⟨_, _, _, _, h5⟩ := Or_shape next channels
    rcases h5 with h5 | ⟨m, hm, h5⟩ | ⟨h5, _⟩
    · rw [hr] at h5
      exact ⟨r, h5, hmem⟩
    · rw [hr] at h5
      simp only [Option.some.injEq] at h5
      subst h5
      exact hi m hm hmem
    · rw [hr] at h5
      cases h5
  · intro n hn
    obtain ⟨k, hk⟩ := List.mem_iff_getElem?.mp hn
    rw [hc k n hk]
    split <;> omega
  · intro k n hk
    have := hc k n hk
    constructor
    · intro hmem
      by_contra hne
      simp only [hne, if_false] at this
      exact (List.count_pos_iff.mpr hmem).ne' this
    · intro hex
      simp only [hex, if_true] at this
      exact List.count_pos_iff.mp (by omega)

/-- The channels of `TestOrChannel` are made before the call of `Or`. -/
theorem testChannels_made : ∀ i, some i ∈ testChannels → i < 5 := by
  intro i hi
  simp [testChannels] at hi
  omega

/-- C1 on `TestOrChannel`: the third of five channels is closed, then the
outer and the inner goroutine wake up. -/
theorem or_closed_only_after_input_witness :
    (∀ i, some i ∈ testChannels → i < 5) ∧
    run 5 testChannels [Act.closeInput 2, Act.fire 0, Act.fire 1] =
      some { closed := [2, 5, 6], exited := [0, 1] } ∧
    ((∀ r, (Or 5 testChannels).ret = some r → r ∈ [2, 5, 6] →
      ∃ i, some i ∈ testChannels ∧ i ∈ [2, 5, 6]) ∧
    (∀ n ∈ (Or 5 testChannels).nodes, [2, 5, 6].count n.orDone ≤ 1) ∧
    (∀ k n, (Or 5 testChannels).nodes[k]? = some n → (n.orDone ∈ [2, 5, 6] ↔ k ∈ [0, 1]))) :=
  ⟨testChannels_made,
   by simp [run, runWith, step, Or, testChannels, ready],
   or_closed_only_after_input 5 testChannels testChannels_made [Act.closeInput 2, Act.fire 0, Act.fire 1]
     { closed := [2, 5, 6], exited := [0, 1] }
     (by simp [run, runWith, step, Or, testChannels, ready])⟩

end GoConc.OrChan

namespace GoConc.Steward

open OrChan (Chan Built Or ready)

/-- Closing a channel that is no `wardDone` leaves the open wards as they
are. -/
theorem filter_close_other (W closed : List Nat) (x : Nat) (hx : x ∉ W) :
    W.filter (fun w => !decide (w ∈ closed ++ [x])) =
      W.filter (fun w => !decide (w ∈ closed)) := by
  apply List.filter_congr
  intro w hw
  have : w ≠ x := fun he => hx (he ▸ hw)
  simp [this]

/-- Closing a channel removes it from the open wards. -/
theorem filter_close (W closed : List Nat) (x : Nat) :
    W.filter (fun w => !decide (w ∈ closed ++ [x])) =
      (W.filter (fun w => !decide (w ∈ closed))).filter (fun w => !decide (w = x)) := by
  rw [List.filter_filter]
  apply List.filter_congr
  intro w _
  by_cases h1 : w ∈ closed <;> by_cases h2 : w = x <;> simp [h1, h2]

/-- A state that differs from one satisfying the invariant in the clock, the
pulses or the ward's heartbeat only satisfies it too. -/
theorem State.Inv.same {cfg : Config} {s s' : State} (hinv : s.Inv cfg)
    (e1 : s'.next = s.next) (e2 : s'.gens = s.gens) (e3 : s'.wardDone = s.wardDone)
    (e4 : s'.closed = s.closed) (e5 : s'.pc.watching = s.pc.watching) : s'.Inv cfg := by
  obtain ⟨h1, h2, h3, h4, h5, h6, h7⟩ := hinv
  refine ⟨by rw [e1]; exact h1, h2, by rw [e1, e4]; exact h3, by rw [e1, e2]; exact h4, ?_,
    by rw [e2, e4]; exact h6, by rw [e2]; exact h7⟩
  simp only [State.openWards, e2, e3, e4, e5] at h5 ⊢
  exact h5

/-- Closing a channel made before any `wardDone` keeps the invariant. -/
theorem State.Inv.close_other {cfg : Config} {s s' : State} (hinv : s.Inv cfg) (x : Nat)
    (hx : x ≤ cfg.heartbeat)
    (e1 : s'.next = s.next) (e2 : s'.gens = s.gens) (e3 : s'.wardDone = s.wardDone)
    (e4 : s'.closed = s.closed ++ [x]) (e5 : s'.pc.watching = s.pc.watching) :
    s'.Inv cfg := by
  obtain ⟨h1, h2, h3, h4, h5, h6, h7⟩ := hinv
  have hnot : x ∉ s.gens.map Gen.wardDone := by
    intro hmem
    obtain ⟨g, hg, rfl⟩ := List.mem_map.mp hmem
    have := (h4 g hg).1
    omega
  refine ⟨by rw [e1]; exact h1, h2, ?_, by rw [e1, e2]; exact h4, ?_, ?_, by rw [e2]; exact h7⟩
  · rw [e1, e4]
    intro y hy
    simp only [List.mem_append, List.mem_singleton] at hy
    rcases hy with hy | rfl
    · exact h3 y hy
    · omega
  · simp only [State.openWards, e2, e3, e4, e5] at h5 ⊢
    rw [filter_close_other _ _ _ hnot]
    exact h5
  · rw [e2, e4]
    intro g hg
    have hne : x ≠ g.wardDone := by
      have := (h4 g hg).1
      omega
    simp only [List.count_append, List.count_singleton, beq_iff_eq, hne, if_false, Nat.add_zero]
    exact h6 g hg

end GoConc.Steward

namespace GoConc.Steward

open OrChan (Chan Built Or ready)

/-- What `startWard()` followed by the head of `monitorLoop` changes. -/
theorem monitorLoop_startWard (cfg : Config) (hb : Heartbeat) (s : State) :
    (monitorLoop cfg (startWard cfg hb s)).pc = PC.monitoring ∧
    (monitorLoop cfg (startWard cfg hb s)).next = s.next + 2 ∧
    (monitorLoop cfg (startWard cfg hb s)).wardDone = some s.next ∧
    (monitorLoop cfg (startWard cfg hb s)).closed = s.closed ∧
    (monitorLoop cfg (startWard cfg hb s)).gens =
      s.gens ++ [{ wardDone := s.next, token := Or (s.next + 1) [some s.next, cfg.done],
                   pulseInterval := cfg.timeout.tdiv 2 }] := by
  simp [monitorLoop, startWard, OrChan.Or_two]

/-- Starting a ward when none is watched keeps the invariant. -/
theorem State.Inv.startWard {cfg : Config} {s : State} (hinv : s.Inv cfg) (hb : Heartbeat)
    (hpc : s.pc.watching = false) : (monitorLoop cfg (startWard cfg hb s)).Inv cfg := by
  obtain ⟨h1, h2, h3, h4, h5, h6, h7⟩ := hinv
  obtain ⟨e0, e1, e2, e3, e4⟩ := monitorLoop_startWard cfg hb s
  have hnew : s.next ∉ s.closed := fun hmem => Nat.lt_irrefl _ (h3 _ hmem)
  refine ⟨by rw [e1]; omega, h2, ?_, ?_, ?_, ?_, ?_⟩
  · rw [e1, e3]
    intro x hx
    have := h3 x hx
    omega
  · rw [e1, e4]
    intro g hg
    simp only [List.mem_append, List.mem_singleton] at hg
    rcases hg with hg | rfl
    · have := h4 g hg
      omega
    · simp only
      omega
  · simp only [State.openWards, hpc, Bool.false_eq_true, if_false] at h5
    simp only [State.openWards, e0, e2, e3, e4, PC.watching, if_true, List.map_append,
      List.filter_append, h5, List.map_cons, List.map_nil, List.nil_append, Option.toList]
    simp [hnew]
  · rw [e3, e4]
    intro g hg
    simp only [List.mem_append, List.mem_singleton] at hg
    rcases hg with hg | rfl
    · exact h6 g hg
    · simp only
      rw [List.count_eq_zero.mpr hnew]
      omega
  · rw [e4]
    intro g hg
    simp only [List.mem_append, List.mem_singleton] at hg
    rcases hg with hg | rfl
    · exact h7 g hg
    · exact ⟨rfl, rfl⟩

/-- The `timeoutSignal` branch, which closes the watched `wardDone`, keeps the
invariant. -/
theorem State.Inv.timeout {cfg : Config} {s s' : State} (hinv : s.Inv cfg) (w : Nat)
    (hw : s.wardDone = some w) (hpc : s.pc.watching = true)
    (e0 : s'.pc = PC.restarting) (e1 : s'.next = s.next) (e2 : s'.gens = s.gens)
    (e4 : s'.closed = s.closed ++ [w]) : s'.Inv cfg := by
  obtain ⟨h1, h2, h3, h4, h5, h6, h7⟩ := hinv
  simp only [State.openWards, hpc, if_true, hw, Option.toList] at h5
  have hmem : w ∈ (s.gens.map Gen.wardDone).filter (fun w => !decide (w ∈ s.closed)) := by
    rw [h5]
    simp
  obtain ⟨hW, hopen⟩ := List.mem_filter.mp hmem
  have hnot : w ∉ s.closed := by simpa using hopen
  obtain ⟨g0, hg0, hg0w⟩ := List.mem_map.mp hW
  refine ⟨by rw [e1]; exact h1, h2, ?_, by rw [e1, e2]; exact h4, ?_, ?_, by rw [e2]; exact h7⟩
  · rw [e1, e4]
    intro y hy
    simp only [List.mem_append, List.mem_singleton] at hy
    rcases hy with hy | rfl
    · exact h3 y hy
    · rw [← hg0w]
      exact (h4 g0 hg0).2
  · simp only [State.openWards, e0, e2, e4, PC.watching, Bool.false_eq_true, if_false]
    rw [filter_close, h5]
    simp
  · rw [e2, e4]
    intro g hg
    simp only [List.count_append, List.count_singleton, beq_iff_eq]
    by_cases he : w = g.wardDone
    · subst he
      rw [List.count_eq_zero.mpr hnot]
      simp
    · simp only [he, if_false, Nat.add_zero]
      exact h6 g hg

/-- Every step of the steward keeps the invariant. -/
theorem steward_step_inv (cfg : Config) (a : Act) (s s' : State) (hinv : s.Inv cfg)
    (h : step cfg a s = some s') : s'.Inv cfg := by
  cases a with
  | startWard hb =>
    cases hpc : s.pc <;> simp only [step, hpc] at h
    · simp only [Option.some.injEq] at h
      subst h
      exact hinv.startWard hb (by simp [hpc, PC.watching])
    · simp at h
    · simp only [Option.some.injEq] at h
      subst h
      exact hinv.startWard hb (by simp [hpc, PC.watching])
    · simp at h
  | pulse received =>
    cases hpc : s.pc <;> simp only [step, hpc] at h <;> try (simp at h; done)
    split at h
    · simp only [Option.some.injEq] at h
      subst h
      exact hinv.same rfl rfl rfl rfl (by simp [hpc, PC.watching])
    · simp at h
  | wardHeartbeat =>
    cases hpc : s.pc <;> simp only [step, hpc] at h <;> try (simp at h; done)
    split at h
    · simp at h
    · simp only [Option.some.injEq] at h
      subst h
      exact hinv.same rfl rfl rfl rfl (by simp [monitorLoop, hpc, PC.watching])
  | timeout =>
    cases hpc : s.pc <;> simp only [step, hpc] at h <;> try (simp at h; done)
    split at h
    · cases hw : s.wardDone with
      | none => simp [hw] at h
      | some w =>
        simp only [hw, Option.some.injEq] at h
        subst h
        exact hinv.timeout w hw (by simp [hpc, PC.watching]) rfl rfl rfl rfl
    · simp at h
  | done =>
    cases hpc : s.pc <;> simp only [step, hpc] at h <;> try (simp at h; done)
    split at h
    · simp only [Option.some.injEq] at h
      subst h
      exact hinv.close_other cfg.heartbeat (le_refl _) rfl rfl rfl rfl (by simp [hpc, PC.watching])
    · simp at h
  | closeDone =>
    simp only [step] at h
    cases hd : cfg.done with
    | none => simp [hd] at h
    | some d =>
      simp only [hd] at h
      split at h
      · simp at h
      · simp only [Option.some.injEq] at h
        subst h
        exact hinv.close_other d (Nat.le_of_lt (hinv.2.1 d hd)) rfl rfl rfl rfl rfl
  | wardCloses =>
    simp only [step] at h
    split at h
    · simp only [Option.some.injEq] at h
      subst h
      exact hinv.same rfl rfl rfl rfl rfl
    · simp at h
  | tick d =>
    simp only [step, Option.some.injEq] at h
    subst h
    exact hinv.same rfl rfl rfl rfl rfl

end GoConc.Steward

namespace GoConc.Steward

open OrChan (Chan Built Or ready)

/-- Every step keeps `wardDone` the channel of the generation started last. -/
theorem steward_step_current (cfg : Config) (a : Act) (s s' : State) (hinv : s.Current)
    (h : step cfg a s = some s') : s'.Current := by
  cases a with
  | startWard hb =>
    have key : (monitorLoop cfg (startWard cfg hb s)).Current := by
      intro _
      obtain ⟨_, _, e2, _, e4⟩ := monitorLoop_startWard cfg hb s
      exact ⟨{ wardDone := s.next, token := Or (s.next + 1) [some s.next, cfg.done],
               pulseInterval := cfg.timeout.tdiv 2 }, by rw [e4]; simp, by rw [e2]⟩
    cases hpc : s.pc <;> simp only [step, hpc] at h <;> try (simp at h; done)
    all_goals
      simp only [Option.some.injEq] at h
      subst h
      exact key
  | pulse received =>
    cases hpc : s.pc <;> simp only [step, hpc] at h <;> try (simp at h; done)
    split at h
    · simp only [Option.some.injEq] at h
      subst h
      intro _
      exact hinv (by simp [hpc])
    · simp at h
  | wardHeartbeat =>
    cases hpc : s.pc <;> simp only [step, hpc] at h <;> try (simp at h; done)
    split at h
    · simp at h
    · simp only [Option.some.injEq] at h
      subst h
      intro _
      exact hinv (by simp [hpc])
  | timeout =>
    cases hpc : s.pc <;> simp only [step, hpc] at h <;> try (simp at h; done)
    split at h
    · cases hw : s.wardDone with
      | none => simp [hw] at h
      | some w =>
        simp only [hw, Option.some.injEq] at h
        subst h
        intro _
        have := hinv (by simp [hpc])
        rw [hw] at this
        exact this
    · simp at h
  | done =>
    cases hpc : s.pc <;> simp only [step, hpc] at h <;> try (simp at h; done)
    split at h
    · simp only [Option.some.injEq] at h
      subst h
      intro _
      exact hinv (by simp [hpc])
    · simp at h
  | closeDone =>
    simp only [step] at h
    cases hd : cfg.done with
    | none => simp [hd] at h
    | some d =>
      simp only [hd] at h
      split at h
      · simp at h
      · simp only [Option.some.injEq] at h
        subst h
        exact hinv
  | wardCloses =>
    simp only [step] at h
    split at h
    · simp only [Option.some.injEq] at h
      subst h
      exact hinv
    · simp at h
  | tick d =>
    simp only [step, Option.some.injEq] at h
    subst h
    exact hinv

/-- The invariants hold when the steward's goroutine starts. -/
theorem steward_init_inv (timeout pulseInterval : Int) (done : Chan) (next : Nat)
    (hdone : ∀ d, done = some d → d < next) :
    (init next).Inv (config timeout pulseInterval done next) ∧ (init next).Current := by
  refine ⟨⟨by simp [init, config], by simpa [config] using hdone, by simp [init],
    by simp [init], by simp [init, State.openWards, PC.watching], by simp [init],
    by simp [init]⟩, ?_⟩
  intro hpc
  simp [init] at hpc

/-- The invariants hold in every state the steward reaches. -/
theorem steward_run_inv (timeout pulseInterval : Int) (done : Chan) (next : Nat)
    (hdone : ∀ d, done = some d → d < next) (sched : List Act) (s : State)
    (h : run timeout pulseInterval done next sched = some s) :
    s.Inv (config timeout pulseInterval done next) ∧ s.Current := by
  refine runWith_preserves (step (config timeout pulseInterval done next)) (fun _ => True)
    (fun t => t.Inv (config timeout pulseInterval done next) ∧ t.Current)
    (fun a t t' _ ht hstep =>
      ⟨steward_step_inv _ a t t' ht.1 hstep, steward_step_current _ a t t' ht.2 hstep⟩)
    sched _ s (fun _ _ => trivial) (steward_init_inv timeout pulseInterval done next hdone) h

end GoConc.Steward

namespace GoConc.Steward

open OrChan (Chan Built Or ready)

/-- The call `startWard()` runs only where the steward is not watching a ward. -/
theorem startWard_enabled (cfg : Config) (hb : Heartbeat) (s s' : State)
    (h : step cfg (Act.startWard hb) s = some s') :
    s.pc.watching = false ∧ s' = monitorLoop cfg (startWard cfg hb s) := by
  cases hpc : s.pc <;> simp only [step, hpc] at h <;> try (simp at h; done)
  all_goals
    simp only [Option.some.injEq] at h
    exact ⟨rfl, h.symm⟩

/-- C8. In every state the steward reaches, whatever the timeout, the ward's
heartbeats and the moment `done` is closed: at most one generation has its
`wardDone` open; whenever `startWard()` runs, the `wardDone` of every
generation started before is already closed, and afterwards the only open
`wardDone` is the new one; and no `wardDone` has been closed twice. -/
theorem steward_one_open_wardDone (timeout pulseInterval : Int) (done : Chan) (next : Nat)
    (hdone : ∀ d, done = some d → d < next) (sched : List Act) (s : State)
    (h : run timeout pulseInterval done next sched = some s) :
    s.openWards.length ≤ 1 ∧
    (∀ hb s', step (config timeout pulseInterval done next) (Act.startWard hb) s = some s' →
      (∀ g ∈ s.gens, g.wardDone ∈ s.closed) ∧ s'.openWards = [s.next] ∧
      s'.gens.length = s.gens.length + 1) ∧
    (∀ g ∈ s.gens, s.closed.count g.wardDone ≤ 1) := by
  obtain ⟨hinv, _⟩ := steward_run_inv timeout pulseInterval done next hdone sched s h
  have h5 := hinv.2.2.2.2.1
  refine ⟨?_, ?_, hinv.2.2.2.2.2.1⟩
  · rw [h5]
    split
    · cases s.wardDone <;> simp [Option.toList]
    · simp
  · intro hb s' hstep
    obtain ⟨hpc, hs'⟩ := startWard_enabled _ hb s s' hstep
    have hinv' := steward_step_inv _ _ s s' hinv hstep
    have h5' := hinv'.2.2.2.2.1
    obtain ⟨e0, _, e2, _, e4⟩ := monitorLoop_startWard (config timeout pulseInterval done next) hb s
    refine ⟨?_, ?_, ?_⟩
    · simp only [hpc, Bool.false_eq_true, if_false, State.openWards, List.filter_eq_nil_iff,
        List.mem_map, Bool.not_eq_true', decide_eq_false_iff_not, not_not,
        forall_exists_index, and_imp, forall_apply_eq_imp_iff₂] at h5
      exact h5
    · rw [h5', hs', e0, e2]
      rfl
    · rw [hs', e4]
      simp

/-- The schedule of `TestSteward` ends in `testFinal`. -/
theorem testSchedule_run :
    run 4000000000 4000000000 (some 0) 1 testSchedule = some testFinal := by
  simp [run, runWith, step, config, init, monitorLoop, startWard, ready, testSchedule,
    testFinal, OrChan.Or_two]
  decide

/-- In `TestSteward`, `done` is made before the steward is called. -/
theorem testDone_made : ∀ d, (some 0 : Chan) = some d → d < 1 := by
  intro d hd
  simp only [Option.some.injEq] at hd
  omega

/-- C8 on `TestSteward`: after one restart and the stop, the first
`wardDone` is closed once and the second is the only one open. -/
theorem steward_one_open_wardDone_witness :
    (∀ d, (some 0 : Chan) = some d → d < 1) ∧
    run 4000000000 4000000000 (some 0) 1 testSchedule = some testFinal ∧
    (testFinal.openWards.length ≤ 1 ∧
    (∀ hb s', step (config 4000000000 4000000000 (some 0) 1) (Act.startWard hb) testFinal =
        some s' →
      (∀ g ∈ testFinal.gens, g.wardDone ∈ testFinal.closed) ∧ s'.openWards = [testFinal.next] ∧
      s'.gens.length = testFinal.gens.length + 1) ∧
    (∀ g ∈ testFinal.gens, testFinal.closed.count g.wardDone ≤ 1)) :=
  ⟨testDone_made, testSchedule_run,
   steward_one_open_wardDone 4000000000 4000000000 (some 0) 1 testDone_made testSchedule
     testFinal testSchedule_run⟩

end GoConc.Steward

namespace GoConc.Steward

open OrChan (Chan Built Or ready)

/-- C9 fails on the code.  In `TestSteward` with a ward that hands back a
heartbeat channel and then closes it, the steward reaches `wardGone`; there the
branch `case <-wardHeartbeat:`, which makes no `ok` check, is taken on the
closed channel as for a pulse and leaves the steward monitoring the same
generation: `wardDone` (channel 2) is not closed, no generation is started, and
the timeout branch is not even ready. -/
theorem steward_closed_heartbeat_no_restart :
    run 4000000000 4000000000 (some 0) 1 [Act.startWard Heartbeat.live, Act.wardCloses] =
      some wardGone ∧
    wardGone.wardHeartbeat = Heartbeat.shut ∧
    step testConfig Act.wardHeartbeat wardGone = some wardGone ∧
    wardGone.pc = PC.monitoring ∧ wardGone.wardDone = some 2 ∧ 2 ∉ wardGone.closed ∧
    wardGone.gens.length = 1 ∧
    step testConfig Act.timeout wardGone = none := by
  refine ⟨?_, rfl, ?_, rfl, rfl, by simp [wardGone], rfl, ?_⟩
  · simp [run, runWith, step, config, init, monitorLoop, startWard, wardGone, OrChan.Or_two]
    decide
  · simp [step, wardGone, testConfig, config, monitorLoop]
  · simp [step, wardGone, testConfig, config]

/-- A closed heartbeat is read as a pulse.  While the steward monitors a
ward whose heartbeat channel is closed, the branch `case <-wardHeartbeat:` is
ready and does what it does for a pulse on an open channel: `continue
monitorLoop`, that is a new `timeoutSignal` a full timeout from now; `wardDone`
is not closed and no generation is started. -/
theorem steward_closed_heartbeat_is_pulse (cfg : Config) (s : State)
    (hpc : s.pc = PC.monitoring) (hhb : s.wardHeartbeat = Heartbeat.shut) :
    step cfg Act.wardHeartbeat s = some (monitorLoop cfg s) ∧
    step cfg Act.wardHeartbeat { s with wardHeartbeat := Heartbeat.live } =
      some (monitorLoop cfg { s with wardHeartbeat := Heartbeat.live }) ∧
    (monitorLoop cfg s).pc = PC.monitoring ∧
    (monitorLoop cfg s).timeoutSignal = s.now + cfg.timeout ∧
    (monitorLoop cfg s).closed = s.closed ∧ (monitorLoop cfg s).gens = s.gens ∧
    (monitorLoop cfg s).wardDone = s.wardDone := by
  refine ⟨?_, ?_, rfl, rfl, rfl, rfl, rfl⟩
  · simp [step, hpc, hhb]
  · simp [step, hpc]

/-- A closed heartbeat is read as a pulse in `TestSteward` with the ward's
heartbeat closed. -/
theorem steward_closed_heartbeat_is_pulse_witness :
    wardGone.pc = PC.monitoring ∧ wardGone.wardHeartbeat = Heartbeat.shut ∧
    (step testConfig Act.wardHeartbeat wardGone = some (monitorLoop testConfig wardGone) ∧
    step testConfig Act.wardHeartbeat { wardGone with wardHeartbeat := Heartbeat.live } =
      some (monitorLoop testConfig { wardGone with wardHeartbeat := Heartbeat.live }) ∧
    (monitorLoop testConfig wardGone).pc = PC.monitoring ∧
    (monitorLoop testConfig wardGone).timeoutSignal = wardGone.now + testConfig.timeout ∧
    (monitorLoop testConfig wardGone).closed = wardGone.closed ∧
    (monitorLoop testConfig wardGone).gens = wardGone.gens ∧
    (monitorLoop testConfig wardGone).wardDone = wardGone.wardDone) :=
  ⟨rfl, rfl, steward_closed_heartbeat_is_pulse testConfig wardGone rfl rfl⟩

/-- C10, as stated, fails.  In `TestSteward`, once `done` (channel 0) is
closed the branch `case <-done:` returns and the deferred call closes
`heartbeat` (channel 1); `wardDone` (channel 2) is not closed. -/
theorem steward_done_leaves_wardDone_open :
    run 4000000000 4000000000 (some 0) 1 [Act.startWard Heartbeat.absent, Act.closeDone] =
      some doneSeen ∧
    ∃ s', step testConfig Act.done doneSeen = some s' ∧ s'.pc = PC.stopped ∧
      s'.closed = [0, 1] ∧ s'.wardDone = some 2 ∧ 2 ∉ s'.closed := by
  refine ⟨?_, { doneSeen with pc := PC.stopped, closed := [0, 1] }, ?_, rfl, rfl, rfl, ?_⟩
  · simp [run, runWith, step, config, init, monitorLoop, startWard, doneSeen, OrChan.Or_two]
    decide
  · simp [step, doneSeen, testConfig, config, ready]
  · simp

/-- C10, amended.  When the steward takes the branch `case <-done:` (which
needs `done` closed), it stops and closes its own `heartbeat`, and nothing
else: `wardDone` of the current generation stays open.  That generation was
started with the channel of `Or(wardDone, done)`, whose goroutine waits on
`wardDone` and `done` and is ready to close that channel since `done` is
closed. -/
theorem steward_done_closes_heartbeat (timeout pulseInterval : Int) (done : Chan) (next : Nat)
    (hdone : ∀ d, done = some d → d < next) (sched : List Act) (s s' : State)
    (h : run timeout pulseInterval done next sched = some s)
    (hstep : step (config timeout pulseInterval done next) Act.done s = some s') :
    ready s.closed done = true ∧ s'.pc = PC.stopped ∧ s'.closed = s.closed ++ [next] ∧
    s'.gens = s.gens ∧
    ∃ g, s'.gens.getLast? = some g ∧ s'.wardDone = some g.wardDone ∧
      g.wardDone ∉ s'.closed ∧
      g.token = { ret := some (g.wardDone + 1),
                  nodes := [{ orDone := g.wardDone + 1, waits := [some g.wardDone, done] }],
                  next := g.wardDone + 2 } ∧
      (OrChan.step [some g.wardDone, done] g.token.nodes (OrChan.Act.fire 0)
        { closed := s'.closed, exited := [] }).isSome = true := by
  obtain ⟨hinv, hcur⟩ := steward_run_inv timeout pulseInterval done next hdone sched s h
  have hinv' := steward_step_inv _ _ s s' hinv hstep
  have hcur' := steward_step_current _ _ s s' hcur hstep
  have hfacts : ready s.closed done = true ∧ s'.pc = PC.stopped ∧
      s'.closed = s.closed ++ [next] ∧ s'.gens = s.gens := by
    cases hpc : s.pc <;> simp only [step, hpc] at hstep <;> try (simp at hstep; done)
    split at hstep
    · rename_i hready
      simp only [Option.some.injEq] at hstep
      subst hstep
      exact ⟨hready, rfl, rfl, rfl⟩
    · simp at hstep
  obtain ⟨hready, e0, e4, e2⟩ := hfacts
  refine ⟨hready, e0, e4, e2, ?_⟩
  obtain ⟨g, hlast, hward⟩ := hcur' (by rw [e0]; simp)
  have hg : g ∈ s'.gens := List.mem_of_getLast?_eq_some hlast
  have h5 := hinv'.2.2.2.2.1
  simp only [e0, PC.watching, if_true, hward, Option.toList] at h5
  have hopen : g.wardDone ∈ s'.openWards := by
    rw [h5]
    simp
  have hnot : g.wardDone ∉ s'.closed := by
    have := (List.mem_filter.mp hopen).2
    simpa using this
  have htok := (hinv'.2.2.2.2.2.2 g hg).1
  rw [OrChan.Or_two] at htok
  simp only [config] at htok
  refine ⟨g, hlast, hward, hnot, htok, ?_⟩
  have hready' : ready s'.closed done = true := by
    obtain ⟨d, hd, hmem⟩ := (OrChan.ready_iff _ _).mp hready
    exact (OrChan.ready_iff _ _).mpr ⟨d, hd, by rw [e4]; simp [hmem]⟩
  rw [htok]
  simp [OrChan.step, hready']

/-- The run of `TestSteward` up to the closing of `done`. -/
theorem doneSeen_run :
    run 4000000000 4000000000 (some 0) 1 [Act.startWard Heartbeat.absent, Act.closeDone] =
      some doneSeen := by
  simp [run, runWith, step, config, init, monitorLoop, startWard, doneSeen, OrChan.Or_two]
  decide

/-- The steward of `TestSteward` sees `done` closed. -/
theorem doneSeen_step :
    step (config 4000000000 4000000000 (some 0) 1) Act.done doneSeen =
      some { doneSeen with pc := PC.stopped, closed := [0, 1] } := by
  simp [step, doneSeen, config, ready]

/-- C10, amended, on `TestSteward` with `done` closed while the first ward is
watched. -/
theorem steward_done_closes_heartbeat_witness :
    (∀ d, (some 0 : Chan) = some d → d < 1) ∧
    run 4000000000 4000000000 (some 0) 1 [Act.startWard Heartbeat.absent, Act.closeDone] =
      some doneSeen ∧
    step (config 4000000000 4000000000 (some 0) 1) Act.done doneSeen =
      some { doneSeen with pc := PC.stopped, closed := [0, 1] } ∧
    (ready doneSeen.closed (some 0) = true ∧
    ({ doneSeen with pc := PC.stopped, closed := [0, 1] } : State).pc = PC.stopped ∧
    ({ doneSeen with pc := PC.stopped, closed := [0, 1] } : State).closed =
      doneSeen.closed ++ [1] ∧
    ({ doneSeen with pc := PC.stopped, closed := [0, 1] } : State).gens = doneSeen.gens ∧
    ∃ g, ({ doneSeen with pc := PC.stopped, closed := [0, 1] } : State).gens.getLast? = some g ∧
      ({ doneSeen with pc := PC.stopped, closed := [0, 1] } : State).wardDone =
        some g.wardDone ∧
      g.wardDone ∉ ({ doneSeen with pc := PC.stopped, closed := [0, 1] } : State).closed ∧
      g.token = { ret := some (g.wardDone + 1),
                  nodes := [{ orDone := g.wardDone + 1, waits := [some g.wardDone, some 0] }],
                  next := g.wardDone + 2 } ∧
      (OrChan.step [some g.wardDone, some 0] g.token.nodes (OrChan.Act.fire 0)
        { closed := ({ doneSeen with pc := PC.stopped, closed := [0, 1] } : State).closed,
          exited := [] }).isSome = true) :=
  ⟨testDone_made, doneSeen_run, doneSeen_step,
   steward_done_closes_heartbeat 4000000000 4000000000 (some 0) 1 testDone_made
     [Act.startWard Heartbeat.absent, Act.closeDone] doneSeen
     { doneSeen with pc := PC.stopped, closed := [0, 1] } doneSeen_run doneSeen_step⟩

end GoConc.Steward

namespace GoConc.Steward

open OrChan (Chan Built Or ready)

/-- A steward that has returned takes no step but those of its
surroundings. -/
theorem step_stopped (cfg : Config) (a : Act) (s s' : State) (hpc : s.pc = PC.stopped)
    (h : step cfg a s = some s') : s'.pc = PC.stopped ∧ s'.gens = s.gens := by
  cases a with
  | closeDone =>
    simp only [step] at h
    cases hd : cfg.done with
    | none => simp [hd] at h
    | some d =>
      simp only [hd] at h
      split at h
      · simp at h
      · simp only [Option.some.injEq] at h
        subst h
        exact ⟨hpc, rfl⟩
  | wardCloses =>
    simp only [step] at h
    split at h
    · simp only [Option.some.injEq] at h
      subst h
      exact ⟨hpc, rfl⟩
    · simp at h
  | tick d =>
    simp only [step, Option.some.injEq] at h
    subst h
    exact ⟨hpc, rfl⟩
  | _ => simp [step, hpc] at h

/-- C11, as stated, fails.  In `TestSteward` let `done` (channel 0) be
closed at the moment `timeoutSignal` fires.  Both branches of the `select` are
ready; when `timeoutSignal` is taken, `wardDone` is closed and `startWard()`
calls `startGoroutine` for a second generation although `done` is closed. -/
theorem steward_restart_after_done :
    run 4000000000 4000000000 (some 0) 1
      [Act.startWard Heartbeat.absent, Act.tick 4000000000, Act.closeDone] =
      some doneAndTimeout ∧
    ready doneAndTimeout.closed (some 0) = true ∧ doneAndTimeout.gens.length = 1 ∧
    (step testConfig Act.done doneAndTimeout).isSome = true ∧
    runWith (step testConfig) doneAndTimeout [Act.timeout, Act.startWard Heartbeat.absent] =
      some lateGeneration ∧
    lateGeneration.gens.length = 2 := by
  refine ⟨?_, by decide, rfl, ?_, ?_, rfl⟩
  · simp [run, runWith, step, config, init, monitorLoop, startWard, doneAndTimeout,
      OrChan.Or_two]
    decide
  · simp [step, testConfig, config, doneAndTimeout, ready]
  · simp [runWith, step, testConfig, config, monitorLoop, startWard, doneAndTimeout,
      lateGeneration, OrChan.Or_two]
    decide

/-- C11, amended.  Once the steward has taken the branch `case <-done:` and
stopped, no schedule makes it call `startGoroutine` again: the generations stay
as they are.  Before that, with `done` closed but not yet seen, a call of
`startWard()` starts a generation whose channel `Or(wardDone, done)` is ready
to be closed, since its goroutine waits on `done`. -/
theorem steward_no_start_after_stop (cfg : Config) (s : State) :
    (s.pc = PC.stopped → ∀ sched' s', runWith (step cfg) s sched' = some s' →
      s'.pc = PC.stopped ∧ s'.gens = s.gens ∧
      ∀ hb, step cfg (Act.startWard hb) s' = none) ∧
    (∀ hb s', ready s.closed cfg.done = true → step cfg (Act.startWard hb) s = some s' →
      ∃ g, s'.gens = s.gens ++ [g] ∧ g.token.ret = some (g.wardDone + 1) ∧
        (OrChan.step [some g.wardDone, cfg.done] g.token.nodes (OrChan.Act.fire 0)
          { closed := s'.closed, exited := [] }).isSome = true) := by
  constructor
  · intro hpc sched' s' hrun
    have := runWith_preserves (step cfg) (fun _ => True)
      (fun t => t.pc = PC.stopped ∧ t.gens = s.gens)
      (fun a t t' _ ht hstep => by
        obtain ⟨h1, h2⟩ := step_stopped _ a t t' ht.1 hstep
        exact ⟨h1, h2.trans ht.2⟩)
      sched' s s' (fun _ _ => trivial) ⟨hpc, rfl⟩ hrun
    refine ⟨this.1, this.2, ?_⟩
    intro hb
    simp [step, this.1]
  · intro hb s' hready hstep
    obtain ⟨_, hs'⟩ := startWard_enabled _ hb s s' hstep
    obtain ⟨_, _, _, e3, e4⟩ := monitorLoop_startWard cfg hb s
    refine ⟨_, by rw [hs', e4], ?_, ?_⟩
    · simp [OrChan.Or_two]
    · rw [hs', e3]
      simp [OrChan.Or_two, OrChan.step, hready]

/-- C11, amended, on `TestSteward`: from `testFinal`, in which the steward
has stopped, and from `doneAndTimeout`, in which `done` is closed and not yet
seen. -/
theorem steward_no_start_after_stop_witness :
    testFinal.pc = PC.stopped ∧ ready doneAndTimeout.closed testConfig.done = true ∧
    ((testFinal.pc = PC.stopped → ∀ sched' s',
      runWith (step testConfig) testFinal sched' = some s' →
      s'.pc = PC.stopped ∧ s'.gens = testFinal.gens ∧
      ∀ hb, step testConfig (Act.startWard hb) s' = none) ∧
    (∀ hb s', ready testFinal.closed testConfig.done = true →
      step testConfig (Act.startWard hb) testFinal = some s' →
      ∃ g, s'.gens = testFinal.gens ++ [g] ∧ g.token.ret = some (g.wardDone + 1) ∧
        (OrChan.step [some g.wardDone, testConfig.done] g.token.nodes (OrChan.Act.fire 0)
          { closed := s'.closed, exited := [] }).isSome = true)) :=
  ⟨rfl, by decide, steward_no_start_after_stop testConfig testFinal⟩

/-- C13. For every timeout that is not negative and every pulse interval
of the steward: each generation the steward has started was started with the
channel of `Or(wardDone, done)` over its own `wardDone`, and with the pulse
interval `timeout / 2` (truncating division), in which the steward's own
pulse interval does not occur; twice that interval is at most the timeout, and
every `timeoutSignal` is set a full timeout ahead. -/
theorem steward_ward_interval (timeout pulseInterval : Int) (done : Chan) (next : Nat)
    (ht : 0 ≤ timeout) (hdone : ∀ d, done = some d → d < next) (sched : List Act) (s : State)
    (h : run timeout pulseInterval done next sched = some s) :
    (∀ g ∈ s.gens, g.token = Or (g.wardDone + 1) [some g.wardDone, done] ∧
      g.token.ret = some (g.wardDone + 1) ∧
      g.pulseInterval = timeout.tdiv 2 ∧ 2 * g.pulseInterval ≤ timeout) ∧
    (monitorLoop (config timeout pulseInterval done next) s).timeoutSignal = s.now + timeout := by
  obtain ⟨hinv, _⟩ := steward_run_inv timeout pulseInterval done next hdone sched s h
  refine ⟨?_, rfl⟩
  intro g hg
  obtain ⟨h1, h2⟩ := hinv.2.2.2.2.2.2 g hg
  simp only [config] at h1 h2
  refine ⟨h1, by rw [h1]; simp [OrChan.Or_two], h2, ?_⟩
  rw [h2, Int.tdiv_eq_ediv ht (by decide)]
  omega

/-- C13 on `TestSteward`: both generations get 2 s, half of the 4 s timeout. -/
theorem steward_ward_interval_witness :
    (0 : Int) ≤ 4000000000 ∧ (∀ d, (some 0 : Chan) = some d → d < 1) ∧
    run 4000000000 4000000000 (some 0) 1 testSchedule = some testFinal ∧
    testFinal.gens.map Gen.pulseInterval = [2000000000, 2000000000] ∧
    ((∀ g ∈ testFinal.gens, g.token = Or (g.wardDone + 1) [some g.wardDone, some 0] ∧
      g.token.ret = some (g.wardDone + 1) ∧
      g.pulseInterval = (4000000000 : Int).tdiv 2 ∧ 2 * g.pulseInterval ≤ 4000000000) ∧
    (monitorLoop (config 4000000000 4000000000 (some 0) 1) testFinal).timeoutSignal =
      testFinal.now + 4000000000) :=
  ⟨by decide, testDone_made, testSchedule_run, rfl,
   steward_ward_interval 4000000000 4000000000 (some 0) 1 (by decide) testDone_made
     testSchedule testFinal testSchedule_run⟩

end GoConc.Steward

namespace GoConc.Steward

open OrChan (Chan Built Or ready)

/-- Closing another channel does not change whether `done` is closed. -/
theorem ready_close_other (closed : List Nat) (c : Chan) (x : Nat) (hx : c ≠ some x) :
    ready (closed ++ [x]) c = ready closed c := by
  cases c with
  | none => rfl
  | some i =>
    have : i ≠ x := fun he => hx (by rw [he])
    simp [ready, this]

/-- The watched `wardDone` is not the channel `done`. -/
theorem wardDone_ne_done (cfg : Config) (s : State) (hinv : s.Inv cfg) (hcur : s.Current)
    (hpc : s.pc ≠ PC.starting) (w : Nat) (hw : s.wardDone = some w) : cfg.done ≠ some w := by
  obtain ⟨g, hlast, hward⟩ := hcur hpc
  rw [hw] at hward
  simp only [Option.some.injEq] at hward
  have hg : g ∈ s.gens := List.mem_of_getLast?_eq_some hlast
  have h4 := (hinv.2.2.2.1 g hg).1
  intro hd
  have := hinv.2.1 w hd
  omega

/-- Every step of a run kept on schedule keeps the invariant `OnSchedule`,
when the instant `d` at which `done` is closed is no multiple of the timeout
`t`. -/
theorem step_onSchedule (cfg : Config) (t d : Nat) (hcfg : cfg.timeout = (t : Int))
    (hd : d % t ≠ 0) (a : Act) (s s' : State) (hinv : s.Inv cfg) (hcur : s.Current)
    (hon : s.OnSchedule cfg t d) (h : stepOnSchedule cfg d a s = some s') :
    s'.OnSchedule cfg t d := by
  have hmul : ∀ k : Nat, (k * t + t) % t = 0 := by
    intro k
    simp
  simp only [stepOnSchedule] at h
  split at h
  swap
  · simp at h
  rename_i hallowed
  cases a with
  | startWard hb =>
    obtain ⟨hpc, hs'⟩ := startWard_enabled cfg hb s s' h
    subst hs'
    obtain ⟨e0, _, _, e3, e4⟩ := monitorLoop_startWard cfg hb s
    have ets : (monitorLoop cfg (startWard cfg hb s)).timeoutSignal = s.now + t := by
      simp [monitorLoop, startWard, hcfg]
    have enow : (monitorLoop cfg (startWard cfg hb s)).now = s.now := rfl
    cases hpc' : s.pc with
    | starting =>
      simp only [State.OnSchedule, hpc'] at hon
      obtain ⟨h1, h2, h3⟩ := hon
      simp only [State.OnSchedule, e0]
      refine ⟨0, by rw [e4, h1]; simp, by rw [ets, h2]; simp, by rw [enow, h2]; simp,
        by rw [enow, ets]; omega, ?_⟩
      rw [e3, h3, enow, h2]
      simp
    | restarting =>
      simp only [State.OnSchedule, hpc'] at hon
      obtain ⟨k, h1, h2, h3, h4⟩ := hon
      simp only [State.OnSchedule, e0]
      have hk : (k + 1) * t = k * t + t := Nat.succ_mul k t
      refine ⟨k + 1, by rw [e4]; simp [h1], by rw [ets, h2, hk]; push_cast; ring,
        by rw [enow, h2, hk], by rw [enow, ets]; omega, ?_⟩
      rw [e3, h3, enow]
      simpa using h4
    | monitoring => simp [hpc', PC.watching] at hpc
    | stopped => simp [hpc', PC.watching] at hpc
  | pulse received =>
    cases hpc : s.pc <;> simp only [step, hpc] at h <;> try (simp at h; done)
    split at h
    · simp only [Option.some.injEq] at h
      subst h
      simp only [State.OnSchedule, hpc] at hon ⊢
      exact hon
    · simp at h
  | wardHeartbeat => simp [onSchedule] at hallowed
  | wardCloses => simp [onSchedule] at hallowed
  | timeout =>
    cases hpc : s.pc <;> simp only [step, hpc] at h <;> try (simp at h; done)
    split at h
    · rename_i hfire
      cases hw : s.wardDone with
      | none => simp [hw] at h
      | some w =>
        simp only [hw, Option.some.injEq] at h
        subst h
        simp only [State.OnSchedule, hpc] at hon
        obtain ⟨k, h1, h2, h3, h4, h5⟩ := hon
        have hnow : s.now = ((k * t + t : Nat) : Int) := by omega
        have hopen : ready s.closed cfg.done = false := by
          cases hr : ready s.closed cfg.done with
          | false => rfl
          | true =>
            simp only [hr, if_true] at h5
            have : d = k * t + t := by
              have := hnow.symm.trans h5
              exact_mod_cast this.symm
            exact absurd (this ▸ hmul k) hd
        simp only [hopen, Bool.false_eq_true, if_false] at h5
        simp only [State.OnSchedule]
        refine ⟨k, h1, hnow, ?_, h5⟩
        rw [ready_close_other _ _ _ (wardDone_ne_done cfg s hinv hcur (by simp [hpc]) w hw)]
        exact hopen
    · simp at h
  | done =>
    cases hpc : s.pc <;> simp only [step, hpc] at h <;> try (simp at h; done)
    split at h
    · rename_i hready
      simp only [Option.some.injEq] at h
      subst h
      simp only [State.OnSchedule, hpc] at hon
      obtain ⟨k, h1, h2, h3, h4, h5⟩ := hon
      simp only [hready, if_true] at h5
      simp only [State.OnSchedule]
      have hlo : k * t ≤ d := by
        have : ((k * t : Nat) : Int) ≤ (d : Int) := by omega
        exact_mod_cast this
      have hhi : d ≤ k * t + t := by
        have : (d : Int) ≤ ((k * t + t : Nat) : Int) := by omega
        exact_mod_cast this
      have hne : d ≠ k * t + t := fun he => hd (he ▸ hmul k)
      have hk : (k + 1) * t = k * t + t := Nat.succ_mul k t
      have := Nat.div_eq_of_lt_le hlo (by omega)
      omega
    · simp at h
  | closeDone =>
    simp only [onSchedule, decide_eq_true_eq] at hallowed
    simp only [step] at h
    cases hdn : cfg.done with
    | none => simp [hdn] at h
    | some d0 =>
      simp only [hdn] at h
      split at h
      · simp at h
      · simp only [Option.some.injEq] at h
        subst h
        have hready : ready (s.closed ++ [d0]) (some d0) = true := by simp [ready]
        cases hpc : s.pc with
        | starting =>
          simp only [State.OnSchedule, hpc] at hon
          have : d = 0 := by
            have := hon.2.1
            omega
          exact absurd (by simp [this]) hd
        | monitoring =>
          simp only [State.OnSchedule, hpc] at hon ⊢
          obtain ⟨k, h1, h2, h3, h4, _⟩ := hon
          exact ⟨k, h1, h2, h3, h4, by simp only [hdn, hready, if_true]; exact hallowed⟩
        | restarting =>
          simp only [State.OnSchedule, hpc] at hon
          obtain ⟨k, _, h2, _, _⟩ := hon
          have : d = k * t + t := by
            have := hallowed.symm.trans h2
            exact_mod_cast this
          exact absurd (this ▸ hmul k) hd
        | stopped =>
          simp only [State.OnSchedule, hpc] at hon ⊢
          exact hon
  | tick n =>
    simp only [step, Option.some.injEq] at h
    subst h
    simp only [onSchedule, Bool.or_eq_true, decide_eq_true_eq, Bool.and_eq_true,
      Bool.not_eq_true'] at hallowed
    rcases hallowed with hpc | ⟨⟨⟨hpc, hopen⟩, hts⟩, hdl⟩
    · simp only [State.OnSchedule, hpc] at hon ⊢
      exact hon
    · simp only [State.OnSchedule, hpc] at hon ⊢
      obtain ⟨k, h1, h2, h3, h4, _⟩ := hon
      refine ⟨k, h1, h2, by omega, hts, ?_⟩
      simp only [hopen, Bool.false_eq_true, if_false]
      exact hdl

end GoConc.Steward

namespace GoConc.Steward

open OrChan (Chan Built Or ready)

/-- A step kept on schedule is a step. -/
theorem step_of_onSchedule (cfg : Config) (d : Nat) (a : Act) (s s' : State)
    (h : stepOnSchedule cfg d a s = some s') : step cfg a s = some s' := by
  simp only [stepOnSchedule] at h
  split at h
  · exact h
  · simp at h

/-- The invariants hold in every state of a run kept on schedule. -/
theorem run_onSchedule (t d : Nat) (pulseInterval : Int) (done : Chan) (next : Nat)
    (hd : d % t ≠ 0) (hdone : ∀ d0, done = some d0 → d0 < next) (sched : List Act) (s : State)
    (h : runOnSchedule t pulseInterval done next d sched = some s) :
    s.OnSchedule (config t pulseInterval done next) t d := by
  have := runWith_preserves (stepOnSchedule (config t pulseInterval done next) d)
    (fun _ => True)
    (fun u => (u.Inv (config t pulseInterval done next) ∧ u.Current) ∧
      u.OnSchedule (config t pulseInterval done next) t d)
    (fun a u u' _ hu hstep =>
      ⟨⟨steward_step_inv _ a u u' hu.1.1 (step_of_onSchedule _ d a u u' hstep),
        steward_step_current _ a u u' hu.1.2 (step_of_onSchedule _ d a u u' hstep)⟩,
       step_onSchedule _ t d rfl hd a u u' hu.1.1 hu.1.2 hu.2 hstep⟩)
    sched (init next) s (fun _ _ => trivial)
    ⟨steward_init_inv t pulseInterval done next hdone, by
      cases done <;> simp [State.OnSchedule, init, config, ready]⟩ h
  exact this.2

/-- One window of a silent ward, kept on schedule: the steward, watching with
`done` open and a full window to go before `done` is closed, lets the window
pass, takes `timeoutSignal`, and restarts the ward. -/
theorem window_run (cfg : Config) (t d d0 w : Nat) (s : State)
    (hcfg : cfg.timeout = (t : Int)) (hdn : cfg.done = some d0)
    (hpc : s.pc = PC.monitoring) (hts : s.timeoutSignal = s.now + t)
    (hopen : d0 ∉ s.closed) (hw : s.wardDone = some w) (hwd : d0 < w) (hnext : w < s.next)
    (hfit : s.now + t ≤ d) :
    ∃ s', runWith (stepOnSchedule cfg d) s (window t) = some s' ∧
      s'.pc = PC.monitoring ∧ s'.timeoutSignal = s'.now + t ∧ d0 ∉ s'.closed ∧
      s'.wardDone = some s.next ∧ s.next < s'.next ∧ s'.now = s.now + t ∧
      s'.gens.length = s.gens.length + 1 := by
  obtain ⟨pc, next, wardDone, wardHeartbeat, gens, closed, pulses, now, timeoutSignal⟩ := s
  simp only at hpc hts hopen hw hnext hfit
  subst hpc hts hw
  have hready : ready closed (some d0) = false := by simp [ready, hopen]
  have hne : d0 ≠ w := by omega
  refine ⟨monitorLoop cfg (startWard cfg Heartbeat.absent
      { pc := PC.restarting, next := next, wardDone := some w, wardHeartbeat := wardHeartbeat,
        gens := gens, closed := closed ++ [w], pulses := pulses, now := now + t,
        timeoutSignal := now + t }), ?_, ?_⟩
  · simp [window, runWith, stepOnSchedule, onSchedule, step, hdn, hready, hfit]
  · refine ⟨rfl, by simp [monitorLoop, startWard, hcfg], ?_, rfl, ?_, rfl, ?_⟩
    · simp [monitorLoop, startWard, hopen, hne]
    · simp only [monitorLoop, startWard, OrChan.Or_two]
      omega
    · simp [monitorLoop, startWard]

/-- As many windows of a silent ward as fit before `done` is closed. -/
theorem windows_run (cfg : Config) (t d d0 : Nat) (hcfg : cfg.timeout = (t : Int))
    (hdn : cfg.done = some d0) (j : Nat) :
    ∀ (s : State) (w : Nat), s.pc = PC.monitoring → s.timeoutSignal = s.now + t →
      d0 ∉ s.closed → s.wardDone = some w → d0 < w → w < s.next →
      s.now + ((j * t : Nat) : Int) ≤ d →
      ∃ s', runWith (stepOnSchedule cfg d) s (List.replicate j (window t)).flatten = some s' ∧
        s'.pc = PC.monitoring ∧ s'.timeoutSignal = s'.now + t ∧ d0 ∉ s'.closed ∧
        s'.now = s.now + ((j * t : Nat) : Int) ∧ s'.gens.length = s.gens.length + j := by
  induction j with
  | zero =>
    intro s w hpc hts hopen _ _ _ _
    exact ⟨s, by simp [runWith], hpc, hts, hopen, by simp, by simp⟩
  | succ j ih =>
    intro s w hpc hts hopen hw hwd hnext hfit
    have hj : (j + 1) * t = j * t + t := Nat.succ_mul j t
    rw [hj] at hfit
    push_cast at hfit
    obtain ⟨s1, hrun1, p1, p2, p3, p4, p5, p6, p7⟩ :=
      window_run cfg t d d0 w s hcfg hdn hpc hts hopen hw hwd hnext (by omega)
    obtain ⟨s2, hrun2, q1, q2, q3, q4, q5⟩ :=
      ih s1 s.next p1 p2 p3 p4 (by omega) p5 (by rw [p6]; omega)
    refine ⟨s2, ?_, q1, q2, q3, ?_, ?_⟩
    · rw [List.replicate_succ, List.flatten_cons, runWith_append, hrun1]
      exact hrun2
    · rw [q4, p6, hj]
      push_cast
      ring
    · rw [q5, p7]
      omega

/-- The end of a run kept on schedule: the rest of the last window passes,
`done` is closed, the steward sees it and stops. -/
theorem finish_run (cfg : Config) (t d d0 r : Nat) (s : State)
    (hdn : cfg.done = some d0) (hpc : s.pc = PC.monitoring)
    (hts : s.timeoutSignal = s.now + t) (hopen : d0 ∉ s.closed)
    (hr : s.now + r = d) (hrt : r < t) :
    ∃ s', runWith (stepOnSchedule cfg d) s [Act.tick r, Act.closeDone, Act.done] = some s' ∧
      s'.pc = PC.stopped ∧ s'.gens = s.gens := by
  obtain ⟨pc, next, wardDone, wardHeartbeat, gens, closed, pulses, now, timeoutSignal⟩ := s
  simp only at hpc hts hopen hr
  subst hpc hts
  have hready : ready closed (some d0) = false := by simp [ready, hopen]
  have hle : now + (r : Int) ≤ now + t := by omega
  have hle' : (d : Int) ≤ now + t := by omega
  refine ⟨{ pc := PC.stopped, next := next, wardDone := wardDone,
            wardHeartbeat := wardHeartbeat, gens := gens,
            closed := closed ++ [d0] ++ [cfg.heartbeat], pulses := pulses, now := now + r,
            timeoutSignal := now + t }, ?_, rfl, rfl⟩
  simp [runWith, stepOnSchedule, onSchedule, step, hdn, hready, hle, hle', hr, hopen, ready]

end GoConc.Steward

namespace GoConc.Steward

open OrChan (Chan Built Or ready)

/-- The schedule `silentSchedule` is kept on schedule and stops the steward
after `1 + d / t` generations. -/
theorem silentSchedule_run (t d : Nat) (pulseInterval : Int) (d0 next : Nat) (ht : 0 < t)
    (hdone : d0 < next) :
    ∃ s, runOnSchedule t pulseInterval (some d0) next d (silentSchedule t d) = some s ∧
      s.pc = PC.stopped ∧ s.gens.length = 1 + d / t := by
  have h0 : stepOnSchedule (config t pulseInterval (some d0) next) d
      (Act.startWard Heartbeat.absent) (init next) =
      some (monitorLoop (config t pulseInterval (some d0) next)
        (startWard (config t pulseInterval (some d0) next) Heartbeat.absent (init next))) := by
    simp [stepOnSchedule, onSchedule, step, init]
  obtain ⟨e0, e1, e2, e3, e4⟩ := monitorLoop_startWard (config t pulseInterval (some d0) next)
    Heartbeat.absent (init next)
  obtain ⟨s1, hrun1, p1, p2, p3, p4, p5⟩ :=
    windows_run (config t pulseInterval (some d0) next) t d d0 rfl rfl (d / t) _ (next + 1)
      e0 (by simp [monitorLoop, startWard, init, config]) (by rw [e3]; simp [init])
      (by rw [e2]; rfl) (by omega) (by rw [e1]; simp [init])
      (by
        have : d / t * t ≤ d := Nat.div_mul_le_self d t
        have hnow : (monitorLoop (config t pulseInterval (some d0) next)
          (startWard (config t pulseInterval (some d0) next) Heartbeat.absent (init next))).now
            = 0 := rfl
        rw [hnow]
        omega)
  have hnow1 : s1.now = ((d / t * t : Nat) : Int) := by
    rw [p4]
    simp [monitorLoop, startWard, init]
  obtain ⟨s2, hrun2, q1, q2⟩ :=
    finish_run (config t pulseInterval (some d0) next) t d d0 (d % t) s1 rfl p1 p2 p3
      (by
        rw [hnow1]
        have := Nat.div_add_mod' d t
        omega)
      (Nat.mod_lt d ht)
  refine ⟨s2, ?_, q1, ?_⟩
  · unfold runOnSchedule silentSchedule
    rw [List.cons_append, runWith_cons, h0, Option.some_bind, runWith_append, hrun1]
    exact hrun2
  · rw [q2, p5, e4]
    simp [init]

/-- For a duration that is no multiple of the timeout, one more than the
windows that fit is the number of windows needed to cover it. -/
theorem windows_ceil (t d : Nat) (ht : 0 < t) (hd : d % t ≠ 0) :
    1 + d / t = (d + t - 1) / t := by
  have h1 := Nat.div_add_mod' d t
  have h2 := Nat.mod_lt d ht
  have hk : (d / t + 1) * t = d / t * t + t := Nat.succ_mul _ _
  have hk2 : (d / t + 1 + 1) * t = (d / t + 1) * t + t := Nat.succ_mul _ _
  have := Nat.div_eq_of_lt_le (k := d / t + 1) (n := t) (m := d + t - 1) (by omega) (by omega)
  omega

/-- Every step of the steward keeps the invariant `Paced`. -/
theorem steward_step_paced (cfg : Config) (a : Act) (s s' : State) (hinv : s.Paced cfg)
    (h : step cfg a s = some s') : s'.Paced cfg := by
  obtain ⟨pc, next, wardDone, wardHeartbeat, gens, closed, pulses, now, timeoutSignal⟩ := s
  obtain ⟨h0, hp⟩ := hinv
  simp only at h0 hp
  cases a with
  | startWard hb =>
    cases pc with
    | starting =>
      simp only [step, Option.some.injEq] at h
      subst h
      simp only at hp
      subst hp
      refine ⟨h0, 0, by simp [monitorLoop, startWard], ?_, ?_⟩
      · simpa [monitorLoop, startWard] using h0
      · simpa [monitorLoop, startWard] using h0
    | restarting =>
      simp only [step, Option.some.injEq] at h
      subst h
      obtain ⟨k, hk1, hk2⟩ := hp
      have hk : ((k + 1 : Nat) : Int) * cfg.timeout = (k : Int) * cfg.timeout + cfg.timeout := by
        push_cast
        ring
      refine ⟨h0, k + 1, by simp [monitorLoop, startWard, hk1], ?_, ?_⟩
      · rw [hk]
        simpa [monitorLoop, startWard] using hk2
      · rw [hk]
        simp only [monitorLoop, startWard]
        linarith
    | monitoring => simp [step] at h
    | stopped => simp [step] at h
  | pulse received =>
    cases pc with
    | monitoring =>
      simp only [step] at h
      split at h
      · simp only [Option.some.injEq] at h
        subst h
        exact ⟨h0, hp⟩
      · simp at h
    | starting => simp [step] at h
    | restarting => simp [step] at h
    | stopped => simp [step] at h
  | wardHeartbeat =>
    cases pc with
    | monitoring =>
      simp only [step] at h
      split at h
      · simp at h
      · simp only [Option.some.injEq] at h
        subst h
        obtain ⟨k, hk1, hk2, _⟩ := hp
        refine ⟨h0, k, hk1, hk2, ?_⟩
        simp only [monitorLoop]
        linarith
    | starting => simp [step] at h
    | restarting => simp [step] at h
    | stopped => simp [step] at h
  | timeout =>
    cases pc with
    | monitoring =>
      simp only [step] at h
      split at h
      · rename_i hle
        cases wardDone with
        | none => simp at h
        | some w =>
          simp only [Option.some.injEq] at h
          subst h
          obtain ⟨k, hk1, _, hk3⟩ := hp
          exact ⟨h0, k, hk1, by simp only at hle ⊢; linarith⟩
      · simp at h
    | starting => simp [step] at h
    | restarting => simp [step] at h
    | stopped => simp [step] at h
  | done =>
    cases pc with
    | monitoring =>
      simp only [step] at h
      split at h
      · simp only [Option.some.injEq] at h
        subst h
        obtain ⟨k, hk1, hk2, _⟩ := hp
        exact ⟨h0, k, hk1, hk2⟩
      · simp at h
    | starting => simp [step] at h
    | restarting => simp [step] at h
    | stopped => simp [step] at h
  | closeDone =>
    simp only [step] at h
    cases hd : cfg.done with
    | none => simp [hd] at h
    | some d0 =>
      simp only [hd] at h
      split at h
      · simp at h
      · simp only [Option.some.injEq] at h
        subst h
        exact ⟨h0, hp⟩
  | wardCloses =>
    simp only [step] at h
    split at h
    · simp only [Option.some.injEq] at h
      subst h
      exact ⟨h0, hp⟩
    · simp at h
  | tick n =>
    simp only [step, Option.some.injEq] at h
    subst h
    have hn : (0 : Int) ≤ (n : Int) := Int.natCast_nonneg n
    refine ⟨by simp only; linarith, ?_⟩
    cases pc with
    | starting => exact hp
    | monitoring =>
      obtain ⟨k, hk1, hk2, hk3⟩ := hp
      exact ⟨k, hk1, by simp only; linarith, hk3⟩
    | restarting =>
      obtain ⟨k, hk1, hk2⟩ := hp
      exact ⟨k, hk1, by simp only; linarith⟩
    | stopped =>
      obtain ⟨k, hk1, hk2⟩ := hp
      exact ⟨k, hk1, by simp only; linarith⟩

/-- In every run of the steward with a timeout `t > 0`, at any moment at most
one generation per elapsed timeout, and the first, have been started. -/
theorem steward_run_paced (t : Nat) (pulseInterval : Int) (done : Chan) (next : Nat)
    (ht : 0 < t) (sched : List Act) (s : State)
    (h : run t pulseInterval done next sched = some s) :
    s.gens.length ≤ 1 + s.now.toNat / t := by
  have hinv : s.Paced (config t pulseInterval done next) := by
    refine runWith_preserves (step (config t pulseInterval done next)) (fun _ => True)
      (fun u => u.Paced (config t pulseInterval done next))
      (fun a u u' _ hu hst => steward_step_paced _ a u u' hu hst)
      sched _ s (fun _ _ => trivial) ?_ h
    exact ⟨le_refl _, rfl⟩
  obtain ⟨h0, hp⟩ := hinv
  have key : ∀ k : Nat, s.gens.length = k + 1 → (k : Int) * (t : Int) ≤ s.now →
      s.gens.length ≤ 1 + s.now.toNat / t := by
    intro k hk hle
    have hnow : ((s.now.toNat : Nat) : Int) = s.now := Int.toNat_of_nonneg h0
    have hmul : k * t ≤ s.now.toNat := by
      have : ((k * t : Nat) : Int) ≤ (s.now.toNat : Int) := by
        rw [hnow]
        push_cast
        exact hle
      exact_mod_cast this
    have := (Nat.le_div_iff_mul_le ht).mpr hmul
    omega
  have ht' : (0 : Int) ≤ (t : Int) := Int.natCast_nonneg t
  cases hpc : s.pc with
  | starting =>
    rw [hpc] at hp
    simp only at hp
    simp [hp]
  | monitoring =>
    rw [hpc] at hp
    obtain ⟨k, hk1, hk2, _⟩ := hp
    exact key k hk1 hk2
  | restarting =>
    rw [hpc] at hp
    obtain ⟨k, hk1, hk2⟩ := hp
    exact key k hk1 (by simp only [config] at hk2; linarith)
  | stopped =>
    rw [hpc] at hp
    obtain ⟨k, hk1, hk2⟩ := hp
    exact key k hk1 hk2

/-- C12, as stated, fails.  In `TestSteward` with timeout 4 s and a ward
that never pulses, a run in which the restart takes two nanoseconds starts the
second generation at 4 s + 2 ns; when `done` is closed 8 s + 1 ns after the
start, no multiple of the timeout, the second timeout window has not ended, the
timeout branch is not ready, and the steward stops having started two
generations, not `1 + 8000000001 / 4000000000 = 3`. -/
theorem steward_restarts_drift :
    run 4000000000 4000000000 (some 0) 1 driftSchedule = some drifted ∧
    drifted.now = 8000000001 ∧ 8000000001 % 4000000000 ≠ 0 ∧
    step testConfig Act.timeout drifted = none ∧
    run 4000000000 4000000000 (some 0) 1 (driftSchedule ++ [Act.closeDone, Act.done]) =
      some { drifted with pc := PC.stopped, closed := [2, 0, 1] } ∧
    drifted.gens.length = 2 ∧ 1 + 8000000001 / 4000000000 = 3 := by
  have h1 : run 4000000000 4000000000 (some 0) 1 driftSchedule = some drifted := by
    simp [run, runWith, step, config, init, monitorLoop, startWard, ready, driftSchedule,
      drifted, OrChan.Or_two]
    decide
  refine ⟨h1, rfl, by decide, ?_, ?_, rfl, by decide⟩
  · simp [step, testConfig, config, drifted]
  · unfold run at h1 ⊢
    rw [runWith_append, h1, Option.some_bind]
    simp [runWith, step, config, drifted, ready]

/-- C12, amended.  For a steward with timeout `t > 0`, cancelled after a
duration `d` that is no multiple of `t`.  In every run, whatever the ward does
and however long the steward takes over its statements, at most `1 + elapsed /
t` generations have been started at any moment: each restart waits a full
timeout after the start before it.  In the runs kept on schedule (the ward
never pulses, the statements of the steward take no time, the steward acts as
soon as a branch of its `select` is ready, and `done` is closed at the instant
`d`): every run in which the steward has stopped has started `1 + d / t`
generations, the run `silentSchedule` is such a run, and `1 + d / t` is `d / t`
rounded up. -/
theorem steward_generations_count (t d : Nat) (pulseInterval : Int) (d0 next : Nat)
    (ht : 0 < t) (hd : d % t ≠ 0) (hdone : d0 < next) :
    (∀ sched s, run t pulseInterval (some d0) next sched = some s →
      s.gens.length ≤ 1 + s.now.toNat / t) ∧
    (∀ sched s, runOnSchedule t pulseInterval (some d0) next d sched = some s →
      s.pc = PC.stopped → s.gens.length = 1 + d / t) ∧
    (∃ s, runOnSchedule t pulseInterval (some d0) next d (silentSchedule t d) = some s ∧
      s.pc = PC.stopped ∧ s.gens.length = 1 + d / t) ∧
    1 + d / t = (d + t - 1) / t := by
  refine ⟨fun sched s h => steward_run_paced t pulseInterval (some d0) next ht sched s h, ?_,
    silentSchedule_run t d pulseInterval d0 next ht hdone, windows_ceil t d ht hd⟩
  intro sched s hrun hpc
  have := run_onSchedule t d pulseInterval (some d0) next hd
    (fun x hx => by
      simp only [Option.some.injEq] at hx
      omega) sched s hrun
  simpa [State.OnSchedule, hpc] using this

/-- C12, amended, on `TestSteward`: timeout 4 s, cancelled after 9 s, three
generations. -/
theorem steward_generations_count_witness :
    0 < 4000000000 ∧ 9000000000 % 4000000000 ≠ 0 ∧ 0 < 1 ∧
    1 + 9000000000 / 4000000000 = 3 ∧
    ((∀ sched s, run 4000000000 4000000000 (some 0) 1 sched = some s →
      s.gens.length ≤ 1 + s.now.toNat / 4000000000) ∧
    (∀ sched s, runOnSchedule 4000000000 4000000000 (some 0) 1 9000000000 sched = some s →
      s.pc = PC.stopped → s.gens.length = 1 + 9000000000 / 4000000000) ∧
    (∃ s, runOnSchedule 4000000000 4000000000 (some 0) 1 9000000000
        (silentSchedule 4000000000 9000000000) = some s ∧
      s.pc = PC.stopped ∧ s.gens.length = 1 + 9000000000 / 4000000000) ∧
    1 + 9000000000 / 4000000000 = (9000000000 + 4000000000 - 1) / 4000000000) :=
  ⟨by decide, by decide, by decide, by decide,
   steward_generations_count 4000000000 9000000000 4000000000 0 1 (by decide) (by decide)
     (by decide)⟩

end GoConc.Steward

namespace GoConc.Pulse

/-- A pulse offered to nobody on a channel without room is dropped and leaves
the channel as it is. -/
theorem sendPulse_full (heartbeat : Chan) (hfull : heartbeat.cap ≤ heartbeat.pending) :
    sendPulse heartbeat false = (heartbeat, Outcome.dropped) := by
  have : ¬ heartbeat.pending < heartbeat.cap := by omega
  simp [sendPulse, this]

/-- Any number of pulses offered to nobody on a channel without room are all
dropped. -/
theorem sendPulses_full (n : Nat) (heartbeat : Chan)
    (hfull : heartbeat.cap ≤ heartbeat.pending) :
    sendPulses n heartbeat = (heartbeat, List.replicate n Outcome.dropped) := by
  induction n with
  | zero => rfl
  | succ n ih => simp [sendPulses, sendPulse_full heartbeat hfull, ih, List.replicate_succ]

/-- The steward's own pulse, with no receiver on `heartbeat`, leaves the
steward as it is, however often it is repeated. -/
theorem steward_pulses (cfg : Steward.Config) (s : Steward.State)
    (hpc : s.pc = Steward.PC.monitoring) (hpi : 0 < cfg.pulseInterval) (n : Nat) :
    runWith (Steward.step cfg) s (List.replicate n (Steward.Act.pulse false)) = some s := by
  have h1 : Steward.step cfg (Steward.Act.pulse false) s = some s := by
    obtain ⟨pc, next, wardDone, wardHeartbeat, gens, closed, pulses, now, timeoutSignal⟩ := s
    simp only at hpc
    subst hpc
    simp [Steward.step, hpi]
  induction n with
  | zero => rfl
  | succ n ih => simp [List.replicate_succ, runWith, h1, ih]

/-- C14. For every `n`: `n` pulses in a row offered with the
`select`-with-`default` send on an unbuffered heartbeat channel with no
receiver (the closure `sendPulse` of the interval worker) all return, each with
its pulse dropped and the channel unchanged; the same holds on any heartbeat
channel whose buffer has no room; and `n` own pulses of the steward with no
receiver are all taken without blocking and leave the steward as it is. -/
theorem pulses_without_receiver (n : Nat) :
    sendPulses n unbuffered = (unbuffered, List.replicate n Outcome.dropped) ∧
    (∀ heartbeat : Chan, heartbeat.cap ≤ heartbeat.pending →
      sendPulses n heartbeat = (heartbeat, List.replicate n Outcome.dropped)) ∧
    (∀ (cfg : Steward.Config) (s : Steward.State), s.pc = Steward.PC.monitoring →
      0 < cfg.pulseInterval →
      runWith (Steward.step cfg) s (List.replicate n (Steward.Act.pulse false)) = some s) :=
  ⟨sendPulses_full n unbuffered (le_refl _), fun hb h => sendPulses_full n hb h,
   fun cfg s hpc hpi => steward_pulses cfg s hpc hpi n⟩

/-- C14 at a thousand pulses. -/
theorem pulses_without_receiver_witness :
    sendPulses 1000 unbuffered = (unbuffered, List.replicate 1000 Outcome.dropped) ∧
    (∀ heartbeat : Chan, heartbeat.cap ≤ heartbeat.pending →
      sendPulses 1000 heartbeat = (heartbeat, List.replicate 1000 Outcome.dropped)) ∧
    (∀ (cfg : Steward.Config) (s : Steward.State), s.pc = Steward.PC.monitoring →
      0 < cfg.pulseInterval →
      runWith (Steward.step cfg) s (List.replicate 1000 (Steward.Act.pulse false)) = some s) :=
  pulses_without_receiver 1000

end GoConc.Pulse

namespace GoConc.WorkBegin

open Pulse (Outcome sendPulse)

/-- A pulse puts at most one more pulse into the buffer, and none beyond the
capacity. -/
theorem sendPulse_pending (heartbeat : Pulse.Chan) (receiver : Bool) :
    (sendPulse heartbeat receiver).1.cap = heartbeat.cap ∧
    (sendPulse heartbeat receiver).1.pending ≤ heartbeat.pending + 1 ∧
    (heartbeat.pending ≤ heartbeat.cap →
      (sendPulse heartbeat receiver).1.pending ≤ heartbeat.cap) := by
  unfold sendPulse
  split
  · simp
  · split
    · refine ⟨rfl, Nat.le_refl _, fun _ => ?_⟩
      show heartbeat.pending + 1 ≤ heartbeat.cap
      omega
    · simp

/-- Every step keeps the buffer of the one-slot heartbeat channel within its
capacity. -/
theorem workbegin_step_slot (a : Act) (s s' : Sys)
    (hinv : s.heartbeat.cap = 1 ∧ s.heartbeat.pending ≤ 1) (h : step a s = some s') :
    s'.heartbeat.cap = 1 ∧ s'.heartbeat.pending ≤ 1 := by
  obtain ⟨pc, heartbeat, beats, dc, out, demand⟩ := s
  simp only at hinv
  obtain ⟨p1, p2, p3⟩ := sendPulse_pending heartbeat true
  obtain ⟨q1, q2, q3⟩ := sendPulse_pending heartbeat false
  cases a with
  | closeDone =>
    simp only [step] at h
    split at h
    · simp at h
    · simp only [Option.some.injEq] at h
      subst h
      exact hinv
  | recvPulse =>
    simp only [step] at h
    split at h
    · simp only [Option.some.injEq] at h
      subst h
      simp only
      omega
    · simp at h
  | pulse receiver =>
    cases pc with
    | range rest =>
      cases rest with
      | nil => simp [step] at h
      | cons n rest =>
        simp only [step] at h
        split at h
        · simp at h
        · simp only [Option.some.injEq] at h
          subst h
          cases receiver
          · simp only
            omega
          · simp only
            omega
    | send n rest => simp [step] at h
    | returned => simp [step] at h
  | selDone =>
    cases pc <;> simp only [step] at h <;> try (simp at h; done)
    split at h
    · simp only [Option.some.injEq] at h
      subst h
      exact hinv
    · simp at h
  | selSend =>
    cases pc <;> simp only [step] at h <;> try (simp at h; done)
    split at h
    · simp only [Option.some.injEq] at h
      subst h
      exact hinv
    · simp at h
  | finish =>
    cases pc with
    | range rest =>
      cases rest with
      | nil =>
        simp only [step, Option.some.injEq] at h
        subst h
        exact hinv
      | cons n rest => simp [step] at h
    | send n rest => simp [step] at h
    | returned => simp [step] at h

end GoConc.WorkBegin

namespace GoConc.Interval

open Pulse (Outcome sendPulse)

/-- Every step keeps the buffer of the one-slot heartbeat channel within its
capacity. -/
theorem interval_step_slot (a : Act) (s s' : Sys)
    (hinv : s.heartbeat.cap = 1 ∧ s.heartbeat.pending ≤ 1) (h : step a s = some s') :
    s'.heartbeat.cap = 1 ∧ s'.heartbeat.pending ≤ 1 := by
  obtain ⟨pc, pulseInterval, heartbeat, beats, dc, out, demand⟩ := s
  simp only at hinv
  obtain ⟨p1, p2, p3⟩ := WorkBegin.sendPulse_pending heartbeat true
  obtain ⟨q1, q2, q3⟩ := WorkBegin.sendPulse_pending heartbeat false
  cases a with
  | closeDone =>
    simp only [step] at h
    split at h
    · simp at h
    · simp only [Option.some.injEq] at h
      subst h
      exact hinv
  | recvPulse =>
    simp only [step] at h
    split at h
    · simp only [Option.some.injEq] at h
      subst h
      simp only
      omega
    · simp at h
  | selPulse receiver =>
    cases pc with
    | range rest =>
      cases rest with
      | nil => simp [step] at h
      | cons n rest =>
        simp only [step] at h
        split at h
        · simp only [Option.some.injEq] at h
          subst h
          cases receiver
          · simp only
            omega
          · simp only
            omega
        · simp at h
    | returned => simp [step] at h
  | selDone =>
    cases pc with
    | range rest =>
      cases rest with
      | nil => simp [step] at h
      | cons n rest =>
        simp only [step] at h
        split at h
        · simp only [Option.some.injEq] at h
          subst h
          exact hinv
        · simp at h
    | returned => simp [step] at h
  | selSend =>
    cases pc with
    | range rest =>
      cases rest with
      | nil => simp [step] at h
      | cons n rest =>
        simp only [step] at h
        split at h
        · simp only [Option.some.injEq] at h
          subst h
          exact hinv
        · simp at h
    | returned => simp [step] at h
  | finish =>
    cases pc with
    | range rest =>
      cases rest with
      | nil =>
        simp only [step, Option.some.injEq] at h
        subst h
        exact hinv
      | cons n rest => simp [step] at h
    | returned => simp [step] at h

/-- C15. In every state the work-begin worker `doWork` reaches, and in every
state the interval worker `doWork2` reaches, whatever the works, the readers
and the moment `done` is closed: the one-slot heartbeat channel holds at most
one pulse; and a pulse offered to nobody while one is in the buffer is
dropped at once: the channel and the count of pulses received stay as they
are, and the worker goes on (to the send of its result, or back to its
`select`). -/
theorem heartbeat_holds_one_pulse :
    (∀ works demand sched s, WorkBegin.run works demand sched = some s →
      s.heartbeat.pending ≤ 1 ∧
      ∀ n rest, s.pc = WorkBegin.PC.range (n :: rest) → s.heartbeat.pending = 1 →
        WorkBegin.step (WorkBegin.Act.pulse false) s =
          some { s with pc := WorkBegin.PC.send n rest }) ∧
    (∀ pulseInterval works demand sched s,
      Interval.run pulseInterval works demand sched = some s →
      s.heartbeat.pending ≤ 1 ∧
      ∀ n rest, s.pc = PC.range (n :: rest) → 0 < s.pulseInterval →
        s.heartbeat.pending = 1 → step (Act.selPulse false) s = some s) := by
  constructor
  · intro works demand sched s hrun
    have hinv := runWith_preserves WorkBegin.step (fun _ => True)
      (fun t => t.heartbeat.cap = 1 ∧ t.heartbeat.pending ≤ 1)
      (fun a t t' _ ht hstep => WorkBegin.workbegin_step_slot a t t' ht hstep)
      sched _ s (fun _ _ => trivial) ⟨rfl, by simp [WorkBegin.init, Pulse.oneSlot]⟩ hrun
    refine ⟨hinv.2, ?_⟩
    intro n rest hpc hfull
    obtain ⟨pc, heartbeat, beats, dc, out, demand⟩ := s
    simp only at hpc hfull hinv
    subst hpc
    have hsend : sendPulse heartbeat false = (heartbeat, Outcome.dropped) :=
      Pulse.sendPulse_full heartbeat (by omega)
    simp [WorkBegin.step, hsend]
  · intro pulseInterval works demand sched s hrun
    have hinv := runWith_preserves step (fun _ => True)
      (fun t => t.heartbeat.cap = 1 ∧ t.heartbeat.pending ≤ 1)
      (fun a t t' _ ht hstep => interval_step_slot a t t' ht hstep)
      sched _ s (fun _ _ => trivial) ⟨rfl, by simp [init, Pulse.oneSlot]⟩ hrun
    refine ⟨hinv.2, ?_⟩
    intro n rest hpc hpi hfull
    obtain ⟨pc, pulseInterval, heartbeat, beats, dc, out, demand⟩ := s
    simp only at hpc hfull hinv hpi
    subst hpc
    have hsend : sendPulse heartbeat false = (heartbeat, Outcome.dropped) :=
      Pulse.sendPulse_full heartbeat (by omega)
    simp [step, hsend, hpi]

end GoConc.Interval

namespace GoConc.WorkBegin

open Pulse (Outcome sendPulse)

/-- While `done` is open every step keeps the works delivered and those to
come together, and uses up fuel. -/
theorem step_works (works : List Int) (a : Act) (s s' : Sys) (ha : a ≠ Act.closeDone)
    (hinv : s.doneClosed = false ∧ s.out ++ s.pc.rest = works ∧ s.pc.rest.length ≤ s.demand)
    (h : step a s = some s') :
    (s'.doneClosed = false ∧ s'.out ++ s'.pc.rest = works ∧ s'.pc.rest.length ≤ s'.demand) ∧
      s'.fuel < s.fuel := by
  obtain ⟨pc, heartbeat, beats, dc, out, demand⟩ := s
  obtain ⟨h1, h2, h3⟩ := hinv
  simp only at h1 h2 h3
  subst h1
  cases a with
  | closeDone => exact absurd rfl ha
  | recvPulse =>
    simp only [step] at h
    split at h
    · simp only [Option.some.injEq] at h
      subst h
      refine ⟨⟨rfl, h2, h3⟩, ?_⟩
      simp only [Sys.fuel]
      omega
    · simp at h
  | pulse receiver =>
    cases pc with
    | range rest =>
      cases rest with
      | nil => simp [step] at h
      | cons n rest =>
        simp only [step] at h
        split at h
        · simp at h
        · simp only [Option.some.injEq] at h
          subst h
          refine ⟨⟨rfl, h2, h3⟩, ?_⟩
          have := (sendPulse_pending heartbeat receiver).2.1
          simp only [Sys.fuel, List.length_cons]
          omega
    | send n rest => simp [step] at h
    | returned => simp [step] at h
  | selDone =>
    cases pc <;> simp [step] at h
  | selSend =>
    cases pc with
    | send n rest =>
      simp only [step] at h
      split at h
      · simp only [Option.some.injEq] at h
        subst h
        refine ⟨⟨rfl, by simpa [PC.rest] using h2, ?_⟩, ?_⟩
        · simp only [PC.rest, List.length_cons] at h3 ⊢
          omega
        · simp only [Sys.fuel]
          omega
      · simp at h
    | range rest => simp [step] at h
    | returned => simp [step] at h
  | finish =>
    cases pc with
    | range rest =>
      cases rest with
      | nil =>
        simp only [step, Option.some.injEq] at h
        subst h
        refine ⟨⟨rfl, by simpa [PC.rest] using h2, by simp [PC.rest]⟩, ?_⟩
        simp only [Sys.fuel]
        omega
      | cons n rest => simp [step] at h
    | send n rest => simp [step] at h
    | returned => simp [step] at h

/-- While `done` is open and the reader of `results` takes what is left, a
worker that has not returned has a step of its own to take. -/
theorem progress_works (s : Sys) (hdem : s.pc.rest.length ≤ s.demand)
    (hpc : s.pc ≠ PC.returned) :
    ∃ a s', a ≠ Act.closeDone ∧ a ≠ Act.recvPulse ∧ step a s = some s' := by
  obtain ⟨pc, heartbeat, beats, dc, out, demand⟩ := s
  simp only at hdem hpc
  cases pc with
  | range rest =>
    cases rest with
    | nil => exact ⟨Act.finish, _, by simp, by simp, rfl⟩
    | cons n rest => exact ⟨Act.pulse false, _, by simp, by simp, by simp [step]; rfl⟩
  | send n rest =>
    have : 0 < demand := by
      simp only [PC.rest, List.length_cons] at hdem
      omega
    exact ⟨Act.selSend, _, by simp, by simp, by simp [step, this]; rfl⟩
  | returned => exact absurd rfl hpc

end GoConc.WorkBegin

namespace GoConc.Interval

open Pulse (Outcome sendPulse)

/-- While `done` is open every step keeps the works delivered and those to
come together; a step of the work itself shortens what is to come. -/
theorem interval_step_works (works : List Int) (a : Act) (s s' : Sys) (ha : a ≠ Act.closeDone)
    (hinv : s.doneClosed = false ∧ s.out ++ s.pc.rest = works ∧ s.pc.rest.length ≤ s.demand)
    (h : step a s = some s') :
    (s'.doneClosed = false ∧ s'.out ++ s'.pc.rest = works ∧ s'.pc.rest.length ≤ s'.demand) ∧
      (a.isWork = true →
        (if s'.pc = PC.returned then 0 else s'.pc.rest.length + 1) <
          (if s.pc = PC.returned then 0 else s.pc.rest.length + 1)) := by
  obtain ⟨pc, pulseInterval, heartbeat, beats, dc, out, demand⟩ := s
  obtain ⟨h1, h2, h3⟩ := hinv
  simp only at h1 h2 h3
  subst h1
  cases a with
  | closeDone => exact absurd rfl ha
  | recvPulse =>
    simp only [step] at h
    split at h
    · simp only [Option.some.injEq] at h
      subst h
      exact ⟨⟨rfl, h2, h3⟩, by simp [Act.isWork]⟩
    · simp at h
  | selPulse receiver =>
    cases pc with
    | range rest =>
      cases rest with
      | nil => simp [step] at h
      | cons n rest =>
        simp only [step] at h
        split at h
        · simp only [Option.some.injEq] at h
          subst h
          exact ⟨⟨rfl, h2, h3⟩, by simp [Act.isWork]⟩
        · simp at h
    | returned => simp [step] at h
  | selDone =>
    cases pc with
    | range rest =>
      cases rest <;> simp [step] at h
    | returned => simp [step] at h
  | selSend =>
    cases pc with
    | range rest =>
      cases rest with
      | nil => simp [step] at h
      | cons n rest =>
        simp only [step] at h
        split at h
        · simp only [Option.some.injEq] at h
          subst h
          refine ⟨⟨rfl, by simpa [PC.rest] using h2, ?_⟩, ?_⟩
          · simp only [PC.rest, List.length_cons] at h3 ⊢
            omega
          · simp [PC.rest]
        · simp at h
    | returned => simp [step] at h
  | finish =>
    cases pc with
    | range rest =>
      cases rest with
      | nil =>
        simp only [step, Option.some.injEq] at h
        subst h
        exact ⟨⟨rfl, by simpa [PC.rest] using h2, by simp [PC.rest]⟩, by simp [PC.rest]⟩
      | cons n rest => simp [step] at h
    | returned => simp [step] at h

/-- While `done` is open and the reader of `results` takes what is left, a
worker that has not returned has a step of the work itself to take. -/
theorem interval_progress_works (s : Sys) (hdem : s.pc.rest.length ≤ s.demand)
    (hpc : s.pc ≠ PC.returned) :
    ∃ a s', a ≠ Act.closeDone ∧ a.isWork = true ∧ step a s = some s' := by
  obtain ⟨pc, pulseInterval, heartbeat, beats, dc, out, demand⟩ := s
  simp only at hdem hpc
  cases pc with
  | range rest =>
    cases rest with
    | nil => exact ⟨Act.finish, _, by simp, rfl, rfl⟩
    | cons n rest =>
      have : 0 < demand := by
        simp only [PC.rest, List.length_cons] at hdem
        omega
      exact ⟨Act.selSend, _, by simp, rfl, by simp [step, this]; rfl⟩
  | returned => exact absurd rfl hpc

end GoConc.Interval

namespace GoConc.Interval

open Pulse (Outcome sendPulse)

/-- The work-begin worker delivers exactly its works when `done` stays open. -/
theorem workbegin_delivers (works : List Int) (demand : Nat) (h : works.length ≤ demand) :
    (∀ sched s, WorkBegin.Act.closeDone ∉ sched → WorkBegin.run works demand sched = some s →
      s.out <+: works ∧ (s.pc = WorkBegin.PC.returned → s.out = works) ∧
      (s.pc ≠ WorkBegin.PC.returned → ∃ a s', a ≠ WorkBegin.Act.closeDone ∧
        a ≠ WorkBegin.Act.recvPulse ∧ WorkBegin.step a s = some s') ∧
      sched.length ≤ 3 * works.length + 1) ∧
    (∃ sched s, WorkBegin.Act.closeDone ∉ sched ∧ WorkBegin.run works demand sched = some s ∧
      s.pc = WorkBegin.PC.returned ∧ s.out = works) := by
  have hinit : (WorkBegin.init works demand).doneClosed = false ∧
      (WorkBegin.init works demand).out ++ (WorkBegin.init works demand).pc.rest = works ∧
      (WorkBegin.init works demand).pc.rest.length ≤ (WorkBegin.init works demand).demand := by
    simp [WorkBegin.init, WorkBegin.PC.rest, h]
  constructor
  · intro sched s hsched hrun
    have hall : ∀ a ∈ sched, a ≠ WorkBegin.Act.closeDone := fun a ha he => hsched (he ▸ ha)
    obtain ⟨⟨_, h2, h3⟩, h4⟩ := runWith_invariant WorkBegin.step
      (fun a => a ≠ WorkBegin.Act.closeDone)
      (fun t => t.doneClosed = false ∧ t.out ++ t.pc.rest = works ∧
        t.pc.rest.length ≤ t.demand) (fun t => t.fuel) (WorkBegin.step_works works)
      sched _ s hall hinit hrun
    refine ⟨⟨s.pc.rest, h2⟩, ?_, WorkBegin.progress_works s h3, ?_⟩
    · intro hpc
      simpa [hpc, WorkBegin.PC.rest] using h2
    · have : (WorkBegin.init works demand).fuel = 3 * works.length + 1 := by
        simp [WorkBegin.init, WorkBegin.Sys.fuel, Pulse.oneSlot]
      omega
  · obtain ⟨sched, s, hall, hrun, hfin, hinv⟩ :=
      runWith_reaches WorkBegin.step (fun a => a ≠ WorkBegin.Act.closeDone)
        (fun t => t.doneClosed = false ∧ t.out ++ t.pc.rest = works ∧
          t.pc.rest.length ≤ t.demand)
        (fun t => t.pc = WorkBegin.PC.returned) (fun t => t.fuel)
        (WorkBegin.step_works works)
        (fun t ht hpc => by
          obtain ⟨a, t', ha, _, hstep⟩ := WorkBegin.progress_works t ht.2.2 hpc
          exact ⟨a, t', ha, hstep⟩)
        _ _ (le_refl _) hinit
    refine ⟨sched, s, fun hmem => hall _ hmem rfl, hrun, hfin, ?_⟩
    simpa [hfin, WorkBegin.PC.rest] using hinv.2.1

/-- The interval worker delivers exactly its works when `done` stays open. -/
theorem interval_delivers (pulseInterval : Int) (works : List Int) (demand : Nat)
    (h : works.length ≤ demand) :
    (∀ sched s, Act.closeDone ∉ sched → run pulseInterval works demand sched = some s →
      s.out <+: works ∧ (s.pc = PC.returned → s.out = works) ∧
      (s.pc ≠ PC.returned → ∃ a s', a ≠ Act.closeDone ∧ a.isWork = true ∧
        step a s = some s')) ∧
    (∃ sched s, Act.closeDone ∉ sched ∧ run pulseInterval works demand sched = some s ∧
      s.pc = PC.returned ∧ s.out = works) := by
  have hinit : (init pulseInterval works demand).doneClosed = false ∧
      (init pulseInterval works demand).out ++ (init pulseInterval works demand).pc.rest =
        works ∧
      (init pulseInterval works demand).pc.rest.length ≤
        (init pulseInterval works demand).demand := by
    simp [init, PC.rest, h]
  constructor
  · intro sched s hsched hrun
    have hall : ∀ a ∈ sched, a ≠ Act.closeDone := fun a ha he => hsched (he ▸ ha)
    obtain ⟨_, h2, h3⟩ := runWith_preserves step (fun a => a ≠ Act.closeDone)
      (fun t => t.doneClosed = false ∧ t.out ++ t.pc.rest = works ∧
        t.pc.rest.length ≤ t.demand)
      (fun a t t' ha ht hstep => (interval_step_works works a t t' ha ht hstep).1)
      sched _ s hall hinit hrun
    refine ⟨⟨s.pc.rest, h2⟩, ?_, interval_progress_works s h3⟩
    intro hpc
    simpa [hpc, PC.rest] using h2
  · obtain ⟨sched, s, hall, hrun, hfin, hinv⟩ :=
      runWith_reaches step (fun a => a ≠ Act.closeDone ∧ a.isWork = true)
        (fun t => t.doneClosed = false ∧ t.out ++ t.pc.rest = works ∧
          t.pc.rest.length ≤ t.demand)
        (fun t => t.pc = PC.returned)
        (fun t => if t.pc = PC.returned then 0 else t.pc.rest.length + 1)
        (fun a t t' ha ht hstep =>
          ⟨(interval_step_works works a t t' ha.1 ht hstep).1,
           (interval_step_works works a t t' ha.1 ht hstep).2 ha.2⟩)
        (fun t ht hpc => by
          obtain ⟨a, t', ha, hw, hstep⟩ := interval_progress_works t ht.2.2 hpc
          exact ⟨a, t', ⟨ha, hw⟩, hstep⟩)
        _ _ (le_refl _) hinit
    refine ⟨sched, s, fun hmem => (hall _ hmem).1 rfl, hrun, hfin, ?_⟩
    simpa [hfin, PC.rest] using hinv.2.1

/-- C16. For every list of works, with `done` never closed and a reader of
`results` that keeps receiving.  The work-begin worker `doWork`: in every run
the results delivered so far are an initial segment of `works`, a worker that
has returned (closing `results`) has delivered exactly `works`, a worker that
has not returned always has a step of its own to take, no run is longer than
`3 * works.length + 1` steps, and some run returns.  The interval worker
`doWork2`, for every pulse interval: the same, except that its runs are not
bounded, since the `select` may take the pulse branch any number of times. -/
theorem workers_deliver_works (works : List Int) (demand : Nat) (h : works.length ≤ demand) :
    ((∀ sched s, WorkBegin.Act.closeDone ∉ sched → WorkBegin.run works demand sched = some s →
      s.out <+: works ∧ (s.pc = WorkBegin.PC.returned → s.out = works) ∧
      (s.pc ≠ WorkBegin.PC.returned → ∃ a s', a ≠ WorkBegin.Act.closeDone ∧
        a ≠ WorkBegin.Act.recvPulse ∧ WorkBegin.step a s = some s') ∧
      sched.length ≤ 3 * works.length + 1) ∧
    (∃ sched s, WorkBegin.Act.closeDone ∉ sched ∧ WorkBegin.run works demand sched = some s ∧
      s.pc = WorkBegin.PC.returned ∧ s.out = works)) ∧
    (∀ pulseInterval : Int,
      (∀ sched s, Act.closeDone ∉ sched → run pulseInterval works demand sched = some s →
        s.out <+: works ∧ (s.pc = PC.returned → s.out = works) ∧
        (s.pc ≠ PC.returned → ∃ a s', a ≠ Act.closeDone ∧ a.isWork = true ∧
          step a s = some s')) ∧
      (∃ sched s, Act.closeDone ∉ sched ∧ run pulseInterval works demand sched = some s ∧
        s.pc = PC.returned ∧ s.out = works)) :=
  ⟨workbegin_delivers works demand h, fun pi => interval_delivers pi works demand h⟩

/-- C16 on the works `0, 1, 2, 3, 5` of `TestFixBadTimeoutTest` and
`TestDoWork2HeartbeatInTests`. -/
theorem workers_deliver_works_witness :
    testWorks.length ≤ 5 ∧
    (((∀ sched s, WorkBegin.Act.closeDone ∉ sched → WorkBegin.run testWorks 5 sched = some s →
      s.out <+: testWorks ∧ (s.pc = WorkBegin.PC.returned → s.out = testWorks) ∧
      (s.pc ≠ WorkBegin.PC.returned → ∃ a s', a ≠ WorkBegin.Act.closeDone ∧
        a ≠ WorkBegin.Act.recvPulse ∧ WorkBegin.step a s = some s') ∧
      sched.length ≤ 3 * testWorks.length + 1) ∧
    (∃ sched s, WorkBegin.Act.closeDone ∉ sched ∧ WorkBegin.run testWorks 5 sched = some s ∧
      s.pc = WorkBegin.PC.returned ∧ s.out = testWorks)) ∧
    (∀ pulseInterval : Int,
      (∀ sched s, Act.closeDone ∉ sched → run pulseInterval testWorks 5 sched = some s →
        s.out <+: testWorks ∧ (s.pc = PC.returned → s.out = testWorks) ∧
        (s.pc ≠ PC.returned → ∃ a s', a ≠ Act.closeDone ∧ a.isWork = true ∧
          step a s = some s')) ∧
      (∃ sched s, Act.closeDone ∉ sched ∧ run pulseInterval testWorks 5 sched = some s ∧
        s.pc = PC.returned ∧ s.out = testWorks))) :=
  ⟨by decide, workers_deliver_works testWorks 5 (by decide)⟩

end GoConc.Interval

namespace GoConc.WardClosure

open Pulse (Outcome sendPulse)

/-- Every step of a generation over a list with a negative value keeps: what
it has sent, followed by what it has yet to range over in this pass, is the
list; and it has not sent anything at or after the first negative value. -/
theorem step_before_negative (pre post : List Int) (neg : Int) (hneg : neg < 0)
    (a : Act) (g g' : Gen)
    (hinv : g.intList = pre ++ neg :: post ∧
      ∃ t, pre = g.emitted ++ t ∧
        (g.pc ≠ PC.returned → g.pc.ahead g.intList = t ++ neg :: post) ∧
        (∀ v rest, g.pc = PC.send v rest → 0 ≤ v))
    (h : step a g = some g') :
    g'.intList = pre ++ neg :: post ∧
      ∃ t, pre = g'.emitted ++ t ∧
        (g'.pc ≠ PC.returned → g'.pc.ahead g'.intList = t ++ neg :: post) ∧
        (∀ v rest, g'.pc = PC.send v rest → 0 ≤ v) := by
  obtain ⟨pc, intList, emitted, pulseInterval, heartbeat, beats, dc⟩ := g
  obtain ⟨h1, t, h2, h3, h4⟩ := hinv
  simp only at h1 h2 h3 h4
  subst h1
  cases a with
  | closeDone =>
    simp only [step] at h
    split at h
    · simp at h
    · simp only [Option.some.injEq] at h
      subst h
      exact ⟨rfl, t, h2, h3, h4⟩
  | offer =>
    cases pc <;> simp only [step] at h <;> try (simp at h; done)
    simp only [Option.some.injEq] at h
    subst h
    refine ⟨rfl, t, h2, fun _ => ?_, fun v rest hv => by simp at hv⟩
    simpa [PC.ahead] using h3
  | offerDone =>
    cases pc <;> simp only [step] at h <;> try (simp at h; done)
    split at h
    · simp only [Option.some.injEq] at h
      subst h
      exact ⟨rfl, t, h2, fun hne => absurd rfl hne, fun v rest hv => by simp at hv⟩
    · simp at h
  | next =>
    cases pc with
    | range rest =>
      cases rest with
      | nil =>
        have := h3 (by simp)
        simp [PC.ahead] at this
      | cons v rest =>
        simp only [step] at h
        have hahead := h3 (by simp)
        simp only [PC.ahead] at hahead
        split at h
        · simp only [Option.some.injEq] at h
          subst h
          exact ⟨rfl, t, h2, fun hne => absurd rfl hne, fun v rest hv => by simp at hv⟩
        · rename_i hv
          simp only [Option.some.injEq] at h
          subst h
          refine ⟨rfl, t, h2, fun _ => by simpa [PC.ahead] using hahead, ?_⟩
          intro v' rest' he
          simp only [PC.send.injEq] at he
          obtain ⟨rfl, _⟩ := he
          omega
    | offer => simp [step] at h
    | send v rest => simp [step] at h
    | returned => simp [step] at h
  | selPulse receiver =>
    cases pc <;> simp only [step] at h <;> try (simp at h; done)
    split at h
    · simp only [Option.some.injEq] at h
      subst h
      exact ⟨rfl, t, h2, h3, h4⟩
    · simp at h
  | selSend =>
    cases pc with
    | send v rest =>
      simp only [step, Option.some.injEq] at h
      subst h
      have hahead := h3 (by simp)
      simp only [PC.ahead] at hahead
      have hv := h4 v rest rfl
      cases t with
      | nil =>
        simp only [List.nil_append, List.cons.injEq] at hahead
        omega
      | cons v' t' =>
        simp only [List.cons_append, List.cons.injEq] at hahead
        obtain ⟨rfl, hrest⟩ := hahead
        refine ⟨rfl, t', by simpa using h2, fun _ => by simpa [PC.ahead] using hrest, ?_⟩
        intro v' rest' he
        simp at he
    | offer => simp [step] at h
    | range rest => cases rest <;> simp [step] at h
    | returned => simp [step] at h
  | selDone =>
    cases pc <;> simp only [step] at h <;> try (simp at h; done)
    split at h
    · simp only [Option.some.injEq] at h
      subst h
      exact ⟨rfl, t, h2, fun hne => absurd rfl hne, fun v rest hv => by simp at hv⟩
    · simp at h

/-- A generation over a list with a negative value sends an initial segment
of the values before the first negative one. -/
theorem emitted_before_negative (pulseInterval : Int) (pre post : List Int) (neg : Int)
    (hneg : neg < 0) (sched : List Act) (g : Gen)
    (h : run pulseInterval (pre ++ neg :: post) sched = some g) : g.emitted <+: pre := by
  have := runWith_preserves step (fun _ => True)
    (fun u => u.intList = pre ++ neg :: post ∧
      ∃ t, pre = u.emitted ++ t ∧
        (u.pc ≠ PC.returned → u.pc.ahead u.intList = t ++ neg :: post) ∧
        (∀ v rest, u.pc = PC.send v rest → 0 ≤ v))
    (fun a u u' _ hu hstep => step_before_negative pre post neg hneg a u u' hu hstep)
    sched _ g (fun _ _ => trivial)
    ⟨rfl, pre, by simp [init], fun _ => by simp [init, PC.ahead],
      fun v rest hv => by simp [init] at hv⟩ h
  obtain ⟨_, t, ht, _⟩ := this
  exact ⟨t, ht.symm⟩

end GoConc.WardClosure

namespace GoConc.OrDone

variable {α : Type}

/-- A branch taken by the goroutine of `OrDone` makes up no value: the value
it hands over, the one it holds and those to come were held or to come. -/
theorem goroutine_step_values (dc r : Bool) (b : Branch) (g g' : Goroutine α) (o : Option α)
    (h : OrDone.step dc r b g = some (g', o)) :
    ∀ v, v ∈ o.toList ++ (g'.pc.inflight ++ g'.c.pending) →
      v ∈ g.pc.inflight ++ g.c.pending := by
  obtain ⟨pc, ⟨pending, closes⟩⟩ := g
  cases pc with
  | outer =>
    cases b with
    | done =>
      cases dc <;> simp [OrDone.step] at h
      obtain ⟨h1, h2⟩ := h
      subst h1 h2
      simp [PC.inflight]
    | recv =>
      cases pending with
      | nil =>
        cases closes <;> simp [OrDone.step] at h
        obtain ⟨h1, h2⟩ := h
        subst h1 h2
        simp [PC.inflight]
      | cons v rest =>
        simp [OrDone.step] at h
        obtain ⟨h1, h2⟩ := h
        subst h1 h2
        simp [PC.inflight]
    | send => simp [OrDone.step] at h
  | inner v =>
    cases b with
    | done =>
      cases dc <;> simp [OrDone.step] at h
      obtain ⟨h1, h2⟩ := h
      subst h1 h2
      intro w hw
      simp only [PC.inflight, Option.toList, List.nil_append] at hw ⊢
      exact List.mem_append_right _ hw
    | recv => simp [OrDone.step] at h
    | send =>
      cases r <;> simp [OrDone.step] at h
      obtain ⟨h1, h2⟩ := h
      subst h1 h2
      simp [PC.inflight]
  | returned =>
    cases b <;> simp [OrDone.step] at h

end GoConc.OrDone

namespace GoConc.Bridge

variable {α : Type}

/-- No step of `Bridge` makes up a value: a property of every value in the
system is kept. -/
theorem Sys.step_allIn (P : α → Prop) (a : Act) (s s' : Sys α) (hinv : s.AllIn P)
    (h : Sys.step a s = some s') : s'.AllIn P := by
  obtain ⟨pc, dc, chanStream, chanCloses, chanClosed, out, demand⟩ := s
  obtain ⟨h1, h2, h3⟩ := hinv
  simp only at h1 h2 h3
  cases a with
  | closeDone =>
    simp only [Sys.step] at h
    split at h
    · simp at h
    · simp only [Option.some.injEq] at h
      subst h
      exact ⟨h1, h2, h3⟩
  | closeChan =>
    simp only [Sys.step] at h
    split at h
    · simp only [Option.some.injEq] at h
      subst h
      exact ⟨h1, h2, h3⟩
    · simp at h
  | recvStream =>
    cases pc with
    | rangeChan =>
      cases chanStream with
      | nil => simp [Sys.step] at h
      | cons st later =>
        simp only [Sys.step, Option.some.injEq] at h
        subst h
        exact ⟨h1, fun v hv => h3 st (List.mem_cons_self _ _) v hv,
          fun st' hst => h3 st' (List.mem_cons_of_mem _ hst)⟩
    | checkDone st => simp [Sys.step] at h
    | rangeOrDone g => simp [Sys.step] at h
    | sendVal v g => simp [Sys.step] at h
    | returned => simp [Sys.step] at h
  | rangeEnd =>
    cases pc <;> simp only [Sys.step] at h <;> try (simp at h; done)
    split at h
    · simp only [Option.some.injEq] at h
      subst h
      exact ⟨h1, fun v hv => by simp [PC.values] at hv, h3⟩
    · simp at h
  | checkDone =>
    cases pc <;> simp only [Sys.step] at h <;> try (exact absurd h (by simp))
    split at h
    · simp only [Option.some.injEq] at h
      subst h
      exact ⟨h1, fun v hv => by simp [PC.values] at hv, h3⟩
    · simp only [Option.some.injEq] at h
      subst h
      refine ⟨h1, fun v hv => ?_, h3⟩
      simp only [PC.values, OrDone.spawn, OrDone.PC.inflight, List.nil_append] at hv
      exact h2 v (by simpa [PC.values] using hv)
  | orDone b =>
    cases pc with
    | rangeOrDone g =>
      simp only [Sys.step] at h
      cases hg : OrDone.step dc true b g with
      | none => simp [hg] at h
      | some r =>
        obtain ⟨g', o⟩ := r
        have hval := OrDone.goroutine_step_values dc true b g g' o hg
        cases o with
        | none =>
          simp only [hg, Option.some.injEq] at h
          subst h
          exact ⟨h1, fun v hv => h2 v (hval v (by simpa [PC.values] using hv)), h3⟩
        | some w =>
          simp only [hg, Option.some.injEq] at h
          subst h
          exact ⟨h1, fun v hv => h2 v (hval v (by simpa [PC.values] using hv)), h3⟩
    | sendVal w g =>
      simp only [Sys.step] at h
      cases hg : OrDone.step dc false b g with
      | none => simp [hg] at h
      | some r =>
        obtain ⟨g', o⟩ := r
        have hval := OrDone.goroutine_step_values dc false b g g' o hg
        cases o with
        | some u => simp [hg] at h
        | none =>
          simp only [hg, Option.some.injEq] at h
          subst h
          refine ⟨h1, fun v hv => ?_, h3⟩
          simp only [PC.values, List.mem_cons] at hv
          rcases hv with rfl | hv
          · exact h2 _ (by simp [PC.values])
          · exact h2 v (by
              simp only [PC.values, List.mem_cons]
              exact Or.inr (hval v (by simpa using hv)))
    | rangeChan => simp [Sys.step] at h
    | checkDone st => simp [Sys.step] at h
    | returned => simp [Sys.step] at h
  | orDoneClosed =>
    cases pc <;> simp only [Sys.step] at h <;> try (simp at h; done)
    split at h
    · simp only [Option.some.injEq] at h
      subst h
      exact ⟨h1, fun v hv => by simp [PC.values] at hv, h3⟩
    · simp at h
  | selDone =>
    cases pc <;> simp only [Sys.step] at h <;> try (simp at h; done)
    split at h
    · simp only [Option.some.injEq] at h
      subst h
      exact ⟨h1, fun v hv => h2 v (by
        simp only [PC.values] at hv ⊢
        exact List.mem_cons_of_mem _ hv), h3⟩
    · simp at h
  | selSend =>
    cases pc <;> simp only [Sys.step] at h <;> try (simp at h; done)
    split at h
    · simp only [Option.some.injEq] at h
      subst h
      refine ⟨fun v hv => ?_, fun v hv => h2 v (by
        simp only [PC.values] at hv ⊢
        exact List.mem_cons_of_mem _ hv), h3⟩
      simp only [List.mem_append, List.mem_singleton] at hv
      rcases hv with hv | rfl
      · exact h1 v hv
      · exact h2 _ (by simp [PC.values])
    · simp at h

/-- Every value `Bridge` delivers is a value of one of the sub-streams. -/
theorem out_of_streams (P : α → Prop) (streams : List (Upstream α)) (closes : Bool)
    (demand : Nat) (hP : ∀ st ∈ streams, ∀ v ∈ st.pending, P v) (sched : List Act) (s : Sys α)
    (h : Sys.run (init streams closes demand) sched = some s) : ∀ v ∈ s.out, P v := by
  have := runWith_preserves Sys.step (fun _ => True) (fun t => t.AllIn P)
    (fun a t t' _ ht hstep => Sys.step_allIn P a t t' ht hstep)
    sched _ s (fun _ _ => trivial)
    ⟨by simp [init], by simp [init, PC.values], by simpa [init] using hP⟩ h
  exact this.1

end GoConc.Bridge

namespace GoConc.WardClosure

/-- C17. For every list `pre ++ neg :: post` whose first negative value is
`neg`: every generation of the ward, whatever its schedule and the moment it is
cancelled, sends on its `intStream` an initial segment of `pre`; and over any
sequence of sub-streams that carry what generations sent, every value that
`Bridge` delivers on the bridged `intStream` is an element of `pre`. -/
theorem bridged_values_precede_negative (pre post : List Int) (neg : Int)
    (hpre : ∀ x ∈ pre, 0 ≤ x) (hneg : neg < 0) :
    (∀ pulseInterval sched g, run pulseInterval (pre ++ neg :: post) sched = some g →
      g.emitted <+: pre) ∧
    (∀ streams : List (Upstream Int),
      (∀ st ∈ streams, ∃ pulseInterval sched g,
        run pulseInterval (pre ++ neg :: post) sched = some g ∧ st.pending = g.emitted) →
      ∀ closes demand bsched s,
        Bridge.Sys.run (Bridge.init streams closes demand) bsched = some s →
        ∀ v ∈ s.out, v ∈ pre ∧ 0 ≤ v) := by
  refine ⟨fun pi sched g h => emitted_before_negative pi pre post neg hneg sched g h, ?_⟩
  intro streams hst closes demand bsched s hrun
  refine Bridge.out_of_streams (fun v => v ∈ pre ∧ 0 ≤ v) streams closes demand ?_ bsched s hrun
  intro st hmem v hv
  obtain ⟨pi, sched, g, hg, he⟩ := hst st hmem
  rw [he] at hv
  have hpref := emitted_before_negative pi pre post neg hneg sched g hg
  have : v ∈ pre := hpref.subset hv
  exact ⟨this, hpre v this⟩

/-- C17 on `TestWardClosure`: of `1, 2, -1, 3, 4, 5` only `1` and `2` are
received. -/
theorem bridged_values_precede_negative_witness :
    (∀ x ∈ ([1, 2] : List Int), 0 ≤ x) ∧ (-1 : Int) < 0 ∧
    testList = [1, 2] ++ (-1) :: [3, 4, 5] ∧
    ((∀ pulseInterval sched g, run pulseInterval ([1, 2] ++ (-1) :: [3, 4, 5]) sched = some g →
      g.emitted <+: [1, 2]) ∧
    (∀ streams : List (Upstream Int),
      (∀ st ∈ streams, ∃ pulseInterval sched g,
        run pulseInterval ([1, 2] ++ (-1) :: [3, 4, 5]) sched = some g ∧
          st.pending = g.emitted) →
      ∀ closes demand bsched s,
        Bridge.Sys.run (Bridge.init streams closes demand) bsched = some s →
        ∀ v ∈ s.out, v ∈ ([1, 2] : List Int) ∧ 0 ≤ v)) :=
  ⟨by decide, by decide, rfl,
   bridged_values_precede_negative [1, 2] [3, 4, 5] (-1) (by decide) (by decide)⟩

end GoConc.WardClosure

namespace GoConc.Stage

variable {α : Type}

/-- One more value of the endless repetition. -/
theorem cycle_succ (values : List α) (n : Nat) :
    cycle values (n + 1) = cycle values n ++ [values[n % values.length]?] := by
  simp [cycle, List.range_succ]

theorem cycle_length (values : List α) (n : Nat) : (cycle values n).length = n := by
  simp [cycle]

/-- The head of what is left of a list is the element at the position
reached. -/
theorem drop_head (values : List α) (p : Nat) (v : α) (rest : List α)
    (h : values.drop p = v :: rest) :
    p < values.length ∧ values[p]? = some v ∧ values.drop (p + 1) = rest := by
  have hlt : p < values.length := by
    by_contra hge
    rw [List.drop_eq_nil_of_le (by omega)] at h
    cases h
  refine ⟨hlt, ?_, ?_⟩
  · have := List.getElem?_drop (L := values) (i := p) (j := 0)
    rw [h] at this
    simpa using this.symm
  · have : values.drop (p + 1) = (values.drop p).drop 1 := by
      rw [List.drop_drop]
    rw [this, h]
    rfl

end GoConc.Stage

namespace GoConc.Stage

variable {α : Type}

/-- While `done` is open every step of `Take` over `Repeat` keeps the
invariant `Cycling` and uses up fuel. -/
theorem TakeRepeat.step_cycling (values : List α) (n : Nat) (hv : values ≠ []) (a : Act)
    (s s' : TakeRepeat α) (ha : a ≠ Act.closeDone) (hinv : s.Cycling values n)
    (h : TakeRepeat.step values n a s = some s') :
    s'.Cycling values n ∧ s'.fuel n < s.fuel n := by
  obtain ⟨rep, take, dc, out, demand⟩ := s
  obtain ⟨h1, hrep, ⟨p, hp1, hp2, hp3⟩, h3, h4, h5⟩ := hinv
  simp only at h1 hrep hp2 hp3 h3 h4 h5
  subst h1
  have hL : 0 < values.length := List.length_pos.mpr hv
  cases a with
  | closeDone => exact absurd rfl ha
  | rep b =>
    cases b with
    | send => simp [TakeRepeat.step] at h
    | done =>
      cases rep <;> simp [TakeRepeat.step, Repeat] at h
    | next =>
      cases rep with
      | range rest =>
        cases rest with
        | nil =>
          simp only [TakeRepeat.step, Repeat, Option.some.injEq] at h
          subst h
          simp only [RepeatPC.ahead] at hp2
          have hpL : p = values.length := by
            have := congrArg List.length hp2
            simp only [List.length_nil, List.length_drop] at this
            omega
          refine ⟨⟨rfl, by simp, ⟨0, by omega, by simp [RepeatPC.ahead], ?_⟩, h3, h4, h5⟩, ?_⟩
          · simp only [TakeRepeat.taken] at hp3 ⊢
            rw [← hp3, hpL]
            simp
          · cases values with
            | nil => exact absurd rfl hv
            | cons v vs =>
              simp only [TakeRepeat.fuel, TakeRepeat.taken]
              omega
        | cons v rest =>
          simp only [TakeRepeat.step, Repeat, Option.some.injEq] at h
          subst h
          refine ⟨⟨rfl, by simp, ⟨p, hp1, by simpa [RepeatPC.ahead] using hp2, hp3⟩, h3, h4,
            h5⟩, ?_⟩
          simp only [TakeRepeat.fuel, TakeRepeat.taken]
          omega
      | send v rest => simp [TakeRepeat.step, Repeat] at h
      | returned => exact absurd rfl hrep
  | handoff =>
    cases rep with
    | send v rest =>
      cases take with
      | head i =>
        by_cases hi : i < (n : Int)
        · simp only [TakeRepeat.step, Repeat, if_true, Take, hi, Option.some.injEq] at h
          subst h
          simp only [RepeatPC.ahead] at hp2
          obtain ⟨d1, d2, d3⟩ := drop_head values p v rest hp2.symm
          simp only [TakeRepeat.taken] at hp3
          obtain ⟨hi1, hi2⟩ := h4
          have hlt : out.length < n := by omega
          have hpm : p = out.length % values.length := by
            rw [← hp3]
            exact (Nat.mod_eq_of_lt d1).symm
          refine ⟨⟨rfl, by simp, ⟨p + 1, by omega, by simp [RepeatPC.ahead, d3], ?_⟩, h3,
            ⟨hi1, hlt, by rw [← hpm, d2]⟩, h5⟩, ?_⟩
          · simp only [TakeRepeat.taken]
            rw [Nat.add_mod p 1, Nat.add_mod out.length 1, hp3]
          · simp only [TakeRepeat.fuel, TakeRepeat.taken]
            cases rest <;> simp only <;> omega
        · simp [TakeRepeat.step, Repeat, Take, hi] at h
      | sel i w => simp [TakeRepeat.step, Repeat, Take] at h
      | returned => simp [TakeRepeat.step, Repeat, Take] at h
    | range rest => cases rest <;> simp [TakeRepeat.step, Repeat] at h
    | returned => exact absurd rfl hrep
  | take b =>
    cases b with
    | recv =>
      cases rep with
      | returned => exact absurd rfl hrep
      | range rest => simp [TakeRepeat.step] at h
      | send v rest => simp [TakeRepeat.step] at h
    | done =>
      cases take <;> simp [TakeRepeat.step, Take] at h
    | exit =>
      cases take with
      | head i =>
        by_cases hi : i < (n : Int)
        · simp [TakeRepeat.step, Take, hi] at h
        · simp only [TakeRepeat.step, Take, hi, if_false, Option.some.injEq] at h
          subst h
          obtain ⟨hi1, hi2⟩ := h4
          refine ⟨⟨rfl, hrep, ⟨p, hp1, hp2, by simpa [TakeRepeat.taken] using hp3⟩, h3,
            by simp only; omega, h5⟩, ?_⟩
          simp only [TakeRepeat.fuel, TakeRepeat.taken]
          omega
      | sel i w => simp [TakeRepeat.step, Take] at h
      | returned => simp [TakeRepeat.step, Take] at h
    | send =>
      cases take with
      | sel i w =>
        by_cases hdem : 0 < demand
        · simp only [TakeRepeat.step, Take, hdem, decide_True, if_true,
            Option.some.injEq] at h
          subst h
          obtain ⟨hi1, hi2, hi3⟩ := h4
          refine ⟨⟨rfl, hrep, ⟨p, hp1, hp2, by simpa [TakeRepeat.taken] using hp3⟩, ?_,
            ⟨by simp only [List.length_append, List.length_singleton]; push_cast; omega,
             by simp only [List.length_append, List.length_singleton]; omega⟩, ?_⟩, ?_⟩
          · simp only [List.length_append, List.length_singleton]
            rw [cycle_succ, ← h3, hi3]
          · simp only [List.length_append, List.length_singleton]
            omega
          · simp only [TakeRepeat.fuel, TakeRepeat.taken, List.length_append,
              List.length_singleton]
            omega
        · simp [TakeRepeat.step, Take, hdem] at h
      | head i => simp [TakeRepeat.step, Take] at h
      | returned => simp [TakeRepeat.step, Take] at h

end GoConc.Stage

namespace GoConc.Stage

variable {α : Type}

/-- Under the invariant `Cycling`, as long as `Take` has not returned some
step other than the closing of `done` is enabled. -/
theorem TakeRepeat.progress_cycling (values : List α) (n : Nat) (s : TakeRepeat α)
    (hinv : s.Cycling values n) (hpc : s.take ≠ TakePC.returned) :
    ∃ a s', a ≠ Act.closeDone ∧ TakeRepeat.step values n a s = some s' := by
  obtain ⟨rep, take, dc, out, demand⟩ := s
  obtain ⟨h1, hrep, _, _, h4, h5⟩ := hinv
  simp only at h1 hrep h4 h5 hpc
  subst h1
  cases take with
  | head i =>
    by_cases hi : i < (n : Int)
    · cases rep with
      | range rest =>
        cases rest with
        | nil => exact ⟨Act.rep RepeatBranch.next, _, by simp, by simp [TakeRepeat.step, Repeat]; rfl⟩
        | cons v rest =>
          exact ⟨Act.rep RepeatBranch.next, _, by simp, by simp [TakeRepeat.step, Repeat]; rfl⟩
      | send v rest =>
        exact ⟨Act.handoff, _, by simp, by simp [TakeRepeat.step, Repeat, Take, hi]; rfl⟩
      | returned => exact absurd rfl hrep
    · exact ⟨Act.take TakeBranch.exit, _, by simp, by simp [TakeRepeat.step, Take, hi]; rfl⟩
  | sel i w =>
    obtain ⟨_, hi2, _⟩ := h4
    have hdem : 0 < demand := by omega
    exact ⟨Act.take TakeBranch.send, _, by simp, by simp [TakeRepeat.step, Take, hdem]; rfl⟩
  | returned => exact absurd rfl hpc

/-- The invariant `Cycling` holds at the start. -/
theorem TakeRepeat.init_cycling (values : List α) (n demand : Nat) (hd : n ≤ demand) :
    (TakeRepeat.init values demand).Cycling values n := by
  refine ⟨rfl, by simp [TakeRepeat.init], ⟨0, by omega, by simp [TakeRepeat.init, RepeatPC.ahead],
    by simp [TakeRepeat.init, TakeRepeat.taken]⟩, by simp [TakeRepeat.init, cycle], ?_, ?_⟩
  · simp [TakeRepeat.init]
  · simpa [TakeRepeat.init] using hd

/-- C18. For every list `values` that is not empty and every `n`, with
`done` never closed and a reader that keeps receiving: in every run of
`Take(done, Repeat(done, values...), n)` the values delivered so far are the
first of the endless repetition of `values` (the `i`-th is `values[i mod
len(values)]`), at most `n` of them; a `Take` that has returned (closing its
output) has delivered exactly `n`; a `Take` that has not returned is never
stuck; no run is longer than `5 * n + 2` steps; and some run returns. -/
theorem take_of_repeat (values : List α) (n demand : Nat) (hv : values ≠ [])
    (hd : n ≤ demand) :
    (∀ sched s, Act.closeDone ∉ sched → TakeRepeat.run values n demand sched = some s →
      s.out = cycle values s.out.length ∧ s.out.length ≤ n ∧
      (s.take = TakePC.returned → s.out = cycle values n) ∧
      (s.take ≠ TakePC.returned →
        ∃ a s', a ≠ Act.closeDone ∧ TakeRepeat.step values n a s = some s') ∧
      sched.length ≤ 5 * n + 2) ∧
    (∃ sched s, Act.closeDone ∉ sched ∧ TakeRepeat.run values n demand sched = some s ∧
      s.take = TakePC.returned ∧ s.out = cycle values n) ∧
    (∀ i, i < n → ∃ v, (cycle values n)[i]? = some (some v) ∧
      values[i % values.length]? = some v) := by
  have hL : 0 < values.length := List.length_pos.mpr hv
  have hret : ∀ s : TakeRepeat α, s.Cycling values n → s.take = TakePC.returned →
      s.out = cycle values n := by
    intro s hs hpc
    obtain ⟨_, _, _, h3, h4, _⟩ := hs
    rw [hpc] at h4
    simp only at h4
    rw [h3, h4]
  have hlen : ∀ s : TakeRepeat α, s.Cycling values n → s.out.length ≤ n := by
    intro s hs
    obtain ⟨_, _, _, _, h4, _⟩ := hs
    cases htk : s.take with
    | head i => rw [htk] at h4; exact h4.2
    | sel i w => rw [htk] at h4; exact Nat.le_of_lt h4.2.1
    | returned => rw [htk] at h4; exact Nat.le_of_eq h4
  refine ⟨?_, ?_, ?_⟩
  · intro sched s hsched hrun
    have hall : ∀ a ∈ sched, a ≠ Act.closeDone := fun a ha he => hsched (he ▸ ha)
    obtain ⟨hinv, hfuel⟩ := runWith_invariant (TakeRepeat.step values n)
      (fun a => a ≠ Act.closeDone) (fun t => t.Cycling values n) (fun t => t.fuel n)
      (fun a t t' ha ht hstep => TakeRepeat.step_cycling values n hv a t t' ha ht hstep)
      sched _ s hall (TakeRepeat.init_cycling values n demand hd) hrun
    refine ⟨hinv.2.2.2.1, hlen s hinv, hret s hinv, TakeRepeat.progress_cycling values n s hinv,
      ?_⟩
    have hinit : (TakeRepeat.init values demand).fuel n ≤ 5 * n + 2 := by
      cases values with
      | nil => exact absurd rfl hv
      | cons v vs =>
        simp only [TakeRepeat.init, TakeRepeat.fuel, TakeRepeat.taken, List.length_nil]
        omega
    omega
  · obtain ⟨sched, s, hall, hrun, hfin, hinv⟩ :=
      runWith_reaches (TakeRepeat.step values n) (fun a => a ≠ Act.closeDone)
        (fun t => t.Cycling values n) (fun t => t.take = TakePC.returned) (fun t => t.fuel n)
        (fun a t t' ha ht hstep => TakeRepeat.step_cycling values n hv a t t' ha ht hstep)
        (fun t ht hpc => TakeRepeat.progress_cycling values n t ht hpc)
        _ _ (le_refl _) (TakeRepeat.init_cycling values n demand hd)
    exact ⟨sched, s, fun hmem => hall _ hmem rfl, hrun, hfin, hret s hinv hfin⟩
  · intro i hi
    have hlt : i % values.length < values.length := Nat.mod_lt _ hL
    refine ⟨values[i % values.length], ?_, ?_⟩
    · simp [cycle, hi, List.getElem?_eq_getElem hlt]
    · exact List.getElem?_eq_getElem hlt

/-- C18 on `TestToString`: five values of the repetition of "I", "am." make
up "Iam.Iam.I". -/
theorem take_of_repeat_witness :
    testTokens ≠ [] ∧ 5 ≤ 5 ∧
    cycle testTokens 5 = [some "I", some "am.", some "I", some "am.", some "I"] ∧
    String.join ((cycle testTokens 5).filterMap id) = "Iam.Iam.I" ∧
    ((∀ sched s, Act.closeDone ∉ sched → TakeRepeat.run testTokens 5 5 sched = some s →
      s.out = cycle testTokens s.out.length ∧ s.out.length ≤ 5 ∧
      (s.take = TakePC.returned → s.out = cycle testTokens 5) ∧
      (s.take ≠ TakePC.returned →
        ∃ a s', a ≠ Act.closeDone ∧ TakeRepeat.step testTokens 5 a s = some s') ∧
      sched.length ≤ 5 * 5 + 2) ∧
    (∃ sched s, Act.closeDone ∉ sched ∧ TakeRepeat.run testTokens 5 5 sched = some s ∧
      s.take = TakePC.returned ∧ s.out = cycle testTokens 5) ∧
    (∀ i, i < 5 → ∃ v, (cycle testTokens 5)[i]? = some (some v) ∧
      testTokens[i % testTokens.length]? = some v)) :=
  ⟨by decide, by decide, by decide, by decide,
   take_of_repeat testTokens 5 5 (by decide) (by decide)⟩

end GoConc.Stage

namespace GoConc.Tee

variable {α : Type}

/-- While `done` is open every step of `tee` keeps the invariant `Split` and
uses up fuel. -/
theorem Sys.step_split (vs : List α) (a : Act) (s s' : Sys α) (ha : a ≠ Act.closeDone)
    (hinv : s.Split vs) (h : Sys.step a s = some s') :
    s'.Split vs ∧ s'.pc.fuel < s.pc.fuel := by
  obtain ⟨pc, dc, out1, out2, demand1, demand2⟩ := s
  obtain ⟨h1, h2, h3, h4, h5, h6⟩ := hinv
  simp only at h1 h2 h3 h4 h5 h6
  subst h1
  cases a with
  | closeDone => exact absurd rfl ha
  | orDone b =>
    cases pc with
    | rangeOrDone g =>
      simp only [Sys.step] at h
      cases hg : OrDone.step false true b g with
      | none => simp [hg] at h
      | some r =>
        obtain ⟨g', o⟩ := r
        obtain ⟨e1, e2, e3, _⟩ := OrDone.goroutine_step_open true b g g' o hg
        cases o with
        | none =>
          simp only [hg, Option.some.injEq] at h
          subst h
          simp only [Option.toList, List.nil_append] at e2
          simp only [PC.rest] at h3 h4 h5 h6
          refine ⟨⟨rfl, by simpa [e1] using h2, by simpa [PC.rest, e2] using h3,
            by simpa [PC.rest, e2] using h4, by simpa [PC.rest, e2] using h5,
            by simpa [PC.rest, e2] using h6⟩, ?_⟩
          simp only [PC.fuel, e2]
          omega
        | some v =>
          simp only [hg, Option.some.injEq] at h
          subst h
          simp only [Option.toList, List.singleton_append] at e2
          simp only [PC.rest] at h3 h4 h5 h6
          refine ⟨⟨rfl, ⟨by simpa [e1] using h2, Or.inl rfl⟩, by simpa [PC.rest, e2] using h3,
            by simpa [PC.rest, e2] using h4, by simpa [PC.rest, e2] using h5,
            by simpa [PC.rest, e2] using h6⟩, ?_⟩
          simp only [PC.fuel, ← e2, List.length_cons, if_true]
          omega
    | sel v o1 o2 g =>
      simp only [Sys.step] at h
      cases hg : OrDone.step false false b g with
      | none => simp [hg] at h
      | some r =>
        obtain ⟨g', o⟩ := r
        obtain ⟨e1, e2, e3, e4⟩ := OrDone.goroutine_step_open false b g g' o hg
        cases o with
        | some w => simp at e4
        | none =>
          simp only [hg, Option.some.injEq] at h
          subst h
          simp only [Option.toList, List.nil_append] at e2
          simp only [PC.rest] at h3 h4 h5 h6
          refine ⟨⟨rfl, ⟨by simpa [e1] using h2.1, h2.2⟩, by simpa [PC.rest, e2] using h3,
            by simpa [PC.rest, e2] using h4, by simpa [PC.rest, e2] using h5,
            by simpa [PC.rest, e2] using h6⟩, ?_⟩
          simp only [PC.fuel, e2]
          omega
    | returned => simp [Sys.step] at h
  | orDoneClosed =>
    cases pc with
    | rangeOrDone g =>
      obtain ⟨gpc, gc⟩ := g
      cases gpc with
      | returned =>
        simp only [Sys.step, OrDone.PC.isReturned, if_true, Option.some.injEq] at h
        subst h
        simp only [PC.rest, OrDone.Goroutine.rest] at h3 h4
        refine ⟨⟨rfl, trivial, by simpa [PC.rest] using h3, by simpa [PC.rest] using h4,
          by simp [PC.rest], by simp [PC.rest]⟩, ?_⟩
        simp [PC.fuel]
      | outer => simp [Sys.step, OrDone.PC.isReturned] at h
      | inner v => simp [Sys.step, OrDone.PC.isReturned] at h
    | sel v o1 o2 g => simp [Sys.step] at h
    | returned => simp [Sys.step] at h
  | selDone =>
    cases pc <;> simp [Sys.step] at h
  | send1 =>
    cases pc with
    | sel v o1 o2 g =>
      cases o1 with
      | false => simp [Sys.step] at h
      | true =>
        by_cases hdem : 0 < demand1
        · simp only [Sys.step, hdem, if_true, Option.some.injEq] at h
          subst h
          simp only [PC.rest, if_true, List.singleton_append, List.length_cons] at h3 h5
          cases o2 with
          | true =>
            simp only [PC.rest, if_true, List.singleton_append] at h4 h6
            refine ⟨⟨rfl, ⟨h2.1, Or.inr rfl⟩, by simpa [PC.rest] using h3,
              by simpa [PC.rest] using h4, by simp only [PC.rest, if_true]; simp; omega,
              by simpa [PC.rest] using h6⟩, ?_⟩
            simp [PC.fuel]
          | false =>
            simp only [PC.rest, Bool.false_eq_true, if_false, List.nil_append] at h4 h6
            refine ⟨⟨rfl, h2.1, by simpa [PC.rest] using h3, by simpa [PC.rest] using h4,
              by simp only [PC.rest, Bool.false_eq_true, if_false]; omega,
              by simpa [PC.rest] using h6⟩, ?_⟩
            simp [PC.fuel]
        · simp [Sys.step, hdem] at h
    | rangeOrDone g => simp [Sys.step] at h
    | returned => simp [Sys.step] at h
  | send2 =>
    cases pc with
    | sel v o1 o2 g =>
      cases o2 with
      | false => simp [Sys.step] at h
      | true =>
        by_cases hdem : 0 < demand2
        · simp only [Sys.step, hdem, if_true, Option.some.injEq] at h
          subst h
          simp only [PC.rest, if_true, List.singleton_append, List.length_cons,
            Bool.false_eq_true, if_false] at h4 h6
          cases o1 with
          | true =>
            simp only [PC.rest, if_true, List.singleton_append] at h3 h5
            refine ⟨⟨rfl, ⟨h2.1, Or.inl rfl⟩, by simpa [PC.rest] using h3,
              by simpa [PC.rest] using h4, by simpa [PC.rest] using h5,
              by simp only [PC.rest, if_true]; simp; omega⟩, ?_⟩
            simp [PC.fuel]
          | false =>
            simp only [PC.rest, Bool.false_eq_true, if_false, List.nil_append] at h3 h5
            refine ⟨⟨rfl, h2.1, by simpa [PC.rest] using h3, by simpa [PC.rest] using h4,
              by simpa [PC.rest] using h5,
              by simp only [PC.rest, Bool.false_eq_true, if_false]; omega⟩, ?_⟩
            simp [PC.fuel]
        · simp [Sys.step, hdem] at h
    | rangeOrDone g => simp [Sys.step] at h
    | returned => simp [Sys.step] at h

end GoConc.Tee

namespace GoConc.Tee

variable {α : Type}

/-- Under the invariant `Split`, a `tee` that has not returned is never
stuck. -/
theorem Sys.progress_split (vs : List α) (s : Sys α) (hinv : s.Split vs)
    (hpc : s.pc ≠ PC.returned) :
    ∃ a s', a ≠ Act.closeDone ∧ Sys.step a s = some s' := by
  obtain ⟨pc, dc, out1, out2, demand1, demand2⟩ := s
  obtain ⟨h1, h2, h3, h4, h5, h6⟩ := hinv
  simp only at h1 h2 h3 h4 h5 h6 hpc
  subst h1
  cases pc with
  | rangeOrDone g =>
    cases hret : g.pc.isReturned with
    | true => exact ⟨Act.orDoneClosed, _, by simp, by simp [Sys.step, hret]; rfl⟩
    | false =>
      obtain ⟨b, r, hr⟩ := OrDone.goroutine_progress_open g h2 hret
      obtain ⟨g', o⟩ := r
      cases o with
      | none => exact ⟨Act.orDone b, _, by simp, by simp [Sys.step, hr]; rfl⟩
      | some v => exact ⟨Act.orDone b, _, by simp, by simp [Sys.step, hr]; rfl⟩
  | sel v o1 o2 g =>
    cases o1 with
    | true =>
      have hdem : 0 < demand1 := by
        simp [PC.rest] at h5
        omega
      exact ⟨Act.send1, _, by simp, by simp [Sys.step, hdem]; rfl⟩
    | false =>
      have ho2 : o2 = true := by
        rcases h2.2 with h | h
        · cases h
        · exact h
      subst ho2
      have hdem : 0 < demand2 := by
        simp [PC.rest] at h6
        omega
      exact ⟨Act.send2, _, by simp, by simp [Sys.step, hdem]; rfl⟩
  | returned => exact absurd rfl hpc

/-- The goroutine of `OrDone` holds at most one value. -/
theorem rest_le_pending (g : OrDone.Goroutine α) : g.rest.length ≤ g.c.pending.length + 1 := by
  obtain ⟨pc, c⟩ := g
  cases pc <;> simp [OrDone.Goroutine.rest]

/-- Under `Split` each output lags at most two values behind the input. -/
theorem Sys.split_lag (vs : List α) (s : Sys α) (hinv : s.Split vs) :
    vs.length ≤ s.out1.length + s.pc.pending.length + 2 ∧
    vs.length ≤ s.out2.length + s.pc.pending.length + 2 := by
  obtain ⟨pc, dc, out1, out2, demand1, demand2⟩ := s
  obtain ⟨_, _, h3, h4, _, _⟩ := hinv
  simp only at h3 h4
  have l3 := congrArg List.length h3
  have l4 := congrArg List.length h4
  simp only [List.length_append] at l3 l4
  cases pc with
  | rangeOrDone g =>
    have := rest_le_pending g
    simp only [PC.rest, PC.pending] at l3 l4 ⊢
    omega
  | sel v o1 o2 g =>
    have := rest_le_pending g
    simp only [PC.rest, PC.pending, List.length_append] at l3 l4 ⊢
    cases o1 <;> cases o2 <;> simp at l3 l4 <;> omega
  | returned =>
    simp only [PC.rest, PC.pending, List.length_nil] at l3 l4 ⊢
    omega

/-- C19, as stated, fails.  Over the input `1, 2`: after `tee` has taken
`1` and before it has sent it to either output, the goroutine of `OrDone(done,
in)` takes `2` off the input; in the state `ahead` the input has handed over
both values while `out1` and `out2` have received nothing. -/
theorem tee_input_taken_ahead :
    Sys.run (init [1, 2] true 2 2)
      [Act.orDone OrDone.Branch.recv, Act.orDone OrDone.Branch.send,
       Act.orDone OrDone.Branch.recv] = some ahead ∧
    ahead.pc.pending = [] ∧ ahead.out1 = [] ∧ ahead.out2 = [] := by
  refine ⟨by decide, rfl, rfl, rfl⟩

/-- C19, amended.  With `done` never closed, an input that hands over `vs`
and is closed, and readers of `out1` and `out2` that keep receiving: in every
run each output has received an initial segment of `vs`; a `tee` that has
returned (closing both outputs) has delivered exactly `vs` on each; whenever
the loop of `tee` waits for its next value from `OrDone`, both outputs have
received the same values, all those taken so far; the input has handed over at
most two values more than either output has received; a `tee` that has not
returned is never stuck; no run is longer than `4 * vs.length + 2` steps; and
some run returns. -/
theorem tee_delivers_both (vs : List α) (demand1 demand2 : Nat) (hd1 : vs.length ≤ demand1)
    (hd2 : vs.length ≤ demand2) :
    (∀ sched s, Act.closeDone ∉ sched →
      Sys.run (init vs true demand1 demand2) sched = some s →
      s.out1 <+: vs ∧ s.out2 <+: vs ∧
      (s.pc = PC.returned → s.out1 = vs ∧ s.out2 = vs) ∧
      (∀ g, s.pc = PC.rangeOrDone g → s.out1 = s.out2 ∧ s.out1 ++ g.rest = vs) ∧
      vs.length ≤ s.out1.length + s.pc.pending.length + 2 ∧
      vs.length ≤ s.out2.length + s.pc.pending.length + 2 ∧
      (s.pc ≠ PC.returned → ∃ a s', a ≠ Act.closeDone ∧ Sys.step a s = some s') ∧
      sched.length ≤ 4 * vs.length + 2) ∧
    (∃ sched s, Act.closeDone ∉ sched ∧
      Sys.run (init vs true demand1 demand2) sched = some s ∧
      s.pc = PC.returned ∧ s.out1 = vs ∧ s.out2 = vs) := by
  have hinit : (init vs true demand1 demand2).Split vs := by
    refine ⟨rfl, rfl, ?_, ?_, ?_, ?_⟩ <;>
      simp [init, PC.rest, OrDone.spawn, OrDone.Goroutine.rest, hd1, hd2]
  have hret : ∀ s : Sys α, s.Split vs → s.pc = PC.returned → s.out1 = vs ∧ s.out2 = vs := by
    intro s hs hpc
    obtain ⟨_, _, h3, h4, _, _⟩ := hs
    rw [hpc] at h3 h4
    exact ⟨by simpa [PC.rest] using h3, by simpa [PC.rest] using h4⟩
  constructor
  · intro sched s hsched hrun
    have hall : ∀ a ∈ sched, a ≠ Act.closeDone := fun a ha he => hsched (he ▸ ha)
    obtain ⟨hinv, hfuel⟩ := runWith_invariant Sys.step (fun a => a ≠ Act.closeDone)
      (fun t => t.Split vs) (fun t => t.pc.fuel) (Sys.step_split vs) sched _ s hall hinit hrun
    obtain ⟨l1, l2⟩ := Sys.split_lag vs s hinv
    refine ⟨⟨_, hinv.2.2.1⟩, ⟨_, hinv.2.2.2.1⟩, hret s hinv, ?_, l1, l2,
      Sys.progress_split vs s hinv, ?_⟩
    · intro g hg
      have h3 := hinv.2.2.1
      have h4 := hinv.2.2.2.1
      rw [hg] at h3 h4
      simp only [PC.rest] at h3 h4
      exact ⟨List.append_cancel_right (h3.trans h4.symm), h3⟩
    · have : (init vs true demand1 demand2).pc.fuel = 4 * vs.length + 2 := by
        simp [init, PC.fuel, OrDone.spawn, OrDone.Goroutine.rest, OrDone.Goroutine.fuel]
        omega
      omega
  · obtain ⟨sched, s, hall, hrun, hfin, hinv⟩ :=
      runWith_reaches Sys.step (fun a => a ≠ Act.closeDone) (fun t => t.Split vs)
        (fun t => t.pc = PC.returned) (fun t => t.pc.fuel) (Sys.step_split vs)
        (fun t ht hpc => Sys.progress_split vs t ht hpc) _ _ (le_refl _) hinit
    exact ⟨sched, s, fun hmem => hall _ hmem rfl, hrun, hfin, hret s hinv hfin⟩

/-- C19, amended, on `TestTee`: the input `1, 2, 1, 2` that `Take(done,
Repeat(done, 1, 2), 4)` hands over. -/
theorem tee_delivers_both_witness :
    [1, 2, 1, 2].length ≤ 4 ∧
    ((∀ sched s, Act.closeDone ∉ sched →
      Sys.run (init [1, 2, 1, 2] true 4 4) sched = some s →
      s.out1 <+: [1, 2, 1, 2] ∧ s.out2 <+: [1, 2, 1, 2] ∧
      (s.pc = PC.returned → s.out1 = [1, 2, 1, 2] ∧ s.out2 = [1, 2, 1, 2]) ∧
      (∀ g, s.pc = PC.rangeOrDone g → s.out1 = s.out2 ∧ s.out1 ++ g.rest = [1, 2, 1, 2]) ∧
      [1, 2, 1, 2].length ≤ s.out1.length + s.pc.pending.length + 2 ∧
      [1, 2, 1, 2].length ≤ s.out2.length + s.pc.pending.length + 2 ∧
      (s.pc ≠ PC.returned → ∃ a s', a ≠ Act.closeDone ∧ Sys.step a s = some s') ∧
      sched.length ≤ 4 * [1, 2, 1, 2].length + 2) ∧
    (∃ sched s, Act.closeDone ∉ sched ∧
      Sys.run (init [1, 2, 1, 2] true 4 4) sched = some s ∧
      s.pc = PC.returned ∧ s.out1 = [1, 2, 1, 2] ∧ s.out2 = [1, 2, 1, 2])) :=
  ⟨by decide, tee_delivers_both [1, 2, 1, 2] 4 4 (by decide) (by decide)⟩

end GoConc.Tee

namespace GoConc.RateLimiting

/-- C20 fails on the code for a limit that is NaN.  `<` is false against
NaN, so for limiters with the limits 2, NaN and 1 the insertion sort of
`sort.Slice` swaps nothing: `MultiLimiter` stores them in the order given and
`Limit()` returns 2, although the third limiter has the smaller limit 1.  On
the two limiters of `Open` the sort does put `minuteLimiter` first and
`Limit()` returns its limit. -/
theorem multiLimiter_nan_not_min :
    (MultiLimiter withNaN).limiters = withNaN ∧
    (MultiLimiter withNaN).Limit = some (Limit.num 2) ∧
    (∃ l ∈ withNaN, l.Limit = Limit.num 1 ∧ l.Limit.lt (Limit.num 2) = true) ∧
    (MultiLimiter [secondLimiter, minuteLimiter]).limiters = [minuteLimiter, secondLimiter] ∧
    (MultiLimiter [secondLimiter, minuteLimiter]).Limit = some minuteLimiter.Limit := by
  have h1 : (MultiLimiter withNaN).limiters = withNaN := by
    simp [MultiLimiter, sortSlice, insertDown, byLimit, Limit.lt, withNaN]
  have h2 : (MultiLimiter [secondLimiter, minuteLimiter]).limiters =
      [minuteLimiter, secondLimiter] := by
    simp [MultiLimiter, sortSlice, insertDown, byLimit, Limit.lt, secondLimiter, minuteLimiter]
    norm_num
  refine ⟨h1, ?_, ⟨{ name := 2, Limit := Limit.num 1 }, by simp [withNaN], rfl, ?_⟩, h2, ?_⟩
  · unfold multiLimiter.Limit
    rw [h1]
    simp [withNaN]
  · simp [Limit.lt]
  · unfold multiLimiter.Limit
    rw [h2]
    simp

end GoConc.RateLimiting

namespace GoConc.OrChan

/-- With three channels or more, `Or` makes `orDone`, starts the goroutine
that waits on the first three channels and on what the recursive call returns,
and the recursive call is made on `recursiveArgs`. -/
theorem Or_recursive (next : Nat) (channels : List Chan) (h : 3 ≤ channels.length) :
    Or next channels =
      { ret := some next,
        nodes := { orDone := next,
                   waits := channels.take 3 ++ [(Or (next + 1) (recursiveArgs next channels)).ret] } ::
          (Or (next + 1) (recursiveArgs next channels)).nodes,
        next := (Or (next + 1) (recursiveArgs next channels)).next } := by
  match channels, h with
  | c0 :: c1 :: c2 :: more, _ =>
    rw [Or_more]
    simp [recursiveArgs]

/-- The number of goroutines and of channels that `Or` makes. -/
theorem Or_nodes_length (next : Nat) (channels : List Chan) :
    (Or next channels).nodes.length = channels.length / 2 ∧
    (Or next channels).next = next + channels.length / 2 := by
  induction next, channels using Or.induct with
  | case1 next => simp [Or_nil]
  | case2 next c => simp [Or_one]
  | case3 next c0 c1 => simp [Or_two]
  | case4 next c0 c1 c2 more ih =>
    obtain ⟨ih1, ih2⟩ := ih
    rw [Or_more]
    simp only [List.length_cons, List.length_append, List.length_nil] at ih1 ih2 ⊢
    constructor <;> omega

/-- C23. `Or` called with no channel returns the nil channel, a receive
from which is never ready whatever has been closed, and `Or` called with one
channel returns that channel; in both cases `Or` starts no goroutine and makes
no channel. -/
theorem or_base_cases (next : Nat) (c : Chan) (closed : List Nat) :
    (Or next []).ret = none ∧ ready closed (Or next []).ret = false ∧
    (Or next []).nodes = [] ∧ (Or next []).next = next ∧
    (Or next [c]).ret = c ∧ (Or next [c]).nodes = [] ∧ (Or next [c]).next = next := by
  simp [Or_nil, Or_one, ready]

/-- C25 fails on the code.  `Or` called with three channels makes its
recursive call `Or(append(channels[3:], orDone)...)` with one channel, its own
`orDone` (channel 3), not with two as the comment on the recursive case says:
`channels[3:]` is empty.  That call returns `orDone` itself and the goroutine
waits on the three inputs and on its own channel. -/
theorem or_recursive_call_of_three :
    recursiveArgs 3 threeChannels = [some 3] ∧
    ¬ 2 ≤ (recursiveArgs 3 threeChannels).length ∧
    Or 4 (recursiveArgs 3 threeChannels) = { ret := some 3, nodes := [], next := 4 } ∧
    (Or 3 threeChannels).nodes =
      [{ orDone := 3, waits := [some 0, some 1, some 2, some 3] }] := by
  refine ⟨rfl, by decide, by simp [recursiveArgs, threeChannels, Or_one], ?_⟩
  simp [threeChannels, Or_more, Or_one]

/-- The size of the recursive call.  For every call of `Or` with `N`
channels, three or more, the recursive call is made on `append(channels[3:],
orDone)`, which has `N - 2` channels: at least one, the `orDone` passed by
hand, and at least two exactly when `N` is four or more.  With three channels
the recursive call gets `orDone` alone and returns it. -/
theorem or_recursive_call_size (next : Nat) (channels : List Chan)
    (h : 3 ≤ channels.length) :
    Or next channels =
      { ret := some next,
        nodes := { orDone := next,
                   waits := channels.take 3 ++ [(Or (next + 1) (recursiveArgs next channels)).ret] } ::
          (Or (next + 1) (recursiveArgs next channels)).nodes,
        next := (Or (next + 1) (recursiveArgs next channels)).next } ∧
    (recursiveArgs next channels).length = channels.length - 2 ∧
    1 ≤ (recursiveArgs next channels).length ∧
    some next ∈ recursiveArgs next channels ∧
    (2 ≤ (recursiveArgs next channels).length ↔ 4 ≤ channels.length) ∧
    (channels.length = 3 →
      Or (next + 1) (recursiveArgs next channels) =
        { ret := some next, nodes := [], next := next + 1 }) := by
  have hlen : (recursiveArgs next channels).length = channels.length - 2 := by
    simp only [recursiveArgs, List.length_append, List.length_drop, List.length_cons,
      List.length_nil]
    omega
  refine ⟨Or_recursive next channels h, hlen, by omega, by simp [recursiveArgs], by omega, ?_⟩
  intro h3
  have hdrop : channels.drop 3 = [] := List.drop_eq_nil_of_le (by omega)
  simp [recursiveArgs, hdrop, Or_one]

/-- The size of the recursive call on the five channels of `TestOrChannel`:
it is made on the last two inputs and `orDone`. -/
theorem or_recursive_call_size_witness :
    3 ≤ testChannels.length ∧
    (Or 5 testChannels =
      { ret := some 5,
        nodes := { orDone := 5,
                   waits := testChannels.take 3 ++ [(Or (5 + 1) (recursiveArgs 5 testChannels)).ret] } ::
          (Or (5 + 1) (recursiveArgs 5 testChannels)).nodes,
        next := (Or (5 + 1) (recursiveArgs 5 testChannels)).next } ∧
    (recursiveArgs 5 testChannels).length = testChannels.length - 2 ∧
    1 ≤ (recursiveArgs 5 testChannels).length ∧
    some 5 ∈ recursiveArgs 5 testChannels ∧
    (2 ≤ (recursiveArgs 5 testChannels).length ↔ 4 ≤ testChannels.length) ∧
    (testChannels.length = 3 →
      Or (5 + 1) (recursiveArgs 5 testChannels) =
        { ret := some 5, nodes := [], next := 5 + 1 })) :=
  ⟨by decide, or_recursive_call_size 5 testChannels (by decide)⟩

end GoConc.OrChan

namespace GoConc.OrChan

/-- With three channels or more the calls of `Or` are the call itself and
those of the recursive call. -/
theorem calls_recursive (next : Nat) (channels : List Chan) (h : 3 ≤ channels.length) :
    calls next channels = channels :: calls (next + 1) (recursiveArgs next channels) := by
  match channels, h with
  | c0 :: c1 :: c2 :: more, _ =>
    rw [calls]
    simp [recursiveArgs]

/-- The successive calls of `Or` are made on `N`, `N - 2`, `N - 4`, ...
channels, and the last of them on one channel or on two. -/
theorem calls_lengths (next : Nat) (channels : List Chan) (h : 1 ≤ channels.length) :
    (calls next channels).map List.length =
      (List.range ((channels.length + 1) / 2)).map (fun j => channels.length - 2 * j) ∧
    ∃ last, (calls next channels).getLast? = some last ∧ last.length = 2 - channels.length % 2 := by
  induction next, channels using Or.induct with
  | case1 next => simp at h
  | case2 next c => exact ⟨by simp [calls, List.range_succ], [c], by simp [calls], by simp⟩
  | case3 next c0 c1 =>
    exact ⟨by simp [calls, List.range_succ], [c0, c1], by simp [calls], by simp⟩
  | case4 next c0 c1 c2 more ih =>
    obtain ⟨ih1, last, ih2, ih3⟩ := ih (by simp)
    rw [calls]
    simp only [List.length_cons, List.length_append, List.length_nil] at ih1 ih3 ⊢
    constructor
    · have hk : (more.length + 1 + 1 + 1 + 1) / 2 = (more.length + 0 + 1 + 1) / 2 + 1 := by omega
      rw [hk, List.range_succ_eq_map, List.map_cons, List.map_cons, ih1, List.map_map]
      refine congrArg₂ _ (by simp) (List.map_congr_left (fun j _ => ?_))
      simp only [Function.comp]
      omega
    · refine ⟨last, ?_, by omega⟩
      cases hc : calls (next + 1) (more ++ [some next]) with
      | nil => simp [hc] at ih2
      | cons x xs =>
        rw [hc] at ih2
        simpa [List.getLast?_cons_cons] using ih2

/-- C28. For every `N >= 2` input channels, unfolding `Or` in full starts
`N / 2` goroutines and makes as many channels, pairwise different; the
successive calls of `Or` are made on `N`, `N - 2`, `N - 4`, ... channels, each
recursive call on two channels fewer than its caller, and the last call on two
channels or on one. -/
theorem or_unfolds_half (next : Nat) (channels : List Chan) (hN : 2 ≤ channels.length) :
    (Or next channels).nodes.length = channels.length / 2 ∧
    (Or next channels).next = next + channels.length / 2 ∧
    ((Or next channels).nodes.map Node.orDone).Nodup ∧
    (∀ n ∈ (Or next channels).nodes, next ≤ n.orDone ∧ n.orDone < next + channels.length / 2) ∧
    (calls next channels).map List.length =
      (List.range ((channels.length + 1) / 2)).map (fun j => channels.length - 2 * j) ∧
    (∃ last, (calls next channels).getLast? = some last ∧
      (last.length = 2 ∨ last.length = 1)) ∧
    (3 ≤ channels.length →
      calls next channels = channels :: calls (next + 1) (recursiveArgs next channels) ∧
      (recursiveArgs next channels).length = channels.length - 2) := by
  obtain ⟨h1, h2⟩ := Or_nodes_length next channels
  obtain ⟨_, s2, s3, _, _⟩ := Or_shape next channels
  obtain ⟨c1, last, c2, c3⟩ := calls_lengths next channels (by omega)
  refine ⟨h1, h2, s3, ?_, c1, ⟨last, c2, by omega⟩, fun h3 => ⟨calls_recursive next channels h3, ?_⟩⟩
  · intro n hn
    have := s2 n hn
    omega
  · simp only [recursiveArgs, List.length_append, List.length_drop, List.length_cons,
      List.length_nil]
    omega

/-- C28 on the five channels of `TestOrChannel`: two goroutines, the outer
one waiting on the first three inputs and on the channel of the inner one, the
inner one on the last two inputs, on the outer `orDone` and on its own. -/
theorem or_unfolds_half_witness :
    2 ≤ testChannels.length ∧
    (Or 5 testChannels).nodes =
      [{ orDone := 5, waits := [some 0, some 1, some 2, some 6] },
       { orDone := 6, waits := [some 3, some 4, some 5, some 6] }] ∧
    ((Or 5 testChannels).nodes.length = testChannels.length / 2 ∧
    (Or 5 testChannels).next = 5 + testChannels.length / 2 ∧
    ((Or 5 testChannels).nodes.map Node.orDone).Nodup ∧
    (∀ n ∈ (Or 5 testChannels).nodes, 5 ≤ n.orDone ∧ n.orDone < 5 + testChannels.length / 2) ∧
    (calls 5 testChannels).map List.length =
      (List.range ((testChannels.length + 1) / 2)).map (fun j => testChannels.length - 2 * j) ∧
    (∃ last, (calls 5 testChannels).getLast? = some last ∧
      (last.length = 2 ∨ last.length = 1)) ∧
    (3 ≤ testChannels.length →
      calls 5 testChannels = testChannels :: calls (5 + 1) (recursiveArgs 5 testChannels) ∧
      (recursiveArgs 5 testChannels).length = testChannels.length - 2)) :=
  ⟨by decide, by simp [testChannels, Or_more, Or_one],
    or_unfolds_half 5 testChannels (by decide)⟩

end GoConc.OrChan

namespace GoConc.OrChan

/-- The goroutines that `Or` starts over two channels or more form a chain
below the channel that `Or` returns, the first one it makes. -/
theorem Or_chain (next : Nat) (channels : List Chan) (h : 2 ≤ channels.length) :
    (Or next channels).ret = some next ∧ Chain channels next (Or next channels).nodes := by
  induction next, channels using Or.induct with
  | case1 next => simp at h
  | case2 next c => simp at h
  | case3 next c0 c1 =>
    rw [Or_two]
    refine ⟨rfl, ⟨{ orDone := next, waits := [c0, c1] }, by simp, rfl, by simp⟩, ?_, ?_⟩
    · intro k n m hk hm
      simp at hm
    · intro c hc
      exact ⟨0, { orDone := next, waits := [c0, c1] }, by simp, hc⟩
  | case4 next c0 c1 c2 more ih =>
    rw [Or_more]
    have hone : more = [] → (Or (next + 1) (more ++ [some next])).nodes = [] := by
      intro hmore
      subst hmore
      simp [Or_one]
    generalize Or (next + 1) (more ++ [some next]) = sub at ih hone ⊢
    refine ⟨rfl, ⟨{ orDone := next, waits := [c0, c1, c2, sub.ret] }, by simp, rfl, by simp⟩, ?_, ?_⟩
    · intro k n m hk hm
      simp only [List.getElem?_cons_succ] at hm
      have hsub : 2 ≤ (more ++ [some next]).length := by
        by_contra hlt
        have hmore : more = [] := by
          cases more with
          | nil => rfl
          | cons x xs => simp at hlt
        rw [hone hmore] at hm
        simp at hm
      obtain ⟨hret, ⟨n0, hn0, hroot, _⟩, hchain, _⟩ := ih hsub
      cases k with
      | zero =>
        simp only [List.getElem?_cons_zero, Option.some.injEq] at hk
        subst hk
        rw [hn0] at hm
        simp only [Option.some.injEq] at hm
        subst hm
        simp [hret, hroot]
      | succ k =>
        simp only [List.getElem?_cons_succ] at hk
        exact hchain k n m hk hm
    · intro c hc
      simp only [List.mem_cons] at hc
      rcases hc with rfl | rfl | rfl | hc
      · exact ⟨0, { orDone := next, waits := [c, c1, c2, sub.ret] }, by simp, by simp⟩
      · exact ⟨0, { orDone := next, waits := [c0, c, c2, sub.ret] }, by simp, by simp⟩
      · exact ⟨0, { orDone := next, waits := [c0, c1, c, sub.ret] }, by simp, by simp⟩
      · have hsub : 2 ≤ (more ++ [some next]).length := by
          cases more with
          | nil => simp at hc
          | cons x xs => simp
        obtain ⟨_, _, _, hall⟩ := ih hsub
        obtain ⟨k, n, hk, hn⟩ := hall c (by simp [hc])
        exact ⟨k + 1, n, by simpa using hk, hn⟩

end GoConc.OrChan

namespace GoConc.OrChan

/-- A list of different numbers below `n` has at most `n` elements. -/
theorem nodup_bounded_length (l : List Nat) (n : Nat) (hnd : l.Nodup)
    (hb : ∀ k ∈ l, k < n) : l.length ≤ n := by
  have := (List.subperm_of_subset hnd (fun k hk => List.mem_range.mpr (hb k hk))).length_le
  simpa using this

/-- Every step records at most one goroutine as returned, a goroutine of the
list that was not recorded before, and only a wake-up records one. -/
theorem or_step_exited (inputs : List Chan) (nodes : List Node) (a : Act) (s s' : State)
    (hnd : s.exited.Nodup ∧ ∀ k ∈ s.exited, k < nodes.length)
    (h : step inputs nodes a s = some s') :
    (s'.exited.Nodup ∧ ∀ k ∈ s'.exited, k < nodes.length) ∧
    s'.exited.length = s.exited.length + (if a.isFire then 1 else 0) ∧
    (∀ i, i ∈ s.closed → i ∈ s'.closed) := by
  cases a with
  | closeInput i =>
    simp only [step] at h
    split at h
    · simp only [Option.some.injEq] at h
      subst h
      exact ⟨hnd, by simp [Act.isFire], fun j hj => by simp [hj]⟩
    · simp at h
  | fire k =>
    simp only [step] at h
    cases hk : nodes[k]? with
    | none => simp [hk] at h
    | some nk =>
      simp only [hk] at h
      split at h
      · rename_i hcond
        simp only [Bool.and_eq_true, Bool.not_eq_true', decide_eq_false_iff_not] at hcond
        simp only [Option.some.injEq] at h
        subst h
        have hlt : k < nodes.length := (List.getElem?_eq_some.mp hk).1
        refine ⟨⟨?_, ?_⟩, by simp [Act.isFire], fun j hj => by simp [hj]⟩
        · exact List.Nodup.append hnd.1 (List.nodup_singleton k) (by simpa using hcond.1)
        · intro j hj
          simp only [List.mem_append, List.mem_singleton] at hj
          rcases hj with hj | rfl
          · exact hnd.2 j hj
          · exact hlt
      · simp at h

/-- The number of goroutines recorded as returned after a schedule is the
number of wake-ups in it. -/
theorem or_fires_count (inputs : List Chan) (nodes : List Node) :
    ∀ (sched : List Act) (s s' : State),
      (s.exited.Nodup ∧ ∀ k ∈ s.exited, k < nodes.length) →
      runWith (step inputs nodes) s sched = some s' →
      (s'.exited.Nodup ∧ ∀ k ∈ s'.exited, k < nodes.length) ∧
      s'.exited.length = s.exited.length + (sched.filter Act.isFire).length := by
  intro sched
  induction sched with
  | nil =>
    intro s s' hs hrun
    simp only [runWith, Option.some.injEq] at hrun
    subst hrun
    exact ⟨hs, by simp⟩
  | cons a as ih =>
    intro s s' hs hrun
    rw [runWith_cons] at hrun
    cases h : step inputs nodes a s with
    | none => simp [h] at hrun
    | some s1 =>
      simp only [h, Option.some_bind] at hrun
      obtain ⟨h1, h2, _⟩ := or_step_exited inputs nodes a s s1 hs h
      obtain ⟨h3, h4⟩ := ih s1 s' h1 hrun
      refine ⟨h3, ?_⟩
      rw [h4, h2]
      cases hf : a.isFire <;> simp [List.filter_cons, hf]
      omega

/-- Once an input is closed and the channel at the root of the chain is not,
some goroutine can wake up. -/
theorem or_fire_enabled (inputs : List Chan) (nodes : List Node) (root : Nat)
    (hch : Chain inputs root nodes) (s : State) (hinv : Inv inputs nodes s)
    (hin : ∃ i, some i ∈ inputs ∧ i ∈ s.closed) (hroot : root ∉ s.closed) :
    ∃ k s', step inputs nodes (Act.fire k) s = some s' := by
  obtain ⟨⟨n0, hn0, hr0, _⟩, hnext, hall⟩ := hch
  obtain ⟨i, hi1, hi2⟩ := hin
  obtain ⟨k, n, hk, hw⟩ := hall _ hi1
  have hclosed : ∀ (k : Nat) (n : Node), nodes[k]? = some n → k ∈ s.exited →
      n.orDone ∈ s.closed := by
    intro k n hk hex
    have hc := hinv.2 k n hk
    simp only [hex, if_true] at hc
    exact List.count_pos_iff.mp (by omega)
  have key : ∀ (k : Nat) (n : Node), nodes[k]? = some n →
      n.waits.any (ready s.closed) = true →
      ∃ k' s', step inputs nodes (Act.fire k') s = some s' := by
    intro k
    induction k with
    | zero =>
      intro n hk hany
      by_cases hex : 0 ∈ s.exited
      · have hmem := hclosed 0 n hk hex
        rw [hn0] at hk
        simp only [Option.some.injEq] at hk
        subst hk
        exact absurd (hr0 ▸ hmem) hroot
      · exact ⟨0, _, by simp [step, hk, hex, hany]; rfl⟩
    | succ k ih =>
      intro n hk hany
      by_cases hex : k + 1 ∈ s.exited
      · have hmem := hclosed (k + 1) n hk hex
        have hlt : k < nodes.length := by
          have := (List.getElem?_eq_some.mp hk).1
          omega
        exact ih nodes[k] (List.getElem?_eq_getElem hlt)
          (List.any_eq_true.mpr ⟨some n.orDone,
            hnext k nodes[k] n (List.getElem?_eq_getElem hlt) hk, by simp [ready, hmem]⟩)
      · exact ⟨k + 1, _, by simp [step, hk, hex, hany]; rfl⟩
  exact key k n hk (List.any_eq_true.mpr ⟨some i, hw, by simp [ready, hi2]⟩)

/-- A wake-up keeps the invariant `Fired` and leaves one goroutine fewer to
wake up. -/
theorem or_fire_fired (inputs : List Chan) (nodes : List Node) (hw : WaitTree inputs nodes)
    (a : Act) (s s' : State) (ha : a.isFire = true) (hf : Fired inputs nodes s)
    (h : step inputs nodes a s = some s') :
    Fired inputs nodes s' ∧
      nodes.length - s'.exited.length < nodes.length - s.exited.length := by
  obtain ⟨hinv, ⟨i, hi1, hi2⟩, hnd⟩ := hf
  obtain ⟨hnd', hlen, hmono⟩ := or_step_exited inputs nodes a s s' hnd h
  have hle := nodup_bounded_length _ _ hnd'.1 hnd'.2
  simp only [ha, if_true] at hlen
  exact ⟨⟨or_step_inv inputs nodes hw a s s' hinv h, ⟨i, hi1, hmono i hi2⟩, hnd'⟩, by omega⟩

end GoConc.OrChan

namespace GoConc.OrChan

/-- C24, as stated, fails.  Over the five channels of `TestOrChannel`,
`Or` returns channel 5.  After the fourth input (channel 3) is closed, no
single step closes channel 5: the inner goroutine has to wake up and close its
channel 6 first, and only then can the outer one wake up and close channel 5. -/
theorem or_inner_input_needs_two_steps :
    (Or 5 testChannels).ret = some 5 ∧
    (∀ a s, run 5 testChannels [Act.closeInput 3, a] = some s → 5 ∉ s.closed) ∧
    run 5 testChannels [Act.closeInput 3, Act.fire 1, Act.fire 0] =
      some { closed := [3, 6, 5], exited := [1, 0] } := by
  have hnodes : (Or 5 testChannels).nodes =
      [{ orDone := 5, waits := [some 0, some 1, some 2, some 6] },
       { orDone := 6, waits := [some 3, some 4, some 5, some 6] }] := by
    simp [testChannels, Or_more, Or_one]
  refine ⟨by simp [testChannels, Or_more], ?_, ?_⟩
  · intro a s h
    unfold run at h
    rw [hnodes] at h
    cases a with
    | closeInput i =>
      simp [runWith, step, testChannels] at h
      obtain ⟨⟨hi, _⟩, rfl⟩ := h
      simp only [List.mem_cons, List.not_mem_nil, or_false]
      omega
    | fire k =>
      match k with
      | 0 => simp [runWith, step, testChannels, ready] at h
      | 1 =>
        simp [runWith, step, testChannels, ready] at h
        subst h
        simp
      | k + 2 => simp [runWith, step, testChannels] at h
  · unfold run
    rw [hnodes]
    simp [runWith, step, testChannels, ready]

end GoConc.OrChan

namespace GoConc.OrChan

/-- C24, amended.  For every `N >= 2` input channels made before the call,
`Or` returns the first channel it makes.  In every run the goroutines of `Or`
wake up at most `N / 2` times in all, and while an input is closed and the
returned channel is not, some goroutine can wake up.  After any one input is
closed, some sequence of at most `N / 2` wake-ups closes the returned channel;
for one of the first three inputs the wake-up of the first goroutine alone
does. -/
theorem or_closes_within_depth (next : Nat) (channels : List Chan)
    (hN : 2 ≤ channels.length) (hfresh : ∀ i, some i ∈ channels → i < next) :
    (Or next channels).ret = some next ∧
    (∀ sched s, run next channels sched = some s →
      (sched.filter Act.isFire).length ≤ channels.length / 2 ∧
      ((∃ i, some i ∈ channels ∧ i ∈ s.closed) → next ∉ s.closed →
        ∃ k s', step channels (Or next channels).nodes (Act.fire k) s = some s')) ∧
    (∀ i, some i ∈ channels → ∃ fires s, (∀ a ∈ fires, a.isFire = true) ∧
      fires.length ≤ channels.length / 2 ∧
      run next channels (Act.closeInput i :: fires) = some s ∧ next ∈ s.closed) ∧
    (∀ i, some i ∈ channels.take 3 →
      ∃ s, run next channels [Act.closeInput i, Act.fire 0] = some s ∧ next ∈ s.closed) := by
  obtain ⟨hret, hch⟩ := Or_chain next channels hN
  have hw := Or_waitTree next channels hfresh
  have hlen := (Or_nodes_length next channels).1
  refine ⟨hret, ?_, ?_, ?_⟩
  · intro sched s hrun
    have hinv := or_run_inv channels _ hw sched s hrun
    obtain ⟨hnd, hcount⟩ := or_fires_count channels (Or next channels).nodes sched _ s
      ⟨by simp, by simp⟩ hrun
    have hle := nodup_bounded_length _ _ hnd.1 hnd.2
    simp only [List.length_nil, Nat.zero_add] at hcount
    exact ⟨by omega, fun hin hroot => or_fire_enabled channels _ next hch s hinv hin hroot⟩
  · intro i hi
    have hstep : step channels (Or next channels).nodes (Act.closeInput i)
        { closed := [], exited := [] } = some { closed := [i], exited := [] } := by
      simp [step, hi]
    have hfired : Fired channels (Or next channels).nodes { closed := [i], exited := [] } := by
      refine ⟨?_, ⟨i, hi, by simp⟩, by simp, by simp⟩
      exact or_run_inv channels _ hw [Act.closeInput i] _ (by simp [runWith, hstep])
    obtain ⟨fires, s, hall, hrun, hfin, hf⟩ :=
      runWith_reaches (step channels (Or next channels).nodes) (fun a => a.isFire = true)
        (Fired channels (Or next channels).nodes) (fun t => next ∈ t.closed)
        (fun t => (Or next channels).nodes.length - t.exited.length)
        (fun a t t' ha ht hst => or_fire_fired channels _ hw a t t' ha ht hst)
        (fun t ht hroot => by
          obtain ⟨k, t', hk⟩ := or_fire_enabled channels _ next hch t ht.1 ht.2.1 hroot
          exact ⟨Act.fire k, t', rfl, hk⟩)
        _ _ (le_refl _) hfired
    obtain ⟨_, hbound⟩ :=
      runWith_invariant (step channels (Or next channels).nodes) (fun a => a.isFire = true)
        (Fired channels (Or next channels).nodes)
        (fun t => (Or next channels).nodes.length - t.exited.length)
        (fun a t t' ha ht hst => or_fire_fired channels _ hw a t t' ha ht hst)
        fires _ s hall hfired hrun
    simp only [List.length_nil, Nat.sub_zero] at hbound
    refine ⟨fires, s, hall, by omega, ?_, hfin⟩
    simp only [run, runWith_cons, hstep, Option.some_bind]
    exact hrun
  · intro i hi
    obtain ⟨⟨n0, hn0, hr0, hfirst⟩, _, _⟩ := hch
    have hmem : some i ∈ channels := List.mem_of_mem_take hi
    have hany : n0.waits.any (ready [i]) = true :=
      List.any_eq_true.mpr ⟨some i, hfirst _ hi, by simp [ready]⟩
    refine ⟨{ closed := [i, next], exited := [0] }, ?_, by simp⟩
    simp only [List.any_eq_true] at hany
    simp [run, runWith, step, hmem, hn0, hany, hr0]

/-- C24, amended, on the five channels of `TestOrChannel`. -/
theorem or_closes_within_depth_witness :
    2 ≤ testChannels.length ∧ (∀ i, some i ∈ testChannels → i < 5) ∧
    ((Or 5 testChannels).ret = some 5 ∧
    (∀ sched s, run 5 testChannels sched = some s →
      (sched.filter Act.isFire).length ≤ testChannels.length / 2 ∧
      ((∃ i, some i ∈ testChannels ∧ i ∈ s.closed) → 5 ∉ s.closed →
        ∃ k s', step testChannels (Or 5 testChannels).nodes (Act.fire k) s = some s')) ∧
    (∀ i, some i ∈ testChannels → ∃ fires s, (∀ a ∈ fires, a.isFire = true) ∧
      fires.length ≤ testChannels.length / 2 ∧
      run 5 testChannels (Act.closeInput i :: fires) = some s ∧ 5 ∈ s.closed) ∧
    (∀ i, some i ∈ testChannels.take 3 →
      ∃ s, run 5 testChannels [Act.closeInput i, Act.fire 0] = some s ∧ 5 ∈ s.closed)) :=
  ⟨by decide, testChannels_made, or_closes_within_depth 5 testChannels (by decide) testChannels_made⟩

end GoConc.OrChan

namespace GoConc.OrDone

/-- C26 fails on the code.  `OrDone` over a channel that hands over `1, 2`
and is closed, with a reader waiting on `valStream`: the goroutine takes `1`,
`done` is closed, and the inner `select` takes `case <-done:`, abandoning `1`.
Back at the outer `select` both `done` and `c` are ready; the goroutine may
take `case v, ok := <-c:`, receive `2` and send it on `valStream`: the reader
gets `2` after `1` was dropped. -/
theorem ordone_continues_after_abandon :
    Sys.run (init [1, 2] true 1) [Act.branch Branch.recv, Act.closeDone, Act.branch Branch.done] =
      some { g := { pc := PC.outer, c := { pending := [2], closes := true } },
             doneClosed := true, out := [], demand := 1 } ∧
    Sys.run (init [1, 2] true 1)
        [Act.branch Branch.recv, Act.closeDone, Act.branch Branch.done,
         Act.branch Branch.recv] =
      some { g := { pc := PC.inner 2, c := { pending := [], closes := true } },
             doneClosed := true, out := [], demand := 1 } ∧
    Sys.run (init [1, 2] true 1)
        [Act.branch Branch.recv, Act.closeDone, Act.branch Branch.done,
         Act.branch Branch.recv, Act.branch Branch.send] =
      some { g := { pc := PC.outer, c := { pending := [], closes := true } },
             doneClosed := true, out := [2], demand := 0 } := by
  refine ⟨by decide, by decide, by decide⟩

end GoConc.OrDone

namespace GoConc.Stage

/-- C22 fails on the code for an empty list of values.  The goroutine of
`Repeat(done)` stands at the head of `for _, v := range values` with nothing to
range over: its only step starts the range again, whether `done` is closed or
not and whether a receiver waits or not; it never reaches the `select`, hands
over no value and never returns, so `valueStream` is never closed.  The same
holds in every run of `Take(done, Repeat(done), num)`, closing of `done`
included. -/
theorem repeat_empty_never_stops (num : Int) (demand : Nat) :
    (∀ doneClosed receiver,
      Repeat ([] : List Nat) doneClosed receiver RepeatBranch.next (RepeatPC.range []) =
        some (RepeatPC.range [], none)) ∧
    (∀ doneClosed receiver b r,
      Repeat ([] : List Nat) doneClosed receiver b (RepeatPC.range []) = some r →
        r = (RepeatPC.range [], none)) ∧
    (∀ sched s, TakeRepeat.run ([] : List Nat) num demand sched = some s →
      s.rep = RepeatPC.range [] ∧ s.rep ≠ RepeatPC.returned ∧ s.out = []) := by
  refine ⟨fun _ _ => rfl, ?_, ?_⟩
  · intro dc rc b r h
    cases b <;> simp [Repeat] at h
    exact h.symm
  · intro sched s hrun
    have hinv : s.rep = RepeatPC.range [] ∧ s.out = [] ∧
        ∀ i v, s.take ≠ TakePC.sel i v := by
      refine runWith_preserves (TakeRepeat.step ([] : List Nat) num) (fun _ => True)
        (fun t => t.rep = RepeatPC.range [] ∧ t.out = [] ∧ ∀ i v, t.take ≠ TakePC.sel i v)
        ?_ sched _ s (fun _ _ => trivial) ?_ hrun
      · intro a t t' _ ht hstep
        obtain ⟨rep, take, dc, out, dem⟩ := t
        obtain ⟨h1, h2, h3⟩ := ht
        simp only at h1 h2 h3
        subst h1 h2
        cases a with
        | closeDone =>
          simp only [TakeRepeat.step] at hstep
          split at hstep
          · simp at hstep
          · simp only [Option.some.injEq] at hstep
            subst hstep
            exact ⟨rfl, rfl, h3⟩
        | rep b =>
          cases b <;> simp [TakeRepeat.step, Repeat] at hstep
          subst hstep
          exact ⟨rfl, rfl, h3⟩
        | handoff => simp [TakeRepeat.step, Repeat] at hstep
        | take b =>
          cases take with
          | head i =>
            by_cases hi : i < num
            · cases b <;> simp [TakeRepeat.step, Take, hi] at hstep
            · cases b <;> simp [TakeRepeat.step, Take, hi] at hstep
              subst hstep
              exact ⟨rfl, rfl, by simp⟩
          | sel i v => exact absurd rfl (h3 i v)
          | returned => cases b <;> simp [TakeRepeat.step, Take] at hstep
      · exact ⟨rfl, rfl, by simp [TakeRepeat.init]⟩
    exact ⟨hinv.1, by simp [hinv.1], hinv.2.1⟩

end GoConc.Stage

namespace GoConc.Stage

variable {α : Type}

/-- While `done` is open every step of `Take` over a `valueStream` that hands
over `vs` and is closed keeps the invariant `Padding` and uses up fuel. -/
theorem TakeSys.step_padding (vs : List α) (all : List (Option α)) (n : Nat)
    (hvals : ∀ (j : Nat) (v : α), vs[j]? = some v → all[j]? = some (some v))
    (hnils : ∀ j : Nat, vs.length ≤ j → j < n → all[j]? = some none)
    (a : TakeAct) (s s' : TakeSys α) (ha : a ≠ TakeAct.closeDone)
    (hinv : s.Padding vs all n) (h : TakeSys.step n a s = some s') :
    s'.Padding vs all n ∧ s'.fuel n < s.fuel n := by
  obtain ⟨⟨pending, closes⟩, take, dc, out, demand⟩ := s
  obtain ⟨h1, h2, h3, h4, h5, h6⟩ := hinv
  simp only at h1 h2 h3 h4 h5 h6
  subst h1 h2
  cases a with
  | closeDone => exact absurd rfl ha
  | take b =>
    cases take with
    | head i =>
      obtain ⟨hi1, hi2⟩ := h5
      simp only [TakeSys.taken] at h3
      by_cases hi : i < (n : Int)
      · have hlt : out.length < n := by omega
        cases b with
        | exit => simp [TakeSys.step, Take, hi] at h
        | done => simp [TakeSys.step, Take] at h
        | send => simp [TakeSys.step, Take] at h
        | recv =>
          cases pending with
          | nil =>
            simp only [TakeSys.step, Take, hi, if_true, incoming, Option.some.injEq] at h
            subst h
            have hk : vs.length ≤ out.length := by
              have := congrArg List.length h3
              simp only [List.length_nil, List.length_drop] at this
              omega
            refine ⟨⟨rfl, rfl, ?_, h4, ⟨hi1, hlt, hnils _ hk hlt⟩, h6⟩, ?_⟩
            · simp only [TakeSys.taken, List.tail_nil]
              exact (List.drop_eq_nil_of_le (by omega)).symm
            · simp only [TakeSys.fuel]
              omega
          | cons v rest =>
            simp only [TakeSys.step, Take, hi, if_true, incoming, Option.some.injEq] at h
            subst h
            obtain ⟨d1, d2, d3⟩ := drop_head vs out.length v rest h3.symm
            refine ⟨⟨rfl, rfl, ?_, h4, ⟨hi1, hlt, hvals _ _ d2⟩, h6⟩, ?_⟩
            · simp only [TakeSys.taken, List.tail_cons]
              exact d3.symm
            · simp only [TakeSys.fuel]
              omega
      · cases b with
        | recv => simp [TakeSys.step, Take, hi] at h
        | done => simp [TakeSys.step, Take] at h
        | send => simp [TakeSys.step, Take] at h
        | exit =>
          simp only [TakeSys.step, Take, hi, if_false, Option.some.injEq] at h
          subst h
          refine ⟨⟨rfl, rfl, by simpa [TakeSys.taken] using h3, h4, by simp only; omega, h6⟩, ?_⟩
          simp only [TakeSys.fuel]
          omega
    | sel i v =>
      obtain ⟨hi1, hi2, hi3⟩ := h5
      cases b with
      | recv => simp [TakeSys.step, Take] at h
      | exit => simp [TakeSys.step, Take] at h
      | done => simp [TakeSys.step, Take] at h
      | send =>
        by_cases hdem : 0 < demand
        · simp only [TakeSys.step, Take, hdem, decide_True, if_true, Option.some.injEq] at h
          subst h
          refine ⟨⟨rfl, rfl, ?_, ?_, ⟨?_, ?_⟩, ?_⟩, ?_⟩
          · simpa [TakeSys.taken] using h3
          · simp only [List.length_append, List.length_singleton]
            rw [List.take_succ, ← h4, hi3]
            rfl
          · simp only [List.length_append, List.length_singleton]
            push_cast
            omega
          · simp only [List.length_append, List.length_singleton]
            omega
          · simp only [List.length_append, List.length_singleton]
            omega
          · simp only [TakeSys.fuel, List.length_append, List.length_singleton]
            omega
        · simp [TakeSys.step, Take, hdem] at h
    | returned => cases b <;> simp [TakeSys.step, Take] at h

/-- Under the invariant `Padding` a `Take` that has not returned is never
stuck. -/
theorem TakeSys.progress_padding (vs : List α) (all : List (Option α)) (n : Nat)
    (s : TakeSys α) (hinv : s.Padding vs all n) (hpc : s.take ≠ TakePC.returned) :
    ∃ a s', a ≠ TakeAct.closeDone ∧ TakeSys.step n a s = some s' := by
  obtain ⟨⟨pending, closes⟩, take, dc, out, demand⟩ := s
  obtain ⟨h1, h2, h3, h4, h5, h6⟩ := hinv
  simp only at h1 h2 h3 h4 h5 h6 hpc
  subst h1 h2
  cases take with
  | head i =>
    by_cases hi : i < (n : Int)
    · cases pending with
      | nil =>
        exact ⟨TakeAct.take TakeBranch.recv, _, by simp,
          by simp [TakeSys.step, Take, hi, incoming]; rfl⟩
      | cons v rest =>
        exact ⟨TakeAct.take TakeBranch.recv, _, by simp,
          by simp [TakeSys.step, Take, hi, incoming]; rfl⟩
    · exact ⟨TakeAct.take TakeBranch.exit, _, by simp, by simp [TakeSys.step, Take, hi]; rfl⟩
  | sel i v =>
    have hdem : 0 < demand := by omega
    exact ⟨TakeAct.take TakeBranch.send, _, by simp, by simp [TakeSys.step, Take, hdem]; rfl⟩
  | returned => exact absurd rfl hpc

end GoConc.Stage

namespace GoConc.Stage

variable {α : Type}

/-- C29. Over a `valueStream` that hands over the `k` values `vs`, with
`k < num`, and is then closed, with `done` never closed and a reader that keeps
receiving: in every run of `Take(done, valueStream, num)` the values delivered
so far are the first of `vs` followed by `num - k` nils; a `Take` that has
returned (closing `takeStream`) has delivered all `num` of them; a `Take` that
has not returned is never stuck; no run is longer than `2 * num + 1` steps; and
some run returns. -/
theorem take_pads_with_nil (vs : List α) (num demand : Nat) (hk : vs.length < num)
    (hd : num ≤ demand) :
    (∀ sched s, TakeAct.closeDone ∉ sched → TakeSys.run vs true num demand sched = some s →
      s.out <+: vs.map some ++ List.replicate (num - vs.length) none ∧
      (s.take = TakePC.returned →
        s.out = vs.map some ++ List.replicate (num - vs.length) none ∧ s.out.length = num) ∧
      (s.take ≠ TakePC.returned →
        ∃ a s', a ≠ TakeAct.closeDone ∧ TakeSys.step num a s = some s') ∧
      sched.length ≤ 2 * num + 1) ∧
    (∃ sched s, TakeAct.closeDone ∉ sched ∧ TakeSys.run vs true num demand sched = some s ∧
      s.take = TakePC.returned ∧
      s.out = vs.map some ++ List.replicate (num - vs.length) none) := by
  generalize hall : vs.map some ++ List.replicate (num - vs.length) none = all
  have hlen : all.length = num := by
    rw [← hall]
    simp only [List.length_append, List.length_map, List.length_replicate]
    omega
  have hvals : ∀ (j : Nat) (v : α), vs[j]? = some v → all[j]? = some (some v) := by
    intro j v hj
    have hlt : j < vs.length := (List.getElem?_eq_some.mp hj).1
    rw [← hall, List.getElem?_append_left (by simpa using hlt), List.getElem?_map, hj]
    rfl
  have hnils : ∀ j : Nat, vs.length ≤ j → j < num → all[j]? = some none := by
    intro j h1 h2
    rw [← hall, List.getElem?_append_right (by simpa using h1), List.getElem?_replicate]
    simp only [List.length_map]
    rw [if_pos (by omega)]
  have hinit : (TakeSys.init vs true demand).Padding vs all num := by
    refine ⟨rfl, rfl, by simp [TakeSys.init, TakeSys.taken], by simp [TakeSys.init],
      by simp [TakeSys.init], ?_⟩
    simpa [TakeSys.init] using hd
  have hret : ∀ s : TakeSys α, s.Padding vs all num → s.take = TakePC.returned →
      s.out = all ∧ s.out.length = num := by
    intro s hs hpc
    obtain ⟨_, _, _, h4, h5, _⟩ := hs
    rw [hpc] at h5
    simp only at h5
    refine ⟨?_, h5⟩
    rw [h4, h5, ← hlen, List.take_length]
  constructor
  · intro sched s hsched hrun
    have hallowed : ∀ a ∈ sched, a ≠ TakeAct.closeDone := fun a ha he => hsched (he ▸ ha)
    obtain ⟨hinv, hfuel⟩ := runWith_invariant (TakeSys.step (num : Int))
      (fun a => a ≠ TakeAct.closeDone) (fun t => t.Padding vs all num) (fun t => t.fuel num)
      (fun a t t' ha ht hst => TakeSys.step_padding vs all num hvals hnils a t t' ha ht hst)
      sched _ s hallowed hinit hrun
    refine ⟨?_, hret s hinv, TakeSys.progress_padding vs all num s hinv, ?_⟩
    · rw [hinv.2.2.2.1]
      exact List.take_prefix _ _
    · have : (TakeSys.init vs true demand).fuel num = 2 * num + 1 := by
        simp [TakeSys.init, TakeSys.fuel]
      omega
  · obtain ⟨sched, s, hallowed, hrun, hfin, hinv⟩ :=
      runWith_reaches (TakeSys.step (num : Int)) (fun a => a ≠ TakeAct.closeDone)
        (fun t => t.Padding vs all num) (fun t => t.take = TakePC.returned)
        (fun t => t.fuel num)
        (fun a t t' ha ht hst => TakeSys.step_padding vs all num hvals hnils a t t' ha ht hst)
        (fun t ht hpc => TakeSys.progress_padding vs all num t ht hpc) _ _ (le_refl _) hinit
    exact ⟨sched, s, fun hmem => hallowed _ hmem rfl, hrun, hfin, (hret s hinv hfin).1⟩

/-- C29 on a `valueStream` that hands over `1, 2` and is closed, for `Take`
of five values: `1, 2` and three nils. -/
theorem take_pads_with_nil_witness :
    [1, 2].length < 5 ∧ 5 ≤ 5 ∧
    [1, 2].map some ++ List.replicate (5 - [1, 2].length) none =
      [some 1, some 2, none, none, none] ∧
    ((∀ sched s, TakeAct.closeDone ∉ sched →
      TakeSys.run [1, 2] true ((5 : Nat) : Int) 5 sched = some s →
      s.out <+: [1, 2].map some ++ List.replicate (5 - [1, 2].length) none ∧
      (s.take = TakePC.returned →
        s.out = [1, 2].map some ++ List.replicate (5 - [1, 2].length) none ∧
        s.out.length = 5) ∧
      (s.take ≠ TakePC.returned →
        ∃ a s', a ≠ TakeAct.closeDone ∧ TakeSys.step ((5 : Nat) : Int) a s = some s') ∧
      sched.length ≤ 2 * 5 + 1) ∧
    (∃ sched s, TakeAct.closeDone ∉ sched ∧
      TakeSys.run [1, 2] true ((5 : Nat) : Int) 5 sched = some s ∧
      s.take = TakePC.returned ∧
      s.out = [1, 2].map some ++ List.replicate (5 - [1, 2].length) none)) :=
  ⟨by decide, by decide, by decide, take_pads_with_nil [1, 2] 5 5 (by decide) (by decide)⟩

end GoConc.Stage

namespace GoConc.Fan

/-- The loop of `isPrime` entered with `i` answers `true` exactly when `v`
has no divisor from `i` up to `v - 1`. -/
theorem isPrimeLoop_iff (v : Int) :
    ∀ (fuel : Nat) (i : Int), 2 ≤ i → (v - i).toNat ≤ fuel →
      (isPrimeLoop v fuel i = true ↔ ∀ j : Int, i ≤ j → j < v → ¬ j ∣ v) := by
  intro fuel
  induction fuel with
  | zero =>
    intro i hi hf
    simp only [isPrimeLoop, true_iff]
    intro j h1 h2
    omega
  | succ fuel ih =>
    intro i hi hf
    simp only [isPrimeLoop]
    by_cases hlt : i < v
    · simp only [hlt, if_true]
      have hmod : v.tmod i = v % i := Int.tmod_eq_emod (by omega) (by omega)
      by_cases hz : v.tmod i = 0
      · simp only [hz, if_true, Bool.false_eq_true, false_iff, not_forall]
        exact ⟨i, le_refl _, hlt, not_not.mpr (Int.dvd_of_emod_eq_zero (hmod ▸ hz))⟩
      · simp only [hz, if_false]
        rw [ih (i + 1) (by omega) (by omega)]
        constructor
        · intro h j h1 h2
          by_cases hj : j = i
          · subst hj
            intro hd
            exact hz (hmod ▸ Int.emod_eq_zero_of_dvd hd)
          · exact h j (by omega) h2
        · intro h j h1 h2
          exact h j (by omega) h2
    · simp only [hlt, if_false, true_iff]
      intro j h1 h2
      omega

/-- For `v` from 2 on, `isPrime` tells whether `v` is prime. -/
theorem isPrime_iff (v : Nat) (hv : 2 ≤ v) : isPrime v = true ↔ Nat.Prime v := by
  rw [isPrime, isPrimeLoop_iff (v : Int) _ 2 (le_refl _) (le_refl _), Nat.prime_def_lt']
  constructor
  · intro h
    refine ⟨hv, fun m h1 h2 hd => ?_⟩
    exact h m (by omega) (by omega) (Int.natCast_dvd_natCast.mpr hd)
  · rintro ⟨_, h⟩ j h1 h2 hd
    have hj : ((j.toNat : Nat) : Int) = j := Int.toNat_of_nonneg (by omega)
    rw [← hj] at hd
    exact h j.toNat (by omega) (by omega) (Int.natCast_dvd_natCast.mp hd)

/-- C21 fails on the code for the values 0 and 1.  The loop of `isPrime`
runs from 2 up to `v - 1`, so for `v < 2` it has no iteration and `isPrime`
returns `true`: over an `intStream` that hands over `4, 1, 7`, with `done`
open, `primeFinder` emits `1, 7`, and `1` is not a prime number. -/
theorem primeFinder_emits_one :
    isPrime 1 = true ∧ ¬ Nat.Prime 1 ∧ isPrime 0 = true ∧ ¬ Nat.Prime 0 ∧
    run [4, 1, 7] true 2
        [Act.recv, Act.check, Act.recv, Act.check, Act.send, Act.recv, Act.check, Act.send,
         Act.recv] =
      some { pc := PC.returned, intStream := { pending := [], closes := true },
             doneClosed := false, out := [1, 7], demand := 0 } := by
  refine ⟨by decide, Nat.not_prime_one, by decide, Nat.not_prime_zero, by decide⟩

end GoConc.Fan

namespace GoConc.Pipeline

theorem held_range : StagePC.range.held = 0 := rfl

theorem held_send (v : Int) : (StagePC.send v).held = 1 := rfl

theorem held_returned : StagePC.returned.held = 0 := rfl

/-- While `done` is open every step of the pipeline keeps the invariant
`Flowing`. -/
theorem step_flowing (integers : List Int) (a : Act) (s s' : Sys) (ha : a ≠ Act.closeDone)
    (hinv : Flowing integers s) (h : step integers a s = some s') : Flowing integers s' := by
  obtain ⟨gen, m1, ad, m2, dc, out, demand⟩ := s
  obtain ⟨h1, h2, h3, h4, h5, h6, h7, h8, h9⟩ := hinv
  simp only at h1 h2 h3 h4 h5 h6 h7 h8 h9
  subst h1
  cases a with
  | closeDone => exact absurd rfl ha
  | genDone => cases gen <;> simp [step] at h
  | genExit =>
    cases gen with
    | returned => simp [step] at h
    | range i =>
      by_cases hi : i < integers.length
      · simp [step, hi] at h
      · simp only [step, hi, if_false, Option.some.injEq] at h
        subst h
        exact ⟨rfl, h2, h3, h4, h5, by simp only at h6 ⊢; omega, fun _ => rfl, h8, h9⟩
  | pass0 =>
    cases gen with
    | returned => simp [step] at h
    | range i =>
      cases m1 with
      | range =>
        by_cases hi : i < integers.length
        · simp only [step, hi, if_true, Option.some.injEq] at h
          subst h
          simp only [held_range, held_send, held_returned, Nat.add_zero] at h6
          refine ⟨rfl, h2, h3, h4, ?_, ?_, by simp, ?_, h9⟩
          · intro v hv
            simp only [StagePC.send.injEq] at hv
            simp only [held_range, Nat.add_zero]
            rw [← hv, h6.1]
          · simp only [held_range, held_send, held_returned]
            omega
          · intro hr
            exact absurd (h8 hr) (by simp)
        · simp [step, hi] at h
      | send v => simp [step] at h
      | returned => simp [step] at h
  | pass1 =>
    cases m1 with
    | send v =>
      cases ad with
      | range =>
        simp only [step, Option.some.injEq] at h
        subst h
        have hv := h5 v rfl
        simp only [held_range, held_send, held_returned, Nat.add_zero] at hv h6
        refine ⟨rfl, h2, h3, ?_, by simp, ?_, by simp, by simp, ?_⟩
        · intro w hw
          simp only [StagePC.send.injEq] at hw
          rw [← hw, hv]
        · cases gen <;> simp only [held_range, held_send, held_returned] at h6 ⊢ <;> omega
        · intro hr
          exact absurd (h9 hr) (by simp)
      | send w => simp [step] at h
      | returned => simp [step] at h
    | range => simp [step] at h
    | returned => simp [step] at h
  | pass2 =>
    cases ad with
    | send v =>
      cases m2 with
      | range =>
        simp only [step, Option.some.injEq] at h
        subst h
        have hv := h4 v rfl
        simp only [held_range, held_send, held_returned, Nat.add_zero] at hv h5 h6
        refine ⟨rfl, h2, ?_, by simp, ?_, ?_, h7, by simp, by simp⟩
        · intro w hw
          simp only [StagePC.send.injEq] at hw
          rw [← hw, hv, ofIndex]
        · intro w hw
          simpa [held_range, held_send, held_returned, Nat.add_comm] using h5 w hw
        · cases gen <;> simp only [held_range, held_send, held_returned] at h6 ⊢ <;> omega
      | send w => simp [step] at h
      | returned => simp [step] at h
    | range => simp [step] at h
    | returned => simp [step] at h
  | pass3 =>
    cases m2 with
    | send v =>
      by_cases hdem : 0 < demand
      · simp only [step, hdem, if_true, Option.some.injEq] at h
        subst h
        have hv := h3 v rfl
        simp only [held_range, held_send, held_returned] at h4 h5 h6
        refine ⟨rfl, ?_, by simp, ?_, ?_, ?_, h7, h8, by simp⟩
        · simp only [List.length_append, List.length_singleton, List.range_succ, List.map_append,
            List.map_cons, List.map_nil]
          rw [← h2, hv]
        · intro w hw
          simpa [held_range, held_send, held_returned] using h4 w hw
        · intro w hw
          have := h5 w hw
          simp only [List.length_append, List.length_singleton, held_range, held_send,
            held_returned, Nat.add_zero]
          rw [this]
        · cases gen <;>
            simp only [List.length_append, List.length_singleton, held_range, held_send,
              held_returned] at h6 ⊢ <;> omega
      · simp [step, hdem] at h
    | range => simp [step] at h
    | returned => simp [step] at h
  | stageDone k => simp [step] at h
  | stageClosed k =>
    simp only [step] at h
    split at h
    · simp only [Option.some.injEq] at h
      subst h
      exact ⟨rfl, h2, h3, h4, by simp, by simpa [held_range, held_send, held_returned] using h6,
        fun _ => rfl, fun hr => absurd (h8 hr) (by simp), h9⟩
    · simp only [Option.some.injEq] at h
      subst h
      refine ⟨rfl, h2, h3, by simp, h5, ?_, h7, fun _ => rfl,
        fun hr => absurd (h9 hr) (by simp)⟩
      simpa [held_range, held_send, held_returned] using h6
    · simp only [Option.some.injEq] at h
      subst h
      refine ⟨rfl, h2, by simp, h4, h5, ?_, h7, h8, fun _ => rfl⟩
      simpa [held_range, held_send, held_returned] using h6
    · simp at h

end GoConc.Pipeline

namespace GoConc.Pipeline

/-- C30 fails on the code.  `generator` ranges with `for i := range
integers` and sends the index `i`, not the element: for `1, 2, 3, 4` the
pipeline receives `0, 1, 2, 3` and delivers `2, 6, 10, 14`, while the stream
pipeline of `TestStreamProcessing` gives `6, 10, 14, 18`.  For every list of
integers, with `done` open, every run of the channel pipeline has delivered an
initial segment of what the stages make of the indices `0, 1, ...`, and all of
it once the last stage has returned: the elements of the list play no part. -/
theorem channel_pipeline_sends_indices :
    streamPipeline [1, 2, 3, 4] = [6, 10, 14, 18] ∧
    run [1, 2, 3, 4] 4 (rounds 4) =
      some { gen := GenPC.returned, m1 := StagePC.returned, ad := StagePC.returned,
             m2 := StagePC.returned, doneClosed := false, out := [2, 6, 10, 14],
             demand := 0 } ∧
    (∀ (integers : List Int) (demand : Nat) (sched : List Act) (s : Sys),
      Act.closeDone ∉ sched → run integers demand sched = some s →
      s.out <+: (List.range integers.length).map ofIndex ∧
      (s.m2 = StagePC.returned → s.out = (List.range integers.length).map ofIndex)) := by
  refine ⟨by decide, by decide, ?_⟩
  intro integers demand sched s hsched hrun
  have hinv : Flowing integers s := by
    refine runWith_preserves (step integers) (fun a => a ≠ Act.closeDone) (Flowing integers)
      (fun a t t' ha ht hst => step_flowing integers a t t' ha ht hst)
      sched _ s (fun a ha he => hsched (he ▸ ha)) ?_ hrun
    exact ⟨rfl, rfl, by simp [init], by simp [init], by simp [init],
      by simp [init, held_range], by simp [init], by simp [init], by simp [init]⟩
  obtain ⟨_, h2, _, _, _, h6, h7, h8, h9⟩ := hinv
  have hle : s.out.length ≤ integers.length := by
    cases hg : s.gen <;> rw [hg] at h6 <;> simp only at h6 <;> omega
  constructor
  · rw [h2]
    obtain ⟨d, hd⟩ := Nat.exists_eq_add_of_le hle
    rw [hd, List.range_add, List.map_append]
    exact List.prefix_append _ _
  · intro hr
    have ha := h9 hr
    have hm := h8 ha
    have hg := h7 hm
    rw [hg, hr, ha, hm] at h6
    simp only [held_returned, Nat.add_zero] at h6
    rw [h2, h6]

end GoConc.Pipeline

namespace GoConc.Stage

variable {α : Type}

/-- While `done` is open every step of `Sleep` keeps the invariant `Pacing`
and uses up fuel. -/
theorem Sleep_pacing (d : Nat) (all : List (Event α)) (a : SleepAct) (s s' : SleepSys α)
    (ha : a ≠ SleepAct.closeDone) (hinv : s.Pacing d all) (h : Sleep d a s = some s') :
    s'.Pacing d all ∧ s'.fuel < s.fuel := by
  obtain ⟨pc, ⟨pending, closes⟩, dc, tr, demand⟩ := s
  obtain ⟨h1, h2, h3, h4⟩ := hinv
  simp only at h1 h2 h3 h4
  subst h1 h2
  cases a with
  | closeDone => exact absurd rfl ha
  | done => cases pc <;> simp [Sleep] at h
  | recv =>
    cases pc with
    | outer =>
      cases pending with
      | nil =>
        simp only [Sleep, if_true, Option.some.injEq] at h
        subst h
        refine ⟨⟨rfl, rfl, ?_, by simp [SleepSys.toSend]⟩, by simp [SleepSys.fuel]⟩
        simpa [SleepSys.ahead, paced] using h3
      | cons v rest =>
        simp only [Sleep, Option.some.injEq] at h
        subst h
        refine ⟨⟨rfl, rfl, ?_, ?_⟩, ?_⟩
        · simpa [SleepSys.ahead] using h3
        · simpa [SleepSys.toSend] using h4
        · simp only [SleepSys.fuel, List.length_cons]
          omega
    | inner v => simp [Sleep] at h
    | sleeping => simp [Sleep] at h
    | returned => simp [Sleep] at h
  | send =>
    cases pc with
    | inner v =>
      by_cases hdem : 0 < demand
      · simp only [Sleep, hdem, if_true, Option.some.injEq] at h
        subst h
        refine ⟨⟨rfl, rfl, ?_, ?_⟩, ?_⟩
        · simpa [SleepSys.ahead, paced] using h3
        · simp only [SleepSys.toSend] at h4 ⊢
          omega
        · simp only [SleepSys.fuel]
          omega
      · simp [Sleep, hdem] at h
    | outer => simp [Sleep] at h
    | sleeping => simp [Sleep] at h
    | returned => simp [Sleep] at h
  | sleep =>
    cases pc with
    | sleeping =>
      simp only [Sleep, Option.some.injEq] at h
      subst h
      refine ⟨⟨rfl, rfl, ?_, ?_⟩, ?_⟩
      · simpa [SleepSys.ahead] using h3
      · simpa [SleepSys.toSend] using h4
      · simp only [SleepSys.fuel]
        omega
    | outer => simp [Sleep] at h
    | inner v => simp [Sleep] at h
    | returned => simp [Sleep] at h

/-- Under the invariant `Pacing` a `Sleep` that has not returned is never
stuck. -/
theorem Sleep_progress (d : Nat) (all : List (Event α)) (s : SleepSys α)
    (hinv : s.Pacing d all) (hpc : s.pc ≠ SleepPC.returned) :
    ∃ a s', a ≠ SleepAct.closeDone ∧ Sleep d a s = some s' := by
  obtain ⟨pc, ⟨pending, closes⟩, dc, tr, demand⟩ := s
  obtain ⟨h1, h2, h3, h4⟩ := hinv
  simp only at h1 h2 h3 h4 hpc
  subst h1 h2
  cases pc with
  | outer =>
    cases pending with
    | nil => exact ⟨SleepAct.recv, _, by simp, by simp [Sleep]; rfl⟩
    | cons v rest => exact ⟨SleepAct.recv, _, by simp, by simp [Sleep]; rfl⟩
  | inner v =>
    have hdem : 0 < demand := by
      simp only [SleepSys.toSend] at h4
      omega
    exact ⟨SleepAct.send, _, by simp, by simp [Sleep, hdem]; rfl⟩
  | sleeping => exact ⟨SleepAct.sleep, _, by simp, by simp [Sleep]; rfl⟩
  | returned => exact absurd rfl hpc

end GoConc.Stage

namespace GoConc.Stage

variable {α : Type}

/-- Every step of `Sleep` is matched by the steps of `SleepOrDone` that
`follow` lists: they lead from the matching state to the matching state. -/
theorem Sleep_followed (d : Nat) (a : SleepAct) (s s' : SleepSys α)
    (h : Sleep d a s = some s') :
    runWith (SleepOrDone d) s.toOrDone (s.follow a) = some s'.toOrDone := by
  obtain ⟨pc, ⟨pending, closes⟩, dc, tr, demand⟩ := s
  cases a with
  | closeDone =>
    cases dc with
    | true => simp [Sleep] at h
    | false =>
      simp only [Sleep, Bool.false_eq_true, if_false, Option.some.injEq] at h
      subst h
      cases pc <;> simp [runWith, SleepOrDone, SleepSys.toOrDone, SleepSys.follow]
  | done =>
    cases dc with
    | false => cases pc <;> simp [Sleep] at h
    | true =>
      cases pc with
      | outer =>
        simp only [Sleep, if_true, Option.some.injEq] at h
        subst h
        simp [runWith, SleepOrDone, SleepSys.toOrDone, SleepSys.follow, OrDone.step,
          OrDone.PC.isReturned]
      | inner v =>
        simp only [Sleep, if_true, Option.some.injEq] at h
        subst h
        simp [runWith, SleepOrDone, SleepSys.toOrDone, SleepSys.follow, OrDone.step]
      | sleeping => simp [Sleep] at h
      | returned => simp [Sleep] at h
  | recv =>
    cases pc with
    | outer =>
      cases pending with
      | nil =>
        cases closes with
        | false => simp [Sleep] at h
        | true =>
          simp only [Sleep, if_true, Option.some.injEq] at h
          subst h
          simp [runWith, SleepOrDone, SleepSys.toOrDone, SleepSys.follow, OrDone.step,
            OrDone.PC.isReturned]
      | cons v rest =>
        simp only [Sleep, Option.some.injEq] at h
        subst h
        simp [runWith, SleepOrDone, SleepSys.toOrDone, SleepSys.follow, OrDone.step]
    | inner v => simp [Sleep] at h
    | sleeping => simp [Sleep] at h
    | returned => simp [Sleep] at h
  | send =>
    cases pc with
    | inner v =>
      by_cases hdem : 0 < demand
      · simp only [Sleep, hdem, if_true, Option.some.injEq] at h
        subst h
        simp [runWith, SleepOrDone, SleepSys.toOrDone, SleepSys.follow, OrDone.step, hdem]
      · simp [Sleep, hdem] at h
    | outer => simp [Sleep] at h
    | sleeping => simp [Sleep] at h
    | returned => simp [Sleep] at h
  | sleep =>
    cases pc with
    | sleeping =>
      simp only [Sleep, Option.some.injEq] at h
      subst h
      simp [runWith, SleepOrDone, SleepSys.toOrDone, SleepSys.follow]
    | outer => simp [Sleep] at h
    | inner v => simp [Sleep] at h
    | returned => simp [Sleep] at h

/-- Only the closing of `done` is followed by the closing of `done`. -/
theorem follow_open (s : SleepSys α) (a : SleepAct) (ha : a ≠ SleepAct.closeDone) :
    SleepOrDoneAct.closeDone ∉ s.follow a := by
  obtain ⟨pc, ⟨pending, closes⟩, dc, tr, demand⟩ := s
  cases a <;> cases pc <;> first
    | exact absurd rfl ha
    | (cases pending <;> simp [SleepSys.follow])

/-- Every run of `Sleep` is matched by a run of `SleepOrDone` between the
matching states, which closes `done` only if the run of `Sleep` does. -/
theorem Sleep_run_followed (d : Nat) :
    ∀ (sched : List SleepAct) (s s' : SleepSys α), runWith (Sleep d) s sched = some s' →
      ∃ sched', runWith (SleepOrDone d) s.toOrDone sched' = some s'.toOrDone ∧
        (SleepAct.closeDone ∉ sched → SleepOrDoneAct.closeDone ∉ sched') := by
  intro sched
  induction sched with
  | nil =>
    intro s s' h
    simp only [runWith, Option.some.injEq] at h
    subst h
    exact ⟨[], rfl, fun _ => by simp⟩
  | cons a as ih =>
    intro s s' h
    rw [runWith_cons] at h
    cases hs : Sleep d a s with
    | none => simp [hs] at h
    | some s1 =>
      simp only [hs, Option.some_bind] at h
      obtain ⟨sched', hrun, hno⟩ := ih s1 s' h
      refine ⟨s.follow a ++ sched', ?_, ?_⟩
      · rw [runWith_append, Sleep_followed d a s s1 hs, Option.some_bind, hrun]
      · intro hmem
        simp only [List.mem_cons, not_or] at hmem
        simp only [List.mem_append, not_or]
        exact ⟨follow_open s a (fun he => hmem.1 he.symm), hno hmem.2⟩

end GoConc.Stage

namespace GoConc.Stage

variable {α : Type}

/-- A step of the goroutine of `OrDone` that hands over no value leaves it
`Behind` the same state of `Sleep`. -/
theorem Behind_step (dc rr : Bool) (b : OrDone.Branch) (g g' : OrDone.Goroutine α)
    (t : SleepSys α) (hdc : t.doneClosed = dc) (hb : Behind g t)
    (h : OrDone.step dc rr b g = some (g', none)) : Behind g' t := by
  obtain ⟨pc, ⟨pending, closes⟩⟩ := g
  obtain ⟨h1, h2, h3, h4⟩ := hb
  simp only at h1
  cases pc with
  | outer =>
    cases b with
    | done =>
      cases dc with
      | false => simp [OrDone.step] at h
      | true =>
        simp only [OrDone.step, if_true, Option.some.injEq, Prod.mk.injEq, and_true] at h
        subst h
        exact ⟨h1, by simp [OrDone.Goroutine.rest], fun hf => by simp [hdc] at hf,
          fun _ => Or.inl hdc⟩
    | recv =>
      cases pending with
      | nil =>
        cases closes with
        | false => simp [OrDone.step] at h
        | true =>
          simp only [OrDone.step, if_true, Option.some.injEq, Prod.mk.injEq, and_true] at h
          subst h
          simp only [OrDone.Goroutine.rest] at h2 h3
          refine ⟨h1, by simp [OrDone.Goroutine.rest], ?_, ?_⟩
          · intro hf
            simpa [OrDone.Goroutine.rest] using h3 hf
          · intro _
            cases hd : t.doneClosed with
            | true => exact Or.inl rfl
            | false => exact Or.inr ⟨(h3 hd).symm, h1.symm⟩
      | cons v rest =>
        simp only [OrDone.step, Option.some.injEq, Prod.mk.injEq, and_true] at h
        subst h
        exact ⟨h1, by simpa [OrDone.Goroutine.rest] using h2,
          fun hf => by simpa [OrDone.Goroutine.rest] using h3 hf, fun hr => by simp at hr⟩
    | send => simp [OrDone.step] at h
  | inner v =>
    cases b with
    | done =>
      cases dc with
      | false => simp [OrDone.step] at h
      | true =>
        simp only [OrDone.step, if_true, Option.some.injEq, Prod.mk.injEq, and_true] at h
        subst h
        simp only [OrDone.Goroutine.rest] at h2
        exact ⟨h1, by simpa [OrDone.Goroutine.rest] using List.sublist_of_cons_sublist h2,
          fun hf => by simp [hdc] at hf, fun hr => by simp at hr⟩
    | recv => simp [OrDone.step] at h
    | send => cases rr <;> simp [OrDone.step] at h
  | returned => cases b <;> simp [OrDone.step] at h

/-- A `Sleep` at its outer `select` can take up the value `v` that lies
further on in `in`, abandoning the values before it one by one, which a
closed `done` allows. -/
theorem Sleep_catch_up (d : Nat) (v : α) (l : List α) (closes dc : Bool) :
    ∀ (pending : List α) (tr : List (Event α)) (demand : Nat),
      (v :: l).Sublist pending → (dc = false → v :: l = pending) →
      ∃ sched rest, SleepAct.closeDone ∉ sched ∧
        runWith (Sleep d)
          { pc := SleepPC.outer, input := { pending := pending, closes := closes },
            doneClosed := dc, tr := tr, demand := demand } sched =
          some { pc := SleepPC.inner v, input := { pending := rest, closes := closes },
                 doneClosed := dc, tr := tr, demand := demand } ∧
        l.Sublist rest ∧ (dc = false → l = rest) := by
  intro pending
  induction pending with
  | nil =>
    intro tr demand hsub _
    cases hsub
  | cons x ps ih =>
    intro tr demand hsub heq
    by_cases hx : x = v ∧ (l.Sublist ps ∧ (dc = false → l = ps))
    · obtain ⟨rfl, hl, hle⟩ := hx
      exact ⟨[SleepAct.recv], ps, by simp, by simp [runWith, Sleep], hl, hle⟩
    · have hdc : dc = true := by
        cases dc with
        | true => rfl
        | false =>
          have := heq rfl
          simp only [List.cons.injEq] at this
          exact absurd ⟨this.1.symm, this.2 ▸ List.Sublist.refl _, fun _ => this.2⟩ hx
      subst hdc
      have hsub' : (v :: l).Sublist ps := by
        cases hsub with
        | cons _ h => exact h
        | cons₂ _ h => exact absurd ⟨rfl, h, fun hf => by simp at hf⟩ hx
      obtain ⟨sched, rest, hno, hrun, hl, hle⟩ := ih tr demand hsub' (fun hf => by simp at hf)
      refine ⟨SleepAct.recv :: SleepAct.done :: sched, rest, by simp [hno], ?_, hl, hle⟩
      simp only [runWith, Sleep, if_true, Option.some_bind]
      exact hrun

end GoConc.Stage

namespace GoConc.Stage

variable {α : Type}

/-- The goroutine of `OrDone` hands over the value it holds, and is then back
at its outer `select`. -/
theorem OrDone_hands_over (dc rr : Bool) (b : OrDone.Branch) (g g' : OrDone.Goroutine α)
    (v : α) (h : OrDone.step dc rr b g = some (g', some v)) :
    g.pc = OrDone.PC.inner v ∧ g' = { g with pc := OrDone.PC.outer } := by
  obtain ⟨pc, ⟨pending, closes⟩⟩ := g
  cases pc with
  | outer =>
    cases b with
    | done => cases dc <;> simp [OrDone.step] at h
    | recv => cases pending <;> cases closes <;> simp [OrDone.step] at h
    | send => simp [OrDone.step] at h
  | inner w =>
    cases b with
    | done => cases dc <;> simp [OrDone.step] at h
    | recv => simp [OrDone.step] at h
    | send =>
      cases rr with
      | false => simp [OrDone.step] at h
      | true =>
        simp only [OrDone.step, if_true, Option.some.injEq, Prod.mk.injEq] at h
        obtain ⟨h1, h2⟩ := h
        subst h1 h2
        exact ⟨rfl, rfl⟩
  | returned => cases b <;> simp [OrDone.step] at h

/-- The closing of `done` in `SleepOrDone` is matched by the closing of `done`
in `Sleep`. -/
theorem SleepOrDone_close_lagged (d : Nat) (s s' : SleepOrDoneSys α) (t : SleepSys α)
    (hl : Lags s t) (h : SleepOrDone d SleepOrDoneAct.closeDone s = some s') :
    ∃ t', Sleep d SleepAct.closeDone t = some t' ∧ Lags s' t' := by
  obtain ⟨pc, dc, tr, demand⟩ := s
  obtain ⟨tpc, ⟨tp, tcl⟩, tdc, ttr, tdem⟩ := t
  obtain ⟨h1, h2, h3, h4⟩ := hl
  simp only at h1 h2 h3 h4
  subst h1 h2 h3
  cases tdc with
  | true => simp [SleepOrDone] at h
  | false =>
    simp only [SleepOrDone, Bool.false_eq_true, if_false, Option.some.injEq] at h
    subst h
    refine ⟨_, by simp [Sleep]; rfl, rfl, rfl, rfl, ?_⟩
    have hb : ∀ g : OrDone.Goroutine α,
        Behind g { pc := tpc, input := { pending := tp, closes := tcl }, doneClosed := false,
                   tr := ttr, demand := tdem } →
        Behind g { pc := tpc, input := { pending := tp, closes := tcl }, doneClosed := true,
                   tr := ttr, demand := tdem } := by
      intro g hg
      exact ⟨hg.1, hg.2.1, fun hf => by simp at hf, fun _ => Or.inl rfl⟩
    cases pc with
    | range g => exact ⟨h4.1, hb g h4.2⟩
    | sel v g => exact ⟨h4.1, hb g h4.2⟩
    | sleeping g => exact ⟨h4.1, hb g h4.2⟩
    | returned => exact h4

end GoConc.Stage

namespace GoConc.Stage

variable {α : Type}

/-- Every step of `SleepOrDone` other than the closing of `done` is matched by
steps of `Sleep` that do not close `done` either and lead to a state that
shows the same events. -/
theorem SleepOrDone_lagged (d : Nat) (a : SleepOrDoneAct) (s s' : SleepOrDoneSys α)
    (t : SleepSys α) (ha : a ≠ SleepOrDoneAct.closeDone) (hl : Lags s t)
    (h : SleepOrDone d a s = some s') :
    ∃ sched t', SleepAct.closeDone ∉ sched ∧ runWith (Sleep d) t sched = some t' ∧
      Lags s' t' := by
  obtain ⟨pc, dc, tr, demand⟩ := s
  obtain ⟨tpc, ⟨tp, tcl⟩, tdc, ttr, tdem⟩ := t
  obtain ⟨h1, h2, h3, h4⟩ := hl
  simp only at h1 h2 h3 h4
  subst h1 h2 h3
  cases a with
  | closeDone => exact absurd rfl ha
  | orDone b =>
    cases pc with
    | range g =>
      obtain ⟨hpc, hb⟩ := h4
      subst hpc
      simp only [SleepOrDone] at h
      cases hr : OrDone.step tdc true b g with
      | none => simp [hr] at h
      | some r =>
        obtain ⟨g', o⟩ := r
        cases o with
        | none =>
          simp only [hr, Option.some.injEq] at h
          subst h
          exact ⟨[], _, by simp, rfl, rfl, rfl, rfl, rfl, Behind_step tdc true b g g' _ rfl hb hr⟩
        | some v =>
          simp only [hr, Option.some.injEq] at h
          subst h
          obtain ⟨hg, hg'⟩ := OrDone_hands_over tdc true b g g' v hr
          obtain ⟨b1, b2, b3, _⟩ := hb
          simp only [OrDone.Goroutine.rest, hg] at b2 b3
          simp only at b1
          obtain ⟨sched, rest, hno, hrun, hsub, heq⟩ :=
            Sleep_catch_up d v g.c.pending tcl tdc tp ttr tdem b2 b3
          refine ⟨sched, _, hno, hrun, rfl, rfl, rfl, rfl, ?_⟩
          subst hg'
          exact ⟨b1, by simpa [OrDone.Goroutine.rest] using hsub,
            fun hf => by simpa [OrDone.Goroutine.rest] using heq hf, fun hr => by simp at hr⟩
    | sel v g =>
      obtain ⟨hpc, hb⟩ := h4
      subst hpc
      simp only [SleepOrDone] at h
      cases hr : OrDone.step tdc false b g with
      | none => simp [hr] at h
      | some r =>
        obtain ⟨g', o⟩ := r
        cases o with
        | none =>
          simp only [hr, Option.some.injEq] at h
          subst h
          exact ⟨[], _, by simp, rfl, rfl, rfl, rfl, rfl, Behind_step tdc false b g g' _ rfl hb hr⟩
        | some w => simp [hr] at h
    | sleeping g =>
      obtain ⟨hpc, hb⟩ := h4
      subst hpc
      simp only [SleepOrDone] at h
      cases hr : OrDone.step tdc false b g with
      | none => simp [hr] at h
      | some r =>
        obtain ⟨g', o⟩ := r
        cases o with
        | none =>
          simp only [hr, Option.some.injEq] at h
          subst h
          exact ⟨[], _, by simp, rfl, rfl, rfl, rfl, rfl, Behind_step tdc false b g g' _ rfl hb hr⟩
        | some w => simp [hr] at h
    | returned => simp [SleepOrDone] at h
  | orDoneClosed =>
    cases pc with
    | range g =>
      obtain ⟨hpc, hb⟩ := h4
      subst hpc
      by_cases hret : g.pc.isReturned = true
      · simp only [SleepOrDone, hret, if_true, Option.some.injEq] at h
        subst h
        have hg : g.pc = OrDone.PC.returned := by
          cases hp : g.pc <;> simp [hp, OrDone.PC.isReturned] at hret
          rfl
        rcases hb.2.2.2 hg with hd | ⟨hp, hc⟩
        · simp only at hd
          subst hd
          exact ⟨[SleepAct.done], _, by simp, by simp [runWith, Sleep]; rfl, rfl, rfl, rfl, rfl⟩
        · simp only at hp hc
          subst hp hc
          exact ⟨[SleepAct.recv], _, by simp, by simp [runWith, Sleep]; rfl, rfl, rfl, rfl, rfl⟩
      · simp [SleepOrDone, hret] at h
    | sel v g => simp [SleepOrDone] at h
    | sleeping g => simp [SleepOrDone] at h
    | returned => simp [SleepOrDone] at h
  | done =>
    cases pc with
    | sel v g =>
      obtain ⟨hpc, hb⟩ := h4
      subst hpc
      cases tdc with
      | false => simp [SleepOrDone] at h
      | true =>
        simp only [SleepOrDone, if_true, Option.some.injEq] at h
        subst h
        exact ⟨[SleepAct.done, SleepAct.done], _, by simp, by simp [runWith, Sleep]; rfl,
          rfl, rfl, rfl, rfl⟩
    | range g => simp [SleepOrDone] at h
    | sleeping g => simp [SleepOrDone] at h
    | returned => simp [SleepOrDone] at h
  | send =>
    cases pc with
    | sel v g =>
      obtain ⟨hpc, hb⟩ := h4
      subst hpc
      by_cases hdem : 0 < tdem
      · simp only [SleepOrDone, hdem, if_true, Option.some.injEq] at h
        subst h
        exact ⟨[SleepAct.send],
          { pc := SleepPC.sleeping, input := { pending := tp, closes := tcl }, doneClosed := tdc,
            tr := ttr ++ [Event.emit v], demand := tdem - 1 },
          by simp, by simp [runWith, Sleep, hdem], rfl, rfl, rfl, rfl, hb⟩
      · simp [SleepOrDone, hdem] at h
    | range g => simp [SleepOrDone] at h
    | sleeping g => simp [SleepOrDone] at h
    | returned => simp [SleepOrDone] at h
  | sleep =>
    cases pc with
    | sleeping g =>
      obtain ⟨hpc, hb⟩ := h4
      subst hpc
      simp only [SleepOrDone, Option.some.injEq] at h
      subst h
      exact ⟨[SleepAct.sleep],
        { pc := SleepPC.outer, input := { pending := tp, closes := tcl }, doneClosed := tdc,
          tr := ttr ++ [Event.sleep d], demand := tdem },
        by simp, by simp [runWith, Sleep], rfl, rfl, rfl, rfl, hb⟩
    | range g => simp [SleepOrDone] at h
    | sel v g => simp [SleepOrDone] at h
    | returned => simp [SleepOrDone] at h

end GoConc.Stage

namespace GoConc.Stage

variable {α : Type}

/-- Every run of `SleepOrDone` is matched by a run of `Sleep` that shows the
same events and closes `done` only if the run of `SleepOrDone` does. -/
theorem SleepOrDone_run_lagged (d : Nat) :
    ∀ (sched : List SleepOrDoneAct) (s s' : SleepOrDoneSys α) (t : SleepSys α), Lags s t →
      runWith (SleepOrDone d) s sched = some s' →
      ∃ sched' t', runWith (Sleep d) t sched' = some t' ∧ Lags s' t' ∧
        (SleepOrDoneAct.closeDone ∉ sched → SleepAct.closeDone ∉ sched') := by
  intro sched
  induction sched with
  | nil =>
    intro s s' t hl h
    simp only [runWith, Option.some.injEq] at h
    subst h
    exact ⟨[], t, rfl, hl, fun _ => by simp⟩
  | cons a as ih =>
    intro s s' t hl h
    rw [runWith_cons] at h
    cases hs : SleepOrDone d a s with
    | none => simp [hs] at h
    | some s1 =>
      simp only [hs, Option.some_bind] at h
      by_cases ha : a = SleepOrDoneAct.closeDone
      · subst ha
        obtain ⟨t1, ht1, hl1⟩ := SleepOrDone_close_lagged d s s1 t hl hs
        obtain ⟨sched', t', hrun, hl', _⟩ := ih s1 s' t1 hl1 h
        refine ⟨SleepAct.closeDone :: sched', t', ?_, hl', fun hno => by simp at hno⟩
        rw [runWith_cons, ht1, Option.some_bind, hrun]
      · obtain ⟨sched0, t1, hno0, hrun0, hl1⟩ := SleepOrDone_lagged d a s s1 t ha hl hs
        obtain ⟨sched', t', hrun, hl', hno⟩ := ih s1 s' t1 hl1 h
        refine ⟨sched0 ++ sched', t', ?_, hl', ?_⟩
        · rw [runWith_append, hrun0, Option.some_bind, hrun]
        · intro hmem
          simp only [List.mem_cons, not_or] at hmem
          simp only [List.mem_append, not_or]
          exact ⟨hno0, hno hmem.2⟩

/-- Right after the calls the two stages stand at the same place. -/
theorem init_lags (vs : List α) (closes : Bool) (demand : Nat) :
    Lags (SleepOrDoneSys.init vs closes demand) (SleepSys.init vs closes demand) := by
  refine ⟨rfl, rfl, rfl, rfl, rfl, ?_, fun _ => rfl, fun h => ?_⟩
  · exact List.Sublist.refl _
  · simp [OrDone.spawn] at h

/-- A `SleepOrDone` that stands where a `Sleep` under the invariant `Pacing`
stands, and has not returned, is not stuck. -/
theorem SleepOrDone_progress (d : Nat) (all : List (Event α)) (s : SleepOrDoneSys α)
    (t : SleepSys α) (hl : Lags s t) (hinv : t.Pacing d all)
    (hpc : s.pc ≠ SleepOrDonePC.returned) :
    ∃ a s', a ≠ SleepOrDoneAct.closeDone ∧ SleepOrDone d a s = some s' := by
  obtain ⟨pc, dc, tr, demand⟩ := s
  obtain ⟨h1, h2, h3, h4⟩ := hl
  obtain ⟨p1, p2, _, p4⟩ := hinv
  simp only at h1 h2 h3 h4 hpc
  rw [p1] at h2
  subst h2 h3
  cases pc with
  | range g =>
    cases hret : g.pc.isReturned with
    | true =>
      exact ⟨SleepOrDoneAct.orDoneClosed, _, by simp, by simp [SleepOrDone, hret]; rfl⟩
    | false =>
      obtain ⟨b, r, hr⟩ := OrDone.goroutine_progress_open g (h4.2.1.trans p2) hret
      obtain ⟨g', o⟩ := r
      cases o with
      | none => exact ⟨SleepOrDoneAct.orDone b, _, by simp, by simp [SleepOrDone, hr]; rfl⟩
      | some v => exact ⟨SleepOrDoneAct.orDone b, _, by simp, by simp [SleepOrDone, hr]; rfl⟩
  | sel v g =>
    have hdem : 0 < t.demand := by
      simp only [SleepSys.toSend, h4.1] at p4
      omega
    exact ⟨SleepOrDoneAct.send, _, by simp, by simp [SleepOrDone, hdem]; rfl⟩
  | sleeping g => exact ⟨SleepOrDoneAct.sleep, _, by simp, by simp [SleepOrDone]; rfl⟩
  | returned => exact absurd rfl hpc

end GoConc.Stage

namespace GoConc.Stage

variable {α : Type}

/-- The runs of `Sleep` with `done` open keep the invariant `Pacing` and are
bounded. -/
theorem Sleep_run_pacing (d : Nat) (vs : List α) (demand : Nat) (hd : vs.length ≤ demand)
    (sched : List SleepAct) (s : SleepSys α) (hno : SleepAct.closeDone ∉ sched)
    (hrun : runWith (Sleep d) (SleepSys.init vs true demand) sched = some s) :
    s.Pacing d (paced d vs ++ [Event.close]) ∧ sched.length ≤ 3 * vs.length + 1 := by
  have hinit : (SleepSys.init vs true demand).Pacing d (paced d vs ++ [Event.close]) :=
    ⟨rfl, rfl, by simp [SleepSys.init, SleepSys.ahead], by simpa [SleepSys.init, SleepSys.toSend] using hd⟩
  obtain ⟨hinv, hfuel⟩ := runWith_invariant (Sleep d) (fun a => a ≠ SleepAct.closeDone)
    (fun t => t.Pacing d (paced d vs ++ [Event.close])) (fun t => t.fuel)
    (fun a t t' ha ht hst => Sleep_pacing d _ a t t' ha ht hst)
    sched _ s (fun a ha he => hno (he ▸ ha)) hinit hrun
  refine ⟨hinv, ?_⟩
  have : (SleepSys.init vs true demand).fuel = 3 * vs.length + 1 := by
    simp [SleepSys.init, SleepSys.fuel]
  omega

/-- Under the invariant `Pacing` the events so far are an initial segment of
all the events, and all of them once `Sleep` has returned. -/
theorem pacing_events (d : Nat) (all : List (Event α)) (s : SleepSys α)
    (hinv : s.Pacing d all) :
    s.tr <+: all ∧ (s.pc = SleepPC.returned → s.tr = all) := by
  obtain ⟨_, _, h3, _⟩ := hinv
  refine ⟨⟨_, h3⟩, fun hpc => ?_⟩
  simpa [SleepSys.ahead, hpc] using h3

end GoConc.Stage

namespace GoConc.Stage

variable {α : Type}

/-- Whatever `Sleep` can produce when `done` is closed at some moment,
`SleepOrDone` can produce too, and the other way round. -/
theorem produces_iff (d : Nat) (vs : List α) (closes : Bool) (demand : Nat)
    (before final : List (Event α)) :
    SleepSys.Produces d vs closes demand before final ↔
      SleepOrDoneSys.Produces d vs closes demand before final := by
  constructor
  · rintro ⟨sched1, sched2, s1, s1', s2, hno, hrun1, hb, hclose, hrun2, hpc, hf⟩
    obtain ⟨sched1', hrun1', hno'⟩ := Sleep_run_followed d sched1 _ s1 hrun1
    obtain ⟨sched2', hrun2', _⟩ := Sleep_run_followed d sched2 _ s2 hrun2
    have hclose' := Sleep_followed d SleepAct.closeDone s1 s1' hclose
    have hfollow : s1.follow SleepAct.closeDone = [SleepOrDoneAct.closeDone] := by
      simp [SleepSys.follow]
    rw [hfollow, runWith_cons] at hclose'
    cases hc : SleepOrDone d SleepOrDoneAct.closeDone s1.toOrDone with
    | none => simp [hc] at hclose'
    | some u =>
      simp only [hc, Option.some_bind, runWith_nil, Option.some.injEq] at hclose'
      subst hclose'
      exact ⟨sched1', sched2', s1.toOrDone, s1'.toOrDone, s2.toOrDone, hno' hno, hrun1', hb, hc,
        hrun2', by simp [SleepSys.toOrDone, hpc], hf⟩
  · rintro ⟨sched1, sched2, s1, s1', s2, hno, hrun1, hb, hclose, hrun2, hpc, hf⟩
    obtain ⟨sched1', t1, hrun1', hl1, hno'⟩ :=
      SleepOrDone_run_lagged d sched1 _ s1 _ (init_lags vs closes demand) hrun1
    obtain ⟨t1', hclose', hl1'⟩ := SleepOrDone_close_lagged d s1 s1' t1 hl1 hclose
    obtain ⟨sched2', t2, hrun2', hl2, _⟩ := SleepOrDone_run_lagged d sched2 s1' s2 t1' hl1' hrun2
    refine ⟨sched1', sched2', t1, t1', t2, hno' hno, hrun1', hl1.1.trans hb, hclose', hrun2',
      ?_, hl2.1.trans hf⟩
    have := hl2.2.2.2
    rw [hpc] at this
    exact this

/-- C27. For every input `vs` and every duration `d`.  With `done` never
closed, an `in` that is closed after `vs` and a reader that keeps receiving:
in every run of `Sleep`, and in every run of `SleepOrDone`, the events so far
are an initial segment of the values of `vs` in order, each followed by one
sleep of `d`, and the closing of `out`; a stage that has returned has produced
all of them; a stage that has not returned is never stuck; and for each stage
some run returns.  Whether `in` is closed or not, for every moment at which
`done` is closed, told by the events `before` it, the events `final` that
`Sleep` can have produced when it returns are those that `SleepOrDone` can. -/
theorem sleepOrDone_same_as_sleep (vs : List α) (d demand : Nat) (hd : vs.length ≤ demand) :
    (∀ sched s, SleepAct.closeDone ∉ sched →
      runWith (Sleep d) (SleepSys.init vs true demand) sched = some s →
      s.tr <+: paced d vs ++ [Event.close] ∧
      (s.pc = SleepPC.returned → s.tr = paced d vs ++ [Event.close]) ∧
      (s.pc ≠ SleepPC.returned → ∃ a s', a ≠ SleepAct.closeDone ∧ Sleep d a s = some s') ∧
      sched.length ≤ 3 * vs.length + 1) ∧
    (∃ sched s, SleepAct.closeDone ∉ sched ∧
      runWith (Sleep d) (SleepSys.init vs true demand) sched = some s ∧
      s.pc = SleepPC.returned ∧ s.tr = paced d vs ++ [Event.close]) ∧
    (∀ sched s, SleepOrDoneAct.closeDone ∉ sched →
      runWith (SleepOrDone d) (SleepOrDoneSys.init vs true demand) sched = some s →
      s.tr <+: paced d vs ++ [Event.close] ∧
      (s.pc = SleepOrDonePC.returned → s.tr = paced d vs ++ [Event.close]) ∧
      (s.pc ≠ SleepOrDonePC.returned →
        ∃ a s', a ≠ SleepOrDoneAct.closeDone ∧ SleepOrDone d a s = some s')) ∧
    (∃ sched s, SleepOrDoneAct.closeDone ∉ sched ∧
      runWith (SleepOrDone d) (SleepOrDoneSys.init vs true demand) sched = some s ∧
      s.pc = SleepOrDonePC.returned ∧ s.tr = paced d vs ++ [Event.close]) ∧
    (∀ closes before final,
      SleepSys.Produces d vs closes demand before final ↔
        SleepOrDoneSys.Produces d vs closes demand before final) := by
  have hinit : (SleepSys.init vs true demand).Pacing d (paced d vs ++ [Event.close]) :=
    (Sleep_run_pacing d vs demand hd [] _ (by simp) rfl).1
  have hex : ∃ sched s, SleepAct.closeDone ∉ sched ∧
      runWith (Sleep d) (SleepSys.init vs true demand) sched = some s ∧
      s.pc = SleepPC.returned ∧ s.tr = paced d vs ++ [Event.close] := by
    obtain ⟨sched, s, hall, hrun, hfin, hinv⟩ :=
      runWith_reaches (Sleep d) (fun a => a ≠ SleepAct.closeDone)
        (fun t => t.Pacing d (paced d vs ++ [Event.close])) (fun t => t.pc = SleepPC.returned)
        (fun t => t.fuel)
        (fun a t t' ha ht hst => Sleep_pacing d _ a t t' ha ht hst)
        (fun t ht hpc => Sleep_progress d _ t ht hpc) _ _ (le_refl _) hinit
    exact ⟨sched, s, fun hmem => hall _ hmem rfl, hrun, hfin, (pacing_events d _ s hinv).2 hfin⟩
  refine ⟨?_, hex, ?_, ?_, fun closes before final => produces_iff d vs closes demand before final⟩
  · intro sched s hno hrun
    obtain ⟨hinv, hlen⟩ := Sleep_run_pacing d vs demand hd sched s hno hrun
    obtain ⟨h1, h2⟩ := pacing_events d _ s hinv
    exact ⟨h1, h2, Sleep_progress d _ s hinv, hlen⟩
  · intro sched s hno hrun
    obtain ⟨sched', t, hrun', hl, hno'⟩ :=
      SleepOrDone_run_lagged d sched _ s _ (init_lags vs true demand) hrun
    obtain ⟨hinv, _⟩ := Sleep_run_pacing d vs demand hd sched' t (hno' hno) hrun'
    obtain ⟨h1, h2⟩ := pacing_events d _ t hinv
    rw [hl.1] at h1 h2
    refine ⟨h1, fun hpc => h2 ?_, SleepOrDone_progress d _ s t hl hinv⟩
    have := hl.2.2.2
    rw [hpc] at this
    exact this
  · obtain ⟨sched, s, hno, hrun, hpc, htr⟩ := hex
    obtain ⟨sched', hrun', hno'⟩ := Sleep_run_followed d sched _ s hrun
    exact ⟨sched', s.toOrDone, hno' hno, hrun', by simp [SleepSys.toOrDone, hpc], htr⟩

end GoConc.Stage

namespace GoConc.Stage

/-- C27 on the input `1, 2` with a sleep of 3: among the events that both
stages can produce is `2` alone, when `done` is closed before anything was
delivered, `1` is abandoned and `2` still goes through. -/
theorem sleepOrDone_same_as_sleep_witness :
    [1, 2].length ≤ 2 ∧
    SleepSys.Produces 3 [1, 2] true 2 [] [Event.emit 2, Event.sleep 3, Event.close] ∧
    ((∀ sched s, SleepAct.closeDone ∉ sched →
      runWith (Sleep 3) (SleepSys.init [1, 2] true 2) sched = some s →
      s.tr <+: paced 3 [1, 2] ++ [Event.close] ∧
      (s.pc = SleepPC.returned → s.tr = paced 3 [1, 2] ++ [Event.close]) ∧
      (s.pc ≠ SleepPC.returned → ∃ a s', a ≠ SleepAct.closeDone ∧ Sleep 3 a s = some s') ∧
      sched.length ≤ 3 * [1, 2].length + 1) ∧
    (∃ sched s, SleepAct.closeDone ∉ sched ∧
      runWith (Sleep 3) (SleepSys.init [1, 2] true 2) sched = some s ∧
      s.pc = SleepPC.returned ∧ s.tr = paced 3 [1, 2] ++ [Event.close]) ∧
    (∀ sched s, SleepOrDoneAct.closeDone ∉ sched →
      runWith (SleepOrDone 3) (SleepOrDoneSys.init [1, 2] true 2) sched = some s →
      s.tr <+: paced 3 [1, 2] ++ [Event.close] ∧
      (s.pc = SleepOrDonePC.returned → s.tr = paced 3 [1, 2] ++ [Event.close]) ∧
      (s.pc ≠ SleepOrDonePC.returned →
        ∃ a s', a ≠ SleepOrDoneAct.closeDone ∧ SleepOrDone 3 a s = some s')) ∧
    (∃ sched s, SleepOrDoneAct.closeDone ∉ sched ∧
      runWith (SleepOrDone 3) (SleepOrDoneSys.init [1, 2] true 2) sched = some s ∧
      s.pc = SleepOrDonePC.returned ∧ s.tr = paced 3 [1, 2] ++ [Event.close]) ∧
    (∀ closes before final,
      SleepSys.Produces 3 [1, 2] closes 2 before final ↔
        SleepOrDoneSys.Produces 3 [1, 2] closes 2 before final)) :=
  ⟨by decide,
   ⟨[], [SleepAct.recv, SleepAct.done, SleepAct.recv, SleepAct.send, SleepAct.sleep,
         SleepAct.done],
     SleepSys.init [1, 2] true 2,
     { pc := SleepPC.outer, input := { pending := [1, 2], closes := true }, doneClosed := true,
       tr := [], demand := 2 },
     { pc := SleepPC.returned, input := { pending := [], closes := true }, doneClosed := true,
       tr := [Event.emit 2, Event.sleep 3, Event.close], demand := 1 },
     by simp, rfl, rfl, by decide, by decide, rfl, rfl⟩,
   sleepOrDone_same_as_sleep [1, 2] 3 2 (by decide)⟩

end GoConc.Stage
